import Mathlib

/-!
# Open-addressed string hash table (`src/src/HashTable.c`)

A shallow embedding of the C hash table and a verification development over it.

Conventions of the embedding.

* A C string is the list of the values of its characters (none of them `0`), each as the
  `int` that `currChar = *key++` reads; `strcmp(a, b) == 0` is equality of the lists.
* `int` and `unsigned int` have 32 bits and `unsigned long` has 64. They are natural
  numbers or integers here; the places where the width of the machine type matters carry
  an explicit `% 2 ^ w` or return `none`.
* `double` and `float` values are IEEE-754 binary64 and binary32 values with
  round-to-nearest-even, each operation rounded on its own, written as integers over a
  fixed power of two (`2 ^ 53` for the doubles of `multiplicativeHash`, `2 ^ 65` for the
  load factor).
* A cast of a double that is out of the range of its target has no value in C;
  `goldenStep` says what stands in for it. The general theorems use only that the result
  of `multiplicativeHash` is below the capacity, and the keys of the programs that are
  evaluated stay in the defined range (`castsDefined`).
* A loop is a recursive function with an iteration budget; `none` is the answer of a
  function that ran out of budget or whose C counterpart has no defined result.
* `malloc`, `calloc` and `strdup` always succeed.
-/

namespace HashTable

/-- A C string: the values of its characters. -/
abbrev Key := List Nat

/-- A C string stored as a value. -/
abbrev Value := List Nat

/-! ## Floating point -/

/-- Number of binary digits of `n`, when `n < 2 ^ budget`. -/
def bitLengthAux : Nat → Nat → Nat
  | 0, _ => 0
  | budget + 1, n => if n = 0 then 0 else bitLengthAux budget (n / 2) + 1

/-- Number of binary digits of `n`. -/
def bitLength (n : Nat) : Nat :=
  bitLengthAux n n

/-- Round `n` to the nearest natural number with at most `p` significant binary digits,
ties to the one whose last kept digit is even (IEEE-754 round-to-nearest-even on a
significand of `p` digits). -/
def roundSig (p n : Nat) : Nat :=
  if bitLength n ≤ p then n
  else
    let shift := bitLength n - p
    let q := n / 2 ^ shift
    let r := n % 2 ^ shift
    let half := 2 ^ (shift - 1)
    if r < half ∨ (r = half ∧ q % 2 = 0) then q * 2 ^ shift else (q + 1) * 2 ^ shift

/-- The macro `A`, `0.6180339887`, as a binary64 value: `A / 2 ^ 53`. -/
def A : Nat := 5566755282423243

/-- The macro `MAX_LOAD_FACTOR`, `0.75`, over `2 ^ 65`. -/
def MAX_LOAD_FACTOR : Int := 3 * 2 ^ 63

/-- The macro `MIN_LOAD_FACTOR`, `0.25`, over `2 ^ 65`. -/
def MIN_LOAD_FACTOR : Int := 2 ^ 63

/-- The macro `INITIAL_TABLE_CAPACITY`. -/
def INITIAL_TABLE_CAPACITY : Nat := 1024

/-- The macro `GROWTH_FACTOR`. -/
def GROWTH_FACTOR : Nat := 2

/-- The binary32 quotient `x / y` of two binary32 values that are natural numbers, over
`2 ^ 65`: the exact quotient is cut after 65 fractional digits, a last digit records
whether anything was cut off, and the result is rounded to 24 significant digits. -/
def floatDiv (x y : Nat) : Nat :=
  roundSig 24 (2 * (x * 2 ^ 64 / y) + (if x * 2 ^ 64 % y = 0 then 0 else 1))

/-- The value of `(float)hashTable->count / hashTable->capacity` (lines 153 and 263), over
`2 ^ 65`: both operands are converted to binary32 and divided in binary32. -/
def loadFactor (count : Int) (capacity : Nat) : Int :=
  if 0 ≤ count then (floatDiv (roundSig 24 count.toNat) (roundSig 24 capacity) : Int)
  else - (floatDiv (roundSig 24 (-count).toNat) (roundSig 24 capacity) : Int)

/-! ## Hash functions -/

/-- The loop of `multiplicativeHash` (lines 79-82) on `unsigned long`. -/
def rollingHash (key : Key) : Nat :=
  key.foldl (fun hash currChar =>
    (currChar % 2 ^ 64 + hash * 2 ^ 6 % 2 ^ 64 + hash * 2 ^ 16 % 2 ^ 64
      + (2 ^ 64 - hash)) % 2 ^ 64) 0

/-- The value of `(unsigned int)(capacity * fractionalPart)` (lines 85 and 89) for the
final `hash`.

`x` is the double `hash * A` over `2 ^ 53`. When `x < 2 ^ 31` the cast `(int)(hash * A)`
is defined, `fractionalPart` is the exact fractional part of `x`, and the cast to
`unsigned int` is defined as well. Otherwise the C standard leaves both casts undefined;
the definition then follows x86-64 code, where `(int)` of a too large double is
`INT_MIN` and `(unsigned int)` keeps the low 32 bits of the 64-bit conversion, which is
`0x8000000000000000` when the double does not fit 64 bits. -/
def goldenStep (hash capacity : Nat) : Nat :=
  let x := roundSig 53 (roundSig 53 hash * A)
  let fractionalPart :=
    if x / 2 ^ 53 < 2 ^ 31 then x % 2 ^ 53 else roundSig 53 (x + 2 ^ 31 * 2 ^ 53)
  let scaled := roundSig 53 (capacity * fractionalPart) / 2 ^ 53
  if scaled < 2 ^ 63 then scaled % 2 ^ 32 else 0

/-- Whether the casts of `multiplicativeHash` are defined for `key`: the double `hash * A`
is below `2 ^ 31`. -/
def castsDefined (key : Key) : Bool :=
  decide (roundSig 53 (roundSig 53 (rollingHash key) * A) / 2 ^ 53 < 2 ^ 31)

/-- The function `multiplicativeHash` (lines 74-90). -/
def multiplicativeHash (key : Key) (capacity : Nat) : Nat :=
  goldenStep (rollingHash key) capacity % capacity

/-- The loop of `secondMultiplicativeHash` (lines 104-107) on `unsigned long`. -/
def secondRollingHash (key : Key) : Nat :=
  key.foldl (fun hash currChar =>
    (currChar % 2 ^ 64 + hash * 2 ^ 5 % 2 ^ 64 + hash) % 2 ^ 64) 0

/-- The function `secondMultiplicativeHash` (lines 99-110); the result is cut to
`unsigned int`. For `capacity = 1` the C code divides by zero. -/
def secondMultiplicativeHash (key : Key) (capacity : Nat) : Nat :=
  (secondRollingHash key % (capacity - 1) + 1) % 2 ^ 32

/-- The function `getNextIndex` (lines 144-147) on `unsigned int`. -/
def getNextIndex (index increaseIndex capacity : Nat) : Nat :=
  (index + increaseIndex) % 2 ^ 32 % capacity

/-! ## The table -/

end HashTable

/-- The struct `Entry` of `HashTable.h`: an owned copy of a key and of a value. -/
structure Entry where
  key : HashTable.Key
  value : HashTable.Value
deriving DecidableEq

/-- The struct `HashTable` of `HashTable.h`. The array `entries` is the list of its
`capacity` cells, `none` for a `NULL` cell. -/
structure HashTable where
  count : Int
  capacity : Nat
  entries : List (Option Entry)
deriving DecidableEq

namespace HashTable

/-- The memory an operation works on: the global variable `CURR_TABLE_CAPACITY` and the
table its argument `hashTable` points to. -/
structure Mem where
  CURR_TABLE_CAPACITY : Nat
  hashTable : HashTable
deriving DecidableEq

/-- The function `createEntry` (lines 23-31). -/
def createEntry (key : Key) (value : Value) : Entry :=
  { key := key, value := value }

/-- The function `newHashTable` (lines 34-43), given the value of the global variable. -/
def newHashTable (CURR_TABLE_CAPACITY : Nat) : HashTable :=
  { count := 0
    capacity := CURR_TABLE_CAPACITY
    entries := List.replicate CURR_TABLE_CAPACITY none }

/-- The cell `hashTable->entries[index]`. -/
def slot (t : HashTable) (index : Nat) : Option Entry :=
  t.entries.getD index none

/-- The probe loop of `insert` and what follows it (lines 164-186). Each evaluation of the
loop condition takes one unit of `budget`. -/
def insertLoop (key : Key) (value : Value) (increaseIndex start : Nat) :
    Nat → HashTable → Nat → Option HashTable
  | 0, _, _ => none
  | budget + 1, t, index =>
    match slot t index with
    | none =>
      some { t with
        entries := t.entries.set index (some (createEntry key value))
        count := t.count + 1 }
    | some entry =>
      if entry.key = key then
        some { t with entries := t.entries.set index (some { entry with value := value }) }
      else
        let index := getNextIndex index increaseIndex t.capacity
        if index = start then some t
        else insertLoop key value increaseIndex start budget t index

/-- The rehash loop of `resizeTable` (lines 129-138) over the old cells, with `ins` for
the function `insert`. -/
def rehash (ins : Mem → Key → Value → Option Mem) : List (Option Entry) → Mem → Option Mem
  | [], m => some m
  | none :: oldEntries, m => rehash ins oldEntries m
  | some entry :: oldEntries, m =>
    match ins m entry.key entry.value with
    | none => none
    | some m => rehash ins oldEntries m

/-- The function `resizeTable` (lines 117-141), with `ins` for the function `insert`. -/
def resizeTableWith (ins : Mem → Key → Value → Option Mem) (m : Mem) (newCapacity : Nat) :
    Option Mem :=
  rehash ins m.hashTable.entries
    { CURR_TABLE_CAPACITY := newCapacity
      hashTable :=
        { count := 0
          capacity := newCapacity
          entries := List.replicate newCapacity none } }

/-- The function `insert` (lines 150-187) with a budget for the nesting of `insert` inside
`resizeTable` inside `insert`. The product `capacity * GROWTH_FACTOR` is an `int`: it has
no defined value from `2 ^ 31` on. -/
def insertDepth : Nat → Mem → Key → Value → Option Mem
  | 0, _, _, _ => none
  | depth + 1, m, key, value =>
    let resized :=
      if MAX_LOAD_FACTOR < loadFactor m.hashTable.count m.hashTable.capacity then
        if m.hashTable.capacity * GROWTH_FACTOR < 2 ^ 31 then
          resizeTableWith (fun m key value => insertDepth depth m key value) m
            (m.hashTable.capacity * GROWTH_FACTOR)
        else none
      else some m
    match resized with
    | none => none
    | some m =>
      let index := multiplicativeHash key m.hashTable.capacity
      let increaseIndex := secondMultiplicativeHash key m.hashTable.capacity
      match insertLoop key value increaseIndex index m.hashTable.capacity m.hashTable index with
      | none => none
      | some t => some { m with hashTable := t }

/-- The function `insert` (lines 150-187). -/
def insert (m : Mem) (key : Key) (value : Value) : Option Mem :=
  insertDepth 4 m key value

/-- The function `resizeTable` (lines 117-141). -/
def resizeTable (m : Mem) (newCapacity : Nat) : Option Mem :=
  resizeTableWith insert m newCapacity

/-- The loop of `get` (lines 196-209); the result is the returned pointer, `none` for
`NULL`. -/
def getLoop (key : Key) (increaseIndex start : Nat) (t : HashTable) :
    Nat → Nat → Option (Option Value)
  | 0, _ => none
  | budget + 1, index =>
    match slot t index with
    | none => some none
    | some entry =>
      if entry.key = key then some (some entry.value)
      else
        let index := getNextIndex index increaseIndex t.capacity
        if index = start then some none
        else getLoop key increaseIndex start t budget index

/-- The function `get` (lines 190-212). -/
def get (t : HashTable) (key : Key) : Option (Option Value) :=
  let index := multiplicativeHash key t.capacity
  let increaseIndex := secondMultiplicativeHash key t.capacity
  getLoop key increaseIndex index t t.capacity index

/-- The re-insertion loop of `delete` (lines 239-249). -/
def deleteWalk (increaseIndex : Nat) : Nat → Mem → Nat → Option Mem
  | 0, _, _ => none
  | budget + 1, m, nextIndex =>
    match slot m.hashTable nextIndex with
    | none => some m
    | some temp =>
      let cleared : Mem :=
        { m with
          hashTable :=
            { m.hashTable with
              entries := m.hashTable.entries.set nextIndex none
              count := m.hashTable.count - 1 } }
      match insert cleared temp.key temp.value with
      | none => none
      | some m =>
        deleteWalk increaseIndex budget m
          (getNextIndex nextIndex increaseIndex m.hashTable.capacity)

/-- The search loop of `delete` (lines 228-260). The flag of the result is `true` when the
function returned from inside the loop (line 258). -/
def deleteLoop (key : Key) (increaseIndex start : Nat) : Nat → Mem → Nat → Option (Bool × Mem)
  | 0, _, _ => none
  | budget + 1, m, index =>
    match slot m.hashTable index with
    | none => some (false, m)
    | some entry =>
      if entry.key = key then
        let cleared : Mem :=
          { m with
            hashTable :=
              { m.hashTable with
                entries := m.hashTable.entries.set index none
                count := m.hashTable.count - 1 } }
        match deleteWalk increaseIndex (m.hashTable.capacity ^ 4) cleared
            (getNextIndex index increaseIndex m.hashTable.capacity) with
        | none => none
        | some m => some (false, m)
      else
        let index := getNextIndex index increaseIndex m.hashTable.capacity
        if index = start then some (true, m)
        else deleteLoop key increaseIndex start budget m index

/-- The function `delete` (lines 222-269). The argument of the `resizeTable` call is the
double `capacity * SHRINK_FACTOR`, `capacity * 0.5`, converted to `int`. -/
def delete (m : Mem) (key : Key) : Option Mem :=
  let index := multiplicativeHash key m.hashTable.capacity
  let increaseIndex := secondMultiplicativeHash key m.hashTable.capacity
  match deleteLoop key increaseIndex index m.hashTable.capacity m index with
  | none => none
  | some (true, m) => some m
  | some (false, m) =>
    if loadFactor m.hashTable.count m.hashTable.capacity < MIN_LOAD_FACTOR
        ∧ INITIAL_TABLE_CAPACITY < m.hashTable.capacity then
      resizeTable m (m.hashTable.capacity / 2)
    else some m

/-! ## The probe sequence -/

/-- Where the search for a key along its probe sequence ends. -/
inductive Probe where
  /-- At a cell that holds the key. -/
  | found (index : Nat)
  /-- At a `NULL` cell. -/
  | empty (index : Nat)
  /-- Back at the start index. -/
  | cycled
deriving DecidableEq

/-- The search that the loops of `insert`, `get` and `delete` share (lines 164-182,
196-209 and 228-260): walk from `index` in steps of `increaseIndex` until a `NULL` cell,
a cell with the key, or the start index comes up. -/
def probeLoop (key : Key) (increaseIndex start : Nat) (t : HashTable) :
    Nat → Nat → Option Probe
  | 0, _ => none
  | budget + 1, index =>
    match slot t index with
    | none => some (.empty index)
    | some entry =>
      if entry.key = key then some (.found index)
      else
        let index := getNextIndex index increaseIndex t.capacity
        if index = start then some .cycled
        else probeLoop key increaseIndex start t budget index

/-- The search for `key` in `t`, from `multiplicativeHash` in steps of
`secondMultiplicativeHash`. -/
def probe (t : HashTable) (key : Key) : Option Probe :=
  probeLoop key (secondMultiplicativeHash key t.capacity) (multiplicativeHash key t.capacity) t
    t.capacity (multiplicativeHash key t.capacity)

/-- What `insert` does to the table once its search has ended. -/
def place (t : HashTable) (key : Key) (value : Value) : Probe → HashTable
  | .found index =>
    { t with entries := t.entries.set index (some (createEntry key value)) }
  | .empty index =>
    { t with
      entries := t.entries.set index (some (createEntry key value))
      count := t.count + 1 }
  | .cycled => t

/-- Every entry sits where the search for its key ends. -/
def Findable (t : HashTable) : Prop :=
  ∀ index entry, slot t index = some entry → probe t entry.key = some (.found index)

/-- No two non-empty cells hold the same key. -/
def UniqueKeys (t : HashTable) : Prop :=
  ∀ i j entry entry', slot t i = some entry → slot t j = some entry' →
    entry.key = entry'.key → i = j

/-! ## Well-formed tables -/

/-- Number of non-empty cells of the array `entries`. -/
def occupied (t : HashTable) : Nat :=
  t.entries.countP Option.isSome

/-- The shape every table of a program has: the capacity is `1024` times a power of two
and fits an `int`, the array has `capacity` cells, and `count` is the number of non-empty
cells. -/
structure WellFormed (t : HashTable) : Prop where
  shape : ∃ k, t.capacity = INITIAL_TABLE_CAPACITY * 2 ^ k
  range : t.capacity < 2 ^ 31
  size : t.entries.length = t.capacity
  exact : t.count = (occupied t : Int)

/-- The bound `insert` keeps on the load: without its last entry the table is at most
three quarters full, up to the rounding of the count to binary32, which is one part in
`2 ^ 24`. -/
def LoadBounded (t : HashTable) : Prop :=
  2 ^ 26 * (t.count - 1) ≤ 3 * (2 ^ 24 + 1) * (t.capacity : Int)

/-- A value the capacity of a table can have. -/
def CapacityOK (capacity : Nat) : Prop :=
  (∃ k, capacity = INITIAL_TABLE_CAPACITY * 2 ^ k) ∧ capacity < 2 ^ 31

/-- The table and the global variable are in shape. -/
structure Mem.OK (m : Mem) : Prop where
  table : WellFormed m.hashTable
  global : CapacityOK m.CURR_TABLE_CAPACITY

/-! ## Programs over several tables -/

/-- The state of a program that uses the table: the global variable and the tables it has
created, a table pointer being the position in `tables`. -/
structure State where
  CURR_TABLE_CAPACITY : Nat
  tables : List HashTable
deriving DecidableEq

/-- A call of one of the public functions that change the state. -/
inductive Call where
  | newHashTable
  | insert (pointer : Nat) (key : Key) (value : Value)
  | delete (pointer : Nat) (key : Key)
deriving DecidableEq

/-- The state at program start (line 17). -/
def State.initial : State :=
  { CURR_TABLE_CAPACITY := INITIAL_TABLE_CAPACITY, tables := [] }

/-- Write the outcome of an operation on the table at `pointer` back into the state. -/
def State.store (s : State) (pointer : Nat) (m : Mem) : State :=
  { CURR_TABLE_CAPACITY := m.CURR_TABLE_CAPACITY, tables := s.tables.set pointer m.hashTable }

/-- One call. A call on a pointer that `newHashTable` has not returned has no result. -/
def State.step (s : State) : Call → Option State
  | .newHashTable =>
    some { s with tables := s.tables ++ [HashTable.newHashTable s.CURR_TABLE_CAPACITY] }
  | .insert pointer key value =>
    match s.tables.get? pointer with
    | none => none
    | some t =>
      (HashTable.insert ⟨s.CURR_TABLE_CAPACITY, t⟩ key value).map (s.store pointer)
  | .delete pointer key =>
    match s.tables.get? pointer with
    | none => none
    | some t =>
      (HashTable.delete ⟨s.CURR_TABLE_CAPACITY, t⟩ key).map (s.store pointer)

/-- A sequence of calls, first call first. -/
def State.run : State → List Call → Option State
  | s, [] => some s
  | s, call :: calls =>
    match s.step call with
    | none => none
    | some s => s.run calls

/-! ## Tables written out -/

/-- The table of the given capacity whose non-empty cells are the listed ones. -/
def tableOf (capacity : Nat) (cells : List (Nat × Entry)) : HashTable :=
  { count := cells.length
    capacity := capacity
    entries := cells.foldl (fun entries cell => entries.set cell.1 (some cell.2))
      (List.replicate capacity none) }

/-! ## A program that makes a table grow -/

/-- Whether the numbers of a list increase strictly from `bound` on. -/
def increasingFrom : Nat → List Nat → Bool
  | _, [] => true
  | bound, x :: xs => decide (bound ≤ x) && increasingFrom (x + 1) xs

/-- 769 keys of two letters or digits, in the order of their start indices in a table of
capacity 1024, which are pairwise different. -/
def growKeys : List Key :=
  [[56, 97], [53, 99], [50, 101], [69, 111], [98, 48], [55, 109], [52, 111], [49, 113], [57, 119],
   [75, 52], [54, 121], [72, 54], [69, 56], [55, 54], [52, 56], [71, 66], [115, 82], [68, 68],
   [54, 66], [51, 68], [48, 70], [56, 76], [53, 78], [50, 80], [69, 90], [55, 88], [88, 100],
   [52, 90], [71, 100], [57, 98], [54, 100], [116, 49], [51, 102], [48, 104], [56, 110], [53, 112],
   [82, 49], [50, 114], [79, 51], [55, 122], [73, 55], [48, 49], [56, 55], [53, 57], [72, 67],
   [69, 69], [55, 67], [52, 69], [49, 71], [57, 77], [54, 79], [51, 81], [48, 83], [56, 89],
   [75, 99], [72, 101], [69, 103], [55, 101], [52, 103], [49, 105], [57, 111], [86, 48], [54, 113],
   [51, 115], [48, 117], [66, 50], [52, 48], [49, 50], [57, 56], [76, 66], [73, 68], [70, 70],
   [56, 68], [53, 70], [50, 72], [69, 82], [55, 80], [52, 82], [49, 84], [57, 90], [76, 100],
   [73, 102], [70, 104], [56, 102], [53, 104], [104, 49], [50, 106], [69, 116], [55, 114],
   [52, 116], [49, 118], [67, 51], [53, 49], [50, 51], [80, 65], [77, 67], [74, 69], [71, 71],
   [57, 69], [54, 71], [51, 73], [117, 97], [48, 75], [56, 81], [53, 83], [50, 85], [80, 99],
   [66, 97], [74, 103], [49, 97], [57, 103], [68, 107], [54, 105], [51, 107], [48, 109], [56, 115],
   [74, 48], [53, 117], [50, 119], [57, 48], [54, 50], [51, 52], [48, 54], [81, 66], [78, 68],
   [75, 70], [72, 72], [69, 74], [55, 72], [52, 74], [49, 76], [57, 82], [54, 84], [51, 86],
   [48, 88], [67, 98], [75, 104], [50, 98], [69, 108], [55, 106], [52, 108], [103, 53], [49, 110],
   [57, 116], [54, 118], [51, 120], [48, 122], [55, 51], [52, 53], [49, 55], [68, 65], [65, 67],
   [51, 65], [48, 67], [56, 73], [53, 75], [50, 77], [69, 87], [55, 85], [52, 87], [49, 89],
   [68, 99], [54, 97], [51, 99], [48, 101], [56, 107], [107, 52], [53, 109], [50, 111], [69, 121],
   [55, 119], [73, 52], [52, 121], [70, 54], [56, 52], [53, 54], [50, 56], [69, 66], [66, 68],
   [52, 66], [49, 68], [57, 74], [54, 76], [51, 78], [48, 80], [56, 86], [53, 88], [86, 100],
   [50, 90], [69, 100], [55, 98], [52, 100], [114, 49], [49, 102], [57, 108], [54, 110], [51, 112],
   [48, 114], [70, 122], [56, 120], [53, 122], [71, 55], [57, 53], [54, 55], [51, 57], [70, 67],
   [56, 65], [53, 67], [50, 69], [72, 77], [69, 79], [55, 77], [52, 79], [49, 81], [57, 87],
   [54, 89], [73, 99], [70, 101], [56, 99], [53, 101], [50, 103], [69, 113], [55, 111], [84, 48],
   [52, 113], [49, 115], [57, 121], [75, 54], [50, 48], [102, 70], [55, 56], [74, 66], [71, 68],
   [57, 66], [54, 68], [51, 70], [48, 72], [56, 78], [53, 80], [50, 82], [102, 104], [55, 90],
   [74, 100], [71, 102], [57, 100], [54, 102], [51, 104], [102, 49], [48, 106], [56, 112],
   [53, 114], [50, 116], [68, 49], [65, 51], [51, 49], [48, 51], [56, 57], [75, 67], [72, 69],
   [69, 71], [55, 69], [52, 71], [49, 73], [115, 97], [57, 79], [54, 81], [51, 83], [48, 85],
   [78, 99], [75, 101], [72, 103], [69, 105], [55, 103], [77, 111], [52, 105], [49, 107],
   [57, 113], [54, 115], [72, 48], [51, 117], [48, 119], [55, 48], [52, 50], [49, 52], [79, 66],
   [76, 68], [73, 70], [70, 72], [56, 70], [53, 72], [50, 74], [69, 84], [55, 82], [52, 84],
   [49, 86], [79, 100], [65, 98], [73, 104], [48, 98], [56, 104], [53, 106], [50, 108], [90, 49],
   [69, 118], [55, 116], [52, 118], [49, 120], [56, 49], [53, 51], [50, 53], [80, 67], [66, 65],
   [74, 71], [49, 65], [57, 71], [54, 73], [51, 75], [48, 77], [56, 83], [53, 85], [50, 87],
   [69, 97], [66, 99], [52, 97], [49, 99], [57, 105], [54, 107], [105, 52], [51, 109], [48, 111],
   [56, 117], [53, 119], [71, 52], [50, 121], [57, 50], [54, 52], [51, 54], [48, 56], [67, 66],
   [75, 72], [50, 66], [69, 76], [55, 74], [52, 76], [49, 78], [57, 84], [54, 86], [51, 88],
   [106, 108], [48, 90], [67, 100], [53, 98], [50, 100], [112, 49], [69, 110], [55, 108],
   [52, 110], [49, 112], [57, 118], [68, 122], [54, 120], [51, 122], [69, 55], [55, 53], [52, 55],
   [49, 57], [68, 67], [54, 65], [51, 67], [48, 69], [70, 77], [56, 75], [53, 77], [50, 79],
   [69, 89], [55, 87], [52, 89], [71, 99], [57, 97], [54, 99], [51, 101], [48, 103], [56, 109],
   [53, 111], [82, 48], [50, 113], [79, 50], [55, 121], [73, 54], [48, 48], [56, 54], [53, 56],
   [72, 66], [69, 68], [55, 66], [52, 68], [49, 70], [57, 76], [54, 78], [51, 80], [48, 82],
   [56, 88], [53, 90], [72, 100], [69, 102], [55, 100], [52, 102], [49, 104], [100, 49], [57, 110],
   [54, 112], [51, 114], [48, 116], [56, 122], [74, 55], [49, 49], [57, 55], [54, 57], [73, 67],
   [70, 69], [56, 67], [53, 69], [50, 71], [69, 81], [113, 97], [55, 79], [52, 81], [49, 83],
   [57, 89], [76, 99], [73, 101], [70, 103], [56, 101], [53, 103], [86, 115], [50, 105], [69, 115],
   [55, 113], [52, 115], [70, 48], [49, 117], [67, 50], [53, 48], [50, 50], [102, 72], [77, 66],
   [88, 70], [74, 68], [71, 70], [57, 68], [54, 70], [51, 72], [48, 74], [56, 80], [53, 82],
   [50, 84], [105, 104], [80, 98], [77, 100], [74, 102], [71, 104], [122, 49], [57, 102],
   [54, 104], [51, 106], [48, 108], [88, 49], [56, 114], [53, 116], [50, 118], [68, 51], [54, 49],
   [51, 51], [48, 53], [78, 67], [75, 69], [72, 71], [69, 73], [55, 71], [52, 73], [49, 75],
   [57, 81], [54, 83], [51, 85], [48, 87], [67, 97], [75, 103], [50, 97], [69, 107], [55, 105],
   [52, 107], [103, 52], [49, 109], [57, 115], [54, 117], [51, 119], [69, 52], [48, 121], [55, 50],
   [52, 52], [49, 54], [79, 68], [65, 66], [73, 72], [48, 66], [56, 72], [53, 74], [50, 76],
   [69, 86], [55, 84], [52, 86], [49, 88], [104, 108], [68, 98], [65, 100], [51, 98], [48, 100],
   [110, 49], [56, 106], [53, 108], [50, 110], [69, 120], [55, 118], [73, 51], [52, 120],
   [49, 122], [56, 51], [53, 53], [50, 55], [69, 65], [66, 67], [52, 65], [49, 67], [57, 73],
   [79, 81], [54, 75], [51, 77], [48, 79], [56, 85], [53, 87], [50, 89], [69, 99], [55, 97],
   [52, 99], [49, 101], [57, 107], [54, 109], [51, 111], [80, 48], [48, 113], [56, 119], [53, 121],
   [71, 54], [57, 52], [54, 54], [51, 56], [70, 66], [67, 68], [53, 66], [50, 68], [69, 78],
   [55, 76], [52, 78], [49, 80], [57, 86], [54, 88], [51, 90], [70, 100], [56, 98], [53, 100],
   [50, 102], [69, 112], [98, 49], [55, 110], [52, 112], [49, 114], [57, 120], [54, 122], [72, 55],
   [69, 57], [55, 55], [52, 57], [71, 67], [57, 65], [54, 67], [51, 69], [48, 71], [56, 77],
   [122, 101], [53, 79], [50, 81], [102, 103], [55, 89], [74, 99], [71, 101], [57, 99], [54, 101],
   [51, 103], [102, 48], [48, 105], [56, 111], [53, 113], [50, 115], [68, 48], [65, 50], [51, 48],
   [48, 50], [56, 56], [75, 66], [97, 74], [72, 68], [69, 70], [55, 68], [52, 70], [49, 72],
   [57, 78], [54, 80], [51, 82], [48, 84], [103, 104], [56, 90], [75, 100], [72, 102], [69, 104],
   [120, 49], [55, 102], [52, 104], [49, 106], [57, 112], [86, 49], [54, 114], [51, 116],
   [48, 118], [66, 51], [52, 49], [49, 51], [57, 57], [76, 67], [73, 69], [70, 71], [56, 69],
   [53, 71], [50, 73], [69, 83], [55, 81], [52, 83], [49, 85], [79, 99], [65, 97], [73, 103],
   [48, 97], [56, 103], [53, 105], [50, 107], [90, 48], [69, 117], [55, 115], [52, 117], [49, 119],
   [56, 48], [53, 50], [50, 52], [80, 66], [77, 68], [74, 70], [71, 72], [57, 70], [54, 72],
   [51, 74], [48, 76], [56, 82], [53, 84], [50, 86], [80, 100], [113, 112], [66, 98], [74, 104],
   [49, 98], [57, 104], [108, 49], [54, 106], [51, 108], [48, 110], [56, 116], [53, 118], [71, 51],
   [50, 120], [57, 49], [54, 51], [51, 53], [48, 55], [67, 65], [75, 71], [50, 65], [69, 75],
   [55, 73], [88, 85], [52, 75], [49, 77], [57, 83], [54, 85], [51, 87], [48, 89], [67, 99],
   [53, 97], [50, 99], [72, 107], [69, 109], [55, 107], [52, 109], [49, 111], [78, 48], [57, 117],
   [54, 119], [51, 121], [69, 54], [55, 52], [52, 54], [49, 56], [68, 66], [65, 68], [51, 66],
   [48, 68], [56, 74], [53, 76], [50, 78], [69, 88], [55, 86], [52, 88], [49, 90], [68, 100],
   [54, 98], [51, 100], [48, 102], [56, 108], [107, 53], [53, 110], [50, 112], [69, 122],
   [55, 120], [52, 122], [70, 55], [56, 53], [53, 55], [50, 57], [69, 67], [55, 65], [52, 67],
   [49, 69], [57, 75], [54, 77], [51, 79], [48, 81], [56, 87], [53, 89], [72, 99], [69, 101],
   [55, 99], [52, 101], [49, 103], [100, 48], [57, 109], [54, 111], [51, 113], [48, 115], [66, 48],
   [56, 121], [74, 54], [49, 48]]

/-- A program that creates a table and inserts the 769 keys of `growKeys` and the key
`"zz"`: the last insert finds 769 entries in 1024 cells and calls `resizeTable`. -/
def growCalls : List Call :=
  Call.newHashTable :: (growKeys.map (fun key => Call.insert 0 key [])
    ++ [Call.insert 0 [122, 122] []])

/-- Whether a call is an `insert` or a `delete` on the table at `pointer`. -/
def Call.on (pointer : Nat) : Call → Bool
  | .newHashTable => false
  | .insert p _ _ => p == pointer
  | .delete p _ => p == pointer

/-- The calls of a program from the point of view of one table: `insert` and `delete` on
this table, whatever the pointer, and nothing for a `newHashTable`. -/
def Mem.step (m : Mem) : Call → Option Mem
  | .newHashTable => some m
  | .insert _ key value => insert m key value
  | .delete _ key => delete m key

/-- A sequence of calls on one table. -/
def Mem.run : Mem → List Call → Option Mem
  | m, [] => some m
  | m, call :: calls =>
    match m.step call with
    | none => none
    | some m => m.run calls

/-- Every table of the state and the global variable are in shape. -/
structure State.OK (s : State) : Prop where
  tables : ∀ t, t ∈ s.tables → WellFormed t
  global : CapacityOK s.CURR_TABLE_CAPACITY

/-! ## The probe sequence as a formula -/

/-- The `j`-th index of the probe sequence from `start` in steps of `increaseIndex`, in
closed form. -/
def probeIndex (start increaseIndex capacity j : Nat) : Nat :=
  (start + j * increaseIndex) % capacity

/-- The index after `j` calls of `getNextIndex` from `start`, as the loops compute it. -/
def probeWalk (start increaseIndex capacity : Nat) : Nat → Nat
  | 0 => start
  | j + 1 => getNextIndex (probeWalk start increaseIndex capacity j) increaseIndex capacity

/-- Every entry sits on the probe sequence of its key, before the sequence first returns
to its start. -/
def OnCycle (t : HashTable) : Prop :=
  ∀ index entry, slot t index = some entry →
    ∃ j, j < t.capacity / Nat.gcd (secondMultiplicativeHash entry.key t.capacity) t.capacity
      ∧ index = probeIndex (multiplicativeHash entry.key t.capacity)
          (secondMultiplicativeHash entry.key t.capacity) t.capacity j

/-! ## Instrumented variants of `insert` and of the walk of `delete` -/

/-- The function `insert` (lines 150-187) cut off at the call of `resizeTable`: there is no
result when the test of line 153 holds, and otherwise the result of `insert`. -/
def insertNoResize (m : Mem) (key : Key) (value : Value) : Option Mem :=
  if MAX_LOAD_FACTOR < loadFactor m.hashTable.count m.hashTable.capacity then none
  else
    let index := multiplicativeHash key m.hashTable.capacity
    let increaseIndex := secondMultiplicativeHash key m.hashTable.capacity
    match insertLoop key value increaseIndex index m.hashTable.capacity m.hashTable index with
    | none => none
    | some t => some { m with hashTable := t }

theorem getD_set_self (l : List (Option Entry)) (i : Nat) (a : Option Entry)
    (h : i < l.length) : (l.set i a).getD i none = a := by
  induction l generalizing i with
  | nil => simp at h
  | cons x xs ih =>
    cases i with
    | zero => simp
    | succ i =>
      have h1 : i < xs.length := by simpa using h
      simpa using ih i h1

theorem getD_set_ne (l : List (Option Entry)) (i j : Nat) (a : Option Entry)
    (h : i ≠ j) : (l.set i a).getD j none = l.getD j none := by
  induction l generalizing i j with
  | nil => simp
  | cons x xs ih =>
    cases i with
    | zero =>
      cases j with
      | zero => exact absurd rfl h
      | succ j => simp
    | succ i =>
      cases j with
      | zero => simp
      | succ j =>
        have h1 : i ≠ j := fun e => h (by rw [e])
        simpa using ih i j h1

theorem getD_replicate_none (n i : Nat) :
    (List.replicate n (none : Option Entry)).getD i none = none := by
  induction n generalizing i with
  | zero => simp
  | succ n ih =>
    cases i with
    | zero => simp [List.replicate_succ]
    | succ i => simp [List.replicate_succ]

theorem countP_replicate_none (n : Nat) :
    (List.replicate n (none : Option Entry)).countP Option.isSome = 0 := by
  induction n with
  | zero => simp
  | succ n ih => simp [List.replicate_succ, ih]

theorem countP_le_length (l : List (Option Entry)) :
    l.countP Option.isSome ≤ l.length := by
  induction l with
  | nil => simp
  | cons x xs ih =>
    cases x with
    | none => simp; omega
    | some e => simp; omega

theorem countP_set_some_of_none (l : List (Option Entry)) (i : Nat) (e : Entry)
    (h : i < l.length) (hn : l.getD i none = none) :
    (l.set i (some e)).countP Option.isSome = l.countP Option.isSome + 1 := by
  induction l generalizing i with
  | nil => simp at h
  | cons x xs ih =>
    cases i with
    | zero =>
      have hx : x = none := by simpa using hn
      subst hx
      simp
    | succ i =>
      have h1 : i < xs.length := by simpa using h
      have h2 : xs.getD i none = none := by simpa using hn
      have := ih i h1 h2
      cases x with
      | none => simpa using this
      | some e0 => simp [this]

theorem countP_set_some_of_some (l : List (Option Entry)) (i : Nat) (e e0 : Entry)
    (hn : l.getD i none = some e0) :
    (l.set i (some e)).countP Option.isSome = l.countP Option.isSome := by
  induction l generalizing i with
  | nil => simp at hn
  | cons x xs ih =>
    cases i with
    | zero =>
      have hx : x = some e0 := by simpa using hn
      subst hx
      simp
    | succ i =>
      have h2 : xs.getD i none = some e0 := by simpa using hn
      have := ih i h2
      cases x with
      | none => simpa using this
      | some e1 => simp [this]

theorem countP_set_none_of_some (l : List (Option Entry)) (i : Nat) (e0 : Entry)
    (hn : l.getD i none = some e0) :
    (l.set i none).countP Option.isSome + 1 = l.countP Option.isSome := by
  induction l generalizing i with
  | nil => simp at hn
  | cons x xs ih =>
    cases i with
    | zero =>
      have hx : x = some e0 := by simpa using hn
      subst hx
      simp
    | succ i =>
      have h2 : xs.getD i none = some e0 := by simpa using hn
      have := ih i h2
      cases x with
      | none => simpa using this
      | some e1 => simp; omega

theorem getD_some_lt (l : List (Option Entry)) (i : Nat) (e : Entry)
    (h : l.getD i none = some e) : i < l.length := by
  by_contra hc
  have : l.getD i none = none := by
    rw [List.getD_eq_getElem?_getD, List.getElem?_eq_none (by omega)]
    rfl
  rw [this] at h
  cases h

/-! ## The search loop and the loops of the source -/

theorem getNextIndex_lt (index increaseIndex capacity : Nat) (h : 0 < capacity) :
    getNextIndex index increaseIndex capacity < capacity :=
  Nat.mod_lt _ h

theorem multiplicativeHash_lt (key : Key) (capacity : Nat) (h : 0 < capacity) :
    multiplicativeHash key capacity < capacity :=
  Nat.mod_lt _ h

theorem insertLoop_eq_probeLoop (key : Key) (value : Value) (increaseIndex start : Nat)
    (budget : Nat) (t : HashTable) (index : Nat) :
    insertLoop key value increaseIndex start budget t index
      = (probeLoop key increaseIndex start t budget index).map (place t key value) := by
  induction budget generalizing index with
  | zero => rfl
  | succ budget ih =>
    unfold insertLoop probeLoop
    cases hs : slot t index with
    | none => simp [place]
    | some entry =>
      by_cases hk : entry.key = key
      · simp [hk, place, createEntry]
      · by_cases hi : getNextIndex index increaseIndex t.capacity = start
        · simp [hk, hi, place]
        · simp [hk, hi, ih]

/-- What `get` returns once its search has ended. -/
theorem getLoop_eq_probeLoop (key : Key) (increaseIndex start : Nat) (t : HashTable)
    (budget index : Nat) :
    getLoop key increaseIndex start t budget index
      = (probeLoop key increaseIndex start t budget index).map (fun r =>
          match r with
          | .found i => (slot t i).map Entry.value
          | _ => none) := by
  induction budget generalizing index with
  | zero => rfl
  | succ budget ih =>
    unfold getLoop probeLoop
    cases hs : slot t index with
    | none => simp
    | some entry =>
      by_cases hk : entry.key = key
      · simp [hk, hs]
      · by_cases hi : getNextIndex index increaseIndex t.capacity = start
        · simp [hk, hi]
        · simp [hk, hi, ih]

theorem probeLoop_found (key : Key) (increaseIndex start : Nat) (t : HashTable)
    (budget index i : Nat) (h : probeLoop key increaseIndex start t budget index = some (.found i)) :
    ∃ entry, slot t i = some entry ∧ entry.key = key := by
  induction budget generalizing index with
  | zero => simp [probeLoop] at h
  | succ budget ih =>
    unfold probeLoop at h
    cases hs : slot t index with
    | none => simp [hs] at h
    | some entry =>
      by_cases hk : entry.key = key
      · simp [hs, hk] at h
        subst h
        exact ⟨entry, hs, hk⟩
      · by_cases hi : getNextIndex index increaseIndex t.capacity = start
        · simp [hs, hk, hi] at h
        · simp [hs, hk, hi] at h
          exact ih _ h

theorem probeLoop_empty (key : Key) (increaseIndex start : Nat) (t : HashTable)
    (budget index i : Nat) (h : probeLoop key increaseIndex start t budget index = some (.empty i)) :
    slot t i = none := by
  induction budget generalizing index with
  | zero => simp [probeLoop] at h
  | succ budget ih =>
    unfold probeLoop at h
    cases hs : slot t index with
    | none =>
      simp [hs] at h
      subst h
      exact hs
    | some entry =>
      by_cases hk : entry.key = key
      · simp [hs, hk] at h
      · by_cases hi : getNextIndex index increaseIndex t.capacity = start
        · simp [hs, hk, hi] at h
        · simp [hs, hk, hi] at h
          exact ih _ h

theorem probeLoop_empty_lt (key : Key) (increaseIndex start : Nat) (t : HashTable)
    (budget index i : Nat) (hc : 0 < t.capacity) (hi : index < t.capacity)
    (h : probeLoop key increaseIndex start t budget index = some (.empty i)) :
    i < t.capacity := by
  induction budget generalizing index with
  | zero => simp [probeLoop] at h
  | succ budget ih =>
    unfold probeLoop at h
    cases hs : slot t index with
    | none =>
      simp [hs] at h
      subst h
      exact hi
    | some entry =>
      by_cases hk : entry.key = key
      · simp [hs, hk] at h
      · by_cases hn : getNextIndex index increaseIndex t.capacity = start
        · simp [hs, hk, hn] at h
        · simp [hs, hk, hn] at h
          exact ih _ (getNextIndex_lt _ _ _ hc) h

/-! ## Well-formed tables are kept well-formed -/

theorem place_wellFormed (t : HashTable) (key : Key) (value : Value) (r : Probe)
    (hw : WellFormed t)
    (hf : ∀ i, r = .found i → ∃ entry, slot t i = some entry)
    (he : ∀ i, r = .empty i → slot t i = none ∧ i < t.capacity) :
    WellFormed (place t key value r) := by
  cases r with
  | found i =>
    obtain ⟨entry, hs⟩ := hf i rfl
    refine ⟨hw.shape, hw.range, ?_, ?_⟩
    · simp [place, hw.size]
    · simp only [place, occupied]
      rw [countP_set_some_of_some _ _ _ entry hs]
      exact hw.exact
  | empty i =>
    obtain ⟨hs, hlt⟩ := he i rfl
    refine ⟨hw.shape, hw.range, ?_, ?_⟩
    · simp [place, hw.size]
    · simp only [place, occupied]
      rw [countP_set_some_of_none _ _ _ (by rw [hw.size]; exact hlt) hs]
      have := hw.exact
      simp only [occupied] at this
      rw [this]
      push_cast
      ring
  | cycled => exact hw

theorem capacity_pos {t : HashTable} (hw : WellFormed t) : 0 < t.capacity := by
  obtain ⟨k, hk⟩ := hw.shape
  rw [hk]
  have : 0 < 2 ^ k := by positivity
  simp only [INITIAL_TABLE_CAPACITY]
  omega

theorem insertLoop_wellFormed (key : Key) (value : Value) (increaseIndex start : Nat)
    (budget : Nat) (t t' : HashTable) (index : Nat) (hw : WellFormed t)
    (hi : index < t.capacity)
    (h : insertLoop key value increaseIndex start budget t index = some t') :
    WellFormed t' := by
  rw [insertLoop_eq_probeLoop] at h
  cases hp : probeLoop key increaseIndex start t budget index with
  | none => simp [hp] at h
  | some r =>
    simp [hp] at h
    subst h
    apply place_wellFormed _ _ _ _ hw
    · intro i hr
      subst hr
      obtain ⟨entry, hs, _⟩ := probeLoop_found _ _ _ _ _ _ _ hp
      exact ⟨entry, hs⟩
    · intro i hr
      subst hr
      exact ⟨probeLoop_empty _ _ _ _ _ _ _ hp,
        probeLoop_empty_lt _ _ _ _ _ _ _ (capacity_pos hw) hi hp⟩

theorem insertLoop_capacity (key : Key) (value : Value) (increaseIndex start : Nat)
    (budget : Nat) (t t' : HashTable) (index : Nat)
    (h : insertLoop key value increaseIndex start budget t index = some t') :
    t'.capacity = t.capacity := by
  rw [insertLoop_eq_probeLoop] at h
  cases hp : probeLoop key increaseIndex start t budget index with
  | none => simp [hp] at h
  | some r =>
    simp [hp] at h
    subst h
    cases r <;> rfl

theorem wellFormed_fresh (capacity : Nat) (h : CapacityOK capacity) :
    WellFormed { count := 0, capacity := capacity, entries := List.replicate capacity none } := by
  refine ⟨h.1, h.2, by simp, ?_⟩
  simp [occupied, countP_replicate_none]

theorem newHashTable_wellFormed (capacity : Nat) (h : CapacityOK capacity) :
    WellFormed (newHashTable capacity) :=
  wellFormed_fresh capacity h

theorem capacityOK_double (capacity : Nat) (h : CapacityOK capacity)
    (hr : capacity * GROWTH_FACTOR < 2 ^ 31) : CapacityOK (capacity * GROWTH_FACTOR) := by
  obtain ⟨⟨k, hk⟩, _⟩ := h
  refine ⟨⟨k + 1, ?_⟩, hr⟩
  rw [hk, GROWTH_FACTOR, pow_succ]
  ring

theorem capacityOK_half (capacity : Nat) (h : CapacityOK capacity)
    (hr : INITIAL_TABLE_CAPACITY < capacity) : CapacityOK (capacity / 2) := by
  obtain ⟨⟨k, hk⟩, hlt⟩ := h
  cases k with
  | zero => simp [hk] at hr
  | succ k =>
    refine ⟨⟨k, ?_⟩, by omega⟩
    rw [hk, pow_succ, ← Nat.mul_assoc]
    exact Nat.mul_div_cancel _ (by decide)

theorem rehash_ok (ins : Mem → Key → Value → Option Mem)
    (hins : ∀ m key value m', Mem.OK m → ins m key value = some m' → Mem.OK m')
    (oldEntries : List (Option Entry)) (m m' : Mem) (hm : Mem.OK m)
    (h : rehash ins oldEntries m = some m') : Mem.OK m' := by
  induction oldEntries generalizing m with
  | nil =>
    simp [rehash] at h
    subst h
    exact hm
  | cons x xs ih =>
    cases x with
    | none =>
      simp only [rehash] at h
      exact ih m hm h
    | some entry =>
      simp only [rehash] at h
      cases hi : ins m entry.key entry.value with
      | none => simp [hi] at h
      | some m1 =>
        simp only [hi] at h
        exact ih m1 (hins _ _ _ _ hm hi) h

theorem resizeTableWith_ok (ins : Mem → Key → Value → Option Mem)
    (hins : ∀ m key value m', Mem.OK m → ins m key value = some m' → Mem.OK m')
    (m m' : Mem) (newCapacity : Nat) (hc : CapacityOK newCapacity)
    (h : resizeTableWith ins m newCapacity = some m') : Mem.OK m' := by
  unfold resizeTableWith at h
  exact rehash_ok ins hins _ _ _ ⟨wellFormed_fresh _ hc, hc⟩ h

theorem insertDepth_ok (depth : Nat) (m : Mem) (key : Key) (value : Value) (m' : Mem)
    (hm : Mem.OK m) (h : insertDepth depth m key value = some m') : Mem.OK m' := by
  induction depth generalizing m key value m' with
  | zero => simp [insertDepth] at h
  | succ depth ih =>
    simp only [insertDepth] at h
    have key_step : ∀ m1 : Mem, Mem.OK m1 →
        (match insertLoop key value (secondMultiplicativeHash key m1.hashTable.capacity)
            (multiplicativeHash key m1.hashTable.capacity) m1.hashTable.capacity m1.hashTable
            (multiplicativeHash key m1.hashTable.capacity) with
          | none => none
          | some t => some { m1 with hashTable := t }) = some m' → Mem.OK m' := by
      intro m1 hm1 h1
      cases hl : insertLoop key value (secondMultiplicativeHash key m1.hashTable.capacity)
          (multiplicativeHash key m1.hashTable.capacity) m1.hashTable.capacity m1.hashTable
          (multiplicativeHash key m1.hashTable.capacity) with
      | none => simp [hl] at h1
      | some t =>
        simp only [hl, Option.some.injEq] at h1
        subst h1
        exact ⟨insertLoop_wellFormed _ _ _ _ _ _ _ _ hm1.table
          (multiplicativeHash_lt _ _ (capacity_pos hm1.table)) hl, hm1.global⟩
    split at h
    · exact absurd h (by simp)
    · rename_i m1 hres
      split at hres
      · split at hres
        · rename_i hload hrange
          exact key_step m1 (resizeTableWith_ok _ (fun a b c d e f => ih a b c d e f) _ _ _
            (capacityOK_double _ ⟨hm.table.shape, hm.table.range⟩ hrange) hres) h
        · exact absurd hres (by simp)
      · simp only [Option.some.injEq] at hres
        subst hres
        exact key_step m hm h

theorem insert_ok (m : Mem) (key : Key) (value : Value) (m' : Mem)
    (hm : Mem.OK m) (h : insert m key value = some m') : Mem.OK m' :=
  insertDepth_ok _ m key value m' hm h

theorem resizeTable_ok (m m' : Mem) (newCapacity : Nat) (hc : CapacityOK newCapacity)
    (h : resizeTable m newCapacity = some m') : Mem.OK m' :=
  resizeTableWith_ok insert (fun a b c d e f => insert_ok a b c d e f) m m' newCapacity hc h

theorem cleared_ok (m : Mem) (index : Nat) (entry : Entry) (hm : Mem.OK m)
    (hs : slot m.hashTable index = some entry) :
    Mem.OK { m with
      hashTable :=
        { m.hashTable with
          entries := m.hashTable.entries.set index none
          count := m.hashTable.count - 1 } } := by
  refine ⟨⟨hm.table.shape, hm.table.range, ?_, ?_⟩, hm.global⟩
  · simp [hm.table.size]
  · have h1 := countP_set_none_of_some _ _ _ hs
    have h2 := hm.table.exact
    simp only [occupied] at h2 ⊢
    rw [h2]
    omega

theorem deleteWalk_ok (increaseIndex budget : Nat) (m : Mem) (nextIndex : Nat) (m' : Mem)
    (hm : Mem.OK m) (h : deleteWalk increaseIndex budget m nextIndex = some m') :
    Mem.OK m' := by
  induction budget generalizing m nextIndex with
  | zero => simp [deleteWalk] at h
  | succ budget ih =>
    simp only [deleteWalk] at h
    split at h
    · simp only [Option.some.injEq] at h
      subst h
      exact hm
    · rename_i temp hs
      split at h
      · exact absurd h (by simp)
      · rename_i m1 hins
        exact ih m1 _ (insert_ok _ _ _ _ (cleared_ok m nextIndex temp hm hs) hins) h

theorem deleteLoop_ok (key : Key) (increaseIndex start budget : Nat) (m : Mem) (index : Nat)
    (flag : Bool) (m' : Mem) (hm : Mem.OK m)
    (h : deleteLoop key increaseIndex start budget m index = some (flag, m')) :
    Mem.OK m' := by
  induction budget generalizing index with
  | zero => simp [deleteLoop] at h
  | succ budget ih =>
    simp only [deleteLoop] at h
    split at h
    · simp only [Option.some.injEq, Prod.mk.injEq] at h
      rw [← h.2]
      exact hm
    · rename_i entry hs
      split at h
      · split at h
        · exact absurd h (by simp)
        · rename_i m1 hw
          simp only [Option.some.injEq, Prod.mk.injEq] at h
          rw [← h.2]
          exact deleteWalk_ok _ _ _ _ _ (cleared_ok m index entry hm hs) hw
      · split at h
        · simp only [Option.some.injEq, Prod.mk.injEq] at h
          rw [← h.2]
          exact hm
        · exact ih _ h

theorem delete_ok (m : Mem) (key : Key) (m' : Mem) (hm : Mem.OK m)
    (h : delete m key = some m') : Mem.OK m' := by
  simp only [delete] at h
  split at h
  · exact absurd h (by simp)
  · rename_i m1 hl
    simp only [Option.some.injEq] at h
    subst h
    exact deleteLoop_ok _ _ _ _ _ _ _ _ hm hl
  · rename_i m1 hl
    have hm1 := deleteLoop_ok _ _ _ _ _ _ _ _ hm hl
    split at h
    · rename_i hcond
      exact resizeTable_ok _ _ _
        (capacityOK_half _ ⟨hm1.table.shape, hm1.table.range⟩ hcond.2) h
    · simp only [Option.some.injEq] at h
      subst h
      exact hm1

theorem State.initial_ok : State.OK State.initial :=
  ⟨fun t ht => by simp [State.initial] at ht, ⟨⟨0, by simp [State.initial]⟩, by decide⟩⟩

theorem State.store_ok (s : State) (pointer : Nat) (m : Mem) (hs : State.OK s)
    (hm : Mem.OK m) : State.OK (s.store pointer m) := by
  refine ⟨?_, hm.global⟩
  intro t ht
  simp only [State.store] at ht
  rcases List.mem_or_eq_of_mem_set ht with h | h
  · exact hs.tables t h
  · rw [h]
    exact hm.table

theorem State.mem_ok (s : State) (pointer : Nat) (t : HashTable) (hs : State.OK s)
    (ht : s.tables.get? pointer = some t) : Mem.OK ⟨s.CURR_TABLE_CAPACITY, t⟩ :=
  ⟨hs.tables t (List.get?_mem ht), hs.global⟩

theorem State.step_ok (s s' : State) (call : Call) (hs : State.OK s)
    (h : s.step call = some s') : State.OK s' := by
  cases call with
  | newHashTable =>
    simp only [State.step, Option.some.injEq] at h
    subst h
    refine ⟨?_, hs.global⟩
    intro t ht
    simp only [List.mem_append, List.mem_singleton] at ht
    rcases ht with ht | ht
    · exact hs.tables t ht
    · rw [ht]
      exact newHashTable_wellFormed _ hs.global
  | insert pointer key value =>
    simp only [State.step] at h
    split at h
    · exact absurd h (by simp)
    · rename_i t ht
      cases hi : HashTable.insert ⟨s.CURR_TABLE_CAPACITY, t⟩ key value with
      | none => simp [hi] at h
      | some m =>
        simp only [hi, Option.map_some', Option.some.injEq] at h
        subst h
        exact State.store_ok s pointer m hs (insert_ok _ _ _ _ (State.mem_ok s pointer t hs ht) hi)
  | delete pointer key =>
    simp only [State.step] at h
    split at h
    · exact absurd h (by simp)
    · rename_i t ht
      cases hi : HashTable.delete ⟨s.CURR_TABLE_CAPACITY, t⟩ key with
      | none => simp [hi] at h
      | some m =>
        simp only [hi, Option.map_some', Option.some.injEq] at h
        subst h
        exact State.store_ok s pointer m hs (delete_ok _ _ _ (State.mem_ok s pointer t hs ht) hi)

theorem State.run_ok (calls : List Call) (s s' : State) (hs : State.OK s)
    (h : s.run calls = some s') : State.OK s' := by
  induction calls generalizing s with
  | nil =>
    simp only [State.run, Option.some.injEq] at h
    subst h
    exact hs
  | cons call calls ih =>
    simp only [State.run] at h
    split at h
    · exact absurd h (by simp)
    · rename_i s1 h1
      exact ih s1 (State.step_ok s s1 call hs h1) h

/-! ## Rounding -/

theorem bitLengthAux_lt (budget n : Nat) (h : n < 2 ^ budget) :
    n < 2 ^ bitLengthAux budget n := by
  induction budget generalizing n with
  | zero =>
    simp at h
    subst h
    simp [bitLengthAux]
  | succ budget ih =>
    unfold bitLengthAux
    by_cases hn : n = 0
    · simp [hn]
    · simp only [hn, if_false]
      have h1 : n / 2 < 2 ^ budget := by
        rw [pow_succ] at h
        omega
      have h2 := ih (n / 2) h1
      rw [pow_succ]
      omega

theorem bitLengthAux_le (budget n : Nat) (h : n ≠ 0) :
    2 ^ (bitLengthAux budget n - 1) ≤ n := by
  induction budget generalizing n with
  | zero =>
    simp [bitLengthAux]
    omega
  | succ budget ih =>
    unfold bitLengthAux
    simp only [h, if_false, Nat.add_sub_cancel]
    by_cases h2 : n / 2 = 0
    · have : bitLengthAux budget (n / 2) = 0 := by
        rw [h2]
        cases budget <;> simp [bitLengthAux]
      rw [this]
      simp
      omega
    · have := ih (n / 2) h2
      have hb : bitLengthAux budget (n / 2) ≠ 0 ∨ bitLengthAux budget (n / 2) = 0 := by omega
      rcases hb with hb | hb
      · have e : bitLengthAux budget (n / 2) = (bitLengthAux budget (n / 2) - 1) + 1 := by omega
        rw [e, pow_succ]
        omega
      · rw [hb]
        simp
        omega

theorem lt_two_pow_bitLength (n : Nat) : n < 2 ^ bitLength n :=
  bitLengthAux_lt n n (Nat.lt_two_pow n)

theorem two_pow_bitLength_le (n : Nat) (h : n ≠ 0) : 2 ^ (bitLength n - 1) ≤ n :=
  bitLengthAux_le n n h

theorem bitLength_le_of_lt (n p : Nat) (h : n < 2 ^ p) : bitLength n ≤ p := by
  by_cases hn : n = 0
  · subst hn
    simp [bitLength, bitLengthAux]
  · by_contra hc
    have h1 := two_pow_bitLength_le n hn
    have h2 : 2 ^ p ≤ 2 ^ (bitLength n - 1) := Nat.pow_le_pow_right (by decide) (by omega)
    omega

/-- A number with at most `p` significant digits is its own rounding. -/
theorem roundSig_exact (p c j : Nat) (hc : c < 2 ^ p) : roundSig p (c * 2 ^ j) = c * 2 ^ j := by
  unfold roundSig
  by_cases hb : bitLength (c * 2 ^ j) ≤ p
  · simp [hb]
  · simp only [hb, if_false]
    have hn : c * 2 ^ j ≠ 0 := by
      intro e
      rw [e] at hb
      simp [bitLength, bitLengthAux] at hb
    have h1 := two_pow_bitLength_le _ hn
    have hlt : c * 2 ^ j < 2 ^ (p + j) := by
      rw [pow_add]
      exact Nat.mul_lt_mul_of_pos_right hc (by positivity)
    have h3 : bitLength (c * 2 ^ j) - 1 < p + j := by
      by_contra hcon
      have : 2 ^ (p + j) ≤ 2 ^ (bitLength (c * 2 ^ j) - 1) :=
        Nat.pow_le_pow_right (by decide) (by omega)
      omega
    have hsh : bitLength (c * 2 ^ j) - p ≤ j := by omega
    obtain ⟨d, hd⟩ : ∃ d, j = (bitLength (c * 2 ^ j) - p) + d := ⟨j - (bitLength (c * 2 ^ j) - p), by omega⟩
    generalize bitLength (c * 2 ^ j) - p = sh at *
    have hdiv : c * 2 ^ j = (c * 2 ^ d) * 2 ^ sh := by
      rw [hd, pow_add]
      ring
    have hr : c * 2 ^ j % 2 ^ sh = 0 := by
      rw [hdiv]
      exact Nat.mul_mod_left _ _
    have hq : c * 2 ^ j / 2 ^ sh * 2 ^ sh = c * 2 ^ j := by
      rw [hdiv]
      rw [Nat.mul_div_cancel _ (by positivity)]
    have hhalf : 0 < 2 ^ (sh - 1) := by positivity
    rw [hr]
    simp only [hhalf, true_or, if_true]
    exact hq

theorem roundSig_of_lt (p n : Nat) (h : n < 2 ^ p) : roundSig p n = n := by
  have := roundSig_exact p n 0 h
  simpa using this

/-- For a count of at most `2 ^ 24` and a capacity that is a power of two, the binary32
load factor is the exact quotient. -/
theorem loadFactor_exact (count e : Nat) (hc : count ≤ 2 ^ 24) (he : e ≤ 64) :
    loadFactor (count : Int) (2 ^ e) = ((count * 2 ^ (65 - e) : Nat) : Int) := by
  have hx : roundSig 24 count = count := by
    by_cases h : count < 2 ^ 24
    · exact roundSig_of_lt 24 count h
    · have : count = 1 * 2 ^ 24 := by omega
      rw [this]
      exact roundSig_exact 24 1 24 (by decide)
  have hy : roundSig 24 (2 ^ e) = 2 ^ e := by
    have := roundSig_exact 24 1 e (by decide)
    simpa using this
  have h64 : (2 : Nat) ^ 64 = 2 ^ (64 - e) * 2 ^ e := by
    rw [← pow_add]
    congr 1
    omega
  have hq : count * 2 ^ 64 / 2 ^ e = count * 2 ^ (64 - e) := by
    rw [h64, ← Nat.mul_assoc]
    exact Nat.mul_div_cancel _ (by positivity)
  have hr : count * 2 ^ 64 % 2 ^ e = 0 := by
    rw [h64, ← Nat.mul_assoc]
    exact Nat.mul_mod_left _ _
  have h65 : 2 * (count * 2 ^ (64 - e)) = count * 2 ^ (65 - e) := by
    have : 65 - e = (64 - e) + 1 := by omega
    rw [this, pow_succ]
    ring
  unfold loadFactor
  simp only [Int.natCast_nonneg, if_true, Int.toNat_ofNat]
  unfold floatDiv
  rw [hx, hy, hq, hr]
  simp only [if_true, Nat.add_zero]
  rw [h65]
  have hfinal : roundSig 24 (count * 2 ^ (65 - e)) = count * 2 ^ (65 - e) := by
    by_cases h : count < 2 ^ 24
    · exact roundSig_exact 24 count _ h
    · have hc2 : count = 2 ^ 24 := by omega
      rw [hc2, ← pow_add]
      have := roundSig_exact 24 1 (24 + (65 - e)) (by decide)
      simpa using this
  rw [hfinal]

theorem max_lt_loadFactor_iff (count e : Nat) (hc : count ≤ 2 ^ 24) (he : e ≤ 63) :
    MAX_LOAD_FACTOR < loadFactor (count : Int) (2 ^ e) ↔ 3 * 2 ^ e < 4 * count := by
  rw [loadFactor_exact count e hc (by omega)]
  unfold MAX_LOAD_FACTOR
  have h1 : (2 : Nat) ^ 63 = 2 ^ (63 - e) * 2 ^ e := by
    rw [← pow_add]
    congr 1
    omega
  have h2 : (2 : Nat) ^ (65 - e) = 4 * 2 ^ (63 - e) := by
    have : 65 - e = (63 - e) + 2 := by omega
    rw [this, pow_add]
    ring
  have hp : 0 < 2 ^ (63 - e) := by positivity
  have key : (3 * 2 ^ 63 : Nat) < count * 2 ^ (65 - e) ↔ 3 * 2 ^ e < 4 * count := by
    rw [h1, h2]
    constructor
    · intro h
      by_contra hcon
      have : 4 * count ≤ 3 * 2 ^ e := by omega
      have := Nat.mul_le_mul_left (2 ^ (63 - e)) this
      nlinarith
    · intro h
      have := Nat.mul_lt_mul_of_pos_left h hp
      nlinarith
  rw [← key]
  constructor
  · intro h
    exact_mod_cast h
  · intro h
    exact_mod_cast h

theorem loadFactor_lt_min_iff (count e : Nat) (hc : count ≤ 2 ^ 24) (he : e ≤ 63) :
    loadFactor (count : Int) (2 ^ e) < MIN_LOAD_FACTOR ↔ 4 * count < 2 ^ e := by
  rw [loadFactor_exact count e hc (by omega)]
  unfold MIN_LOAD_FACTOR
  have h1 : (2 : Nat) ^ 63 = 2 ^ (63 - e) * 2 ^ e := by
    rw [← pow_add]
    congr 1
    omega
  have h2 : (2 : Nat) ^ (65 - e) = 4 * 2 ^ (63 - e) := by
    have : 65 - e = (63 - e) + 2 := by omega
    rw [this, pow_add]
    ring
  have hp : 0 < 2 ^ (63 - e) := by positivity
  have key : count * 2 ^ (65 - e) < (2 ^ 63 : Nat) ↔ 4 * count < 2 ^ e := by
    rw [h1, h2]
    constructor
    · intro h
      by_contra hcon
      have : 2 ^ e ≤ 4 * count := by omega
      have := Nat.mul_le_mul_left (2 ^ (63 - e)) this
      nlinarith
    · intro h
      have := Nat.mul_lt_mul_of_pos_left h hp
      nlinarith
  rw [← key]
  constructor
  · intro h
    exact_mod_cast h
  · intro h
    exact_mod_cast h

/-! ## Rounding in general -/

/-- The two ways `roundSig` answers: the number itself, or one of the two neighbours with
`p` digits of a number `q * 2 ^ shift + r`. -/
theorem roundSig_cases (p n : Nat) (hp : 1 ≤ p) :
    (roundSig p n = n ∧ n < 2 ^ p)
      ∨ ∃ shift q r, n = q * 2 ^ shift + r ∧ r < 2 ^ shift ∧ 1 ≤ shift
          ∧ 2 ^ (p - 1) ≤ q ∧ q < 2 ^ p
          ∧ ((r ≤ 2 ^ (shift - 1) ∧ roundSig p n = q * 2 ^ shift)
            ∨ (0 < r ∧ roundSig p n = (q + 1) * 2 ^ shift)) := by
  unfold roundSig
  by_cases hb : bitLength n ≤ p
  · left
    simp only [hb, if_true, true_and]
    have := lt_two_pow_bitLength n
    exact Nat.lt_of_lt_of_le this (Nat.pow_le_pow_right (by decide) hb)
  · right
    simp only [hb, if_false]
    have hn : n ≠ 0 := by
      intro e
      rw [e] at hb
      simp [bitLength, bitLengthAux] at hb
    have hlow := two_pow_bitLength_le n hn
    have hhigh := lt_two_pow_bitLength n
    obtain ⟨shift, hshift⟩ : ∃ shift, bitLength n = p + shift := ⟨bitLength n - p, by omega⟩
    have hs1 : 1 ≤ shift := by omega
    have hsub : bitLength n - p = shift := by omega
    rw [hsub]
    have hpos : 0 < 2 ^ shift := by positivity
    refine ⟨shift, n / 2 ^ shift, n % 2 ^ shift, ?_, Nat.mod_lt _ hpos, hs1, ?_, ?_, ?_⟩
    · rw [Nat.mul_comm]
      exact (Nat.div_add_mod n (2 ^ shift)).symm
    · rw [Nat.le_div_iff_mul_le hpos, ← pow_add]
      have : p - 1 + shift = bitLength n - 1 := by omega
      rw [this]
      exact hlow
    · rw [Nat.div_lt_iff_lt_mul hpos, ← pow_add, ← hshift]
      exact hhigh
    · by_cases hc : n % 2 ^ shift < 2 ^ (shift - 1)
          ∨ (n % 2 ^ shift = 2 ^ (shift - 1) ∧ n / 2 ^ shift % 2 = 0)
      · left
        simp only [hc, if_true, and_true]
        rcases hc with h1 | h1
        · omega
        · omega
      · right
        simp only [hc, if_false, and_true]
        have hhalf : 0 < 2 ^ (shift - 1) := by positivity
        by_contra h0
        apply hc
        left
        omega

/-- The rounding has at most `p` significant digits. -/
theorem roundSig_representable (p n : Nat) (hp : 1 ≤ p) :
    ∃ a i, roundSig p n = a * 2 ^ i ∧ a < 2 ^ p := by
  rcases roundSig_cases p n hp with ⟨h1, h2⟩ | ⟨shift, q, r, _, _, _, _, hq, h⟩
  · exact ⟨n, 0, by simp [h1], h2⟩
  · rcases h with ⟨_, h⟩ | ⟨_, h⟩
    · exact ⟨q, shift, h, hq⟩
    · by_cases hq1 : q + 1 < 2 ^ p
      · exact ⟨q + 1, shift, h, hq1⟩
      · have he : q + 1 = 2 ^ p := by omega
        refine ⟨2 ^ (p - 1), shift + 1, ?_, Nat.pow_lt_pow_right (by decide) (by omega)⟩
        rw [h, he, ← pow_add, ← pow_add]
        congr 1
        omega

/-- The rounding of a number is not above a number with `p` digits that the number is not
above. -/
theorem roundSig_le (p n a j : Nat) (hp : 1 ≤ p) (ha : a < 2 ^ p) (h : n ≤ a * 2 ^ j) :
    roundSig p n ≤ a * 2 ^ j := by
  rcases roundSig_cases p n hp with ⟨h1, _⟩ | ⟨shift, q, r, hn, hr, hs, hq, _, hx⟩
  · rw [h1]
    exact h
  · have hlow : 2 ^ (p - 1 + shift) ≤ n := by
      rw [hn, pow_add]
      exact Nat.le_trans (Nat.mul_le_mul_right _ hq) (Nat.le_add_right _ _)
    by_cases hj : shift ≤ j
    · obtain ⟨d, hd⟩ : ∃ d, j = shift + d := ⟨j - shift, by omega⟩
      have hT : a * 2 ^ j = (a * 2 ^ d) * 2 ^ shift := by
        rw [hd, pow_add]
        ring
      rw [hT] at h ⊢
      have hpos : 0 < 2 ^ shift := by positivity
      rcases hx with ⟨_, hx⟩ | ⟨hr0, hx⟩
      · rw [hx]
        apply Nat.mul_le_mul_right
        by_contra hc
        have : a * 2 ^ d + 1 ≤ q := by omega
        have := Nat.mul_le_mul_right (2 ^ shift) this
        rw [Nat.add_mul] at this
        omega
      · rw [hx]
        apply Nat.mul_le_mul_right
        by_contra hc
        have : a * 2 ^ d ≤ q := by omega
        have := Nat.mul_le_mul_right (2 ^ shift) this
        omega
    · exfalso
      have h1 : a * 2 ^ j < 2 ^ p * 2 ^ j := Nat.mul_lt_mul_of_pos_right ha (by positivity)
      have h2 : 2 ^ p * 2 ^ j ≤ 2 ^ (p - 1 + shift) := by
        rw [← pow_add]
        exact Nat.pow_le_pow_right (by decide) (by omega)
      omega

/-- The rounding is below the number by at most one part in `2 ^ p`. -/
theorem le_roundSig (p n : Nat) (hp : 1 ≤ p) :
    n * 2 ^ p ≤ roundSig p n * (2 ^ p + 1) := by
  rcases roundSig_cases p n hp with ⟨h1, _⟩ | ⟨shift, q, r, hn, hr, hs, hq, _, hx⟩
  · rw [h1]
    exact Nat.mul_le_mul_left _ (Nat.le_add_right _ _)
  · rcases hx with ⟨hhalf, hx⟩ | ⟨_, hx⟩
    · rw [hx, hn]
      have e1 : (2 : Nat) ^ shift = 2 ^ (shift - 1) * 2 := by
        rw [← pow_succ]
        congr 1
        omega
      have e2 : (2 : Nat) ^ p = 2 ^ (p - 1) * 2 := by
        rw [← pow_succ]
        congr 1
        omega
      have hA : 2 ^ (shift - 1) * 2 ^ p ≤ q * 2 ^ shift := by
        rw [e1, e2]
        calc 2 ^ (shift - 1) * (2 ^ (p - 1) * 2) = 2 ^ (p - 1) * (2 ^ (shift - 1) * 2) := by ring
          _ ≤ q * (2 ^ (shift - 1) * 2) := Nat.mul_le_mul_right _ hq
      have hB : r * 2 ^ p ≤ 2 ^ (shift - 1) * 2 ^ p := Nat.mul_le_mul_right _ hhalf
      calc (q * 2 ^ shift + r) * 2 ^ p = q * 2 ^ shift * 2 ^ p + r * 2 ^ p := by ring
        _ ≤ q * 2 ^ shift * 2 ^ p + q * 2 ^ shift := by omega
        _ = q * 2 ^ shift * (2 ^ p + 1) := by ring
    · rw [hx, hn]
      have h1 : q * 2 ^ shift + r ≤ (q + 1) * 2 ^ shift := by
        rw [Nat.add_mul]
        omega
      calc (q * 2 ^ shift + r) * 2 ^ p ≤ (q + 1) * 2 ^ shift * 2 ^ p :=
            Nat.mul_le_mul_right _ h1
        _ ≤ (q + 1) * 2 ^ shift * (2 ^ p + 1) := Nat.mul_le_mul_left _ (Nat.le_add_right _ _)

/-- For a capacity that is a power of two the binary32 load factor is the count, rounded
to binary32, over the capacity. -/
theorem loadFactor_eq (count e : Nat) (he : e ≤ 64) :
    loadFactor (count : Int) (2 ^ e) = ((roundSig 24 count * 2 ^ (65 - e) : Nat) : Int) := by
  obtain ⟨a, i, hx, ha⟩ := roundSig_representable 24 count (by decide)
  have hy : roundSig 24 (2 ^ e) = 2 ^ e := by
    have := roundSig_exact 24 1 e (by decide)
    simpa using this
  have h64 : (2 : Nat) ^ 64 = 2 ^ (64 - e) * 2 ^ e := by
    rw [← pow_add]
    congr 1
    omega
  have hq : roundSig 24 count * 2 ^ 64 / 2 ^ e = roundSig 24 count * 2 ^ (64 - e) := by
    rw [h64, ← Nat.mul_assoc]
    exact Nat.mul_div_cancel _ (by positivity)
  have hr : roundSig 24 count * 2 ^ 64 % 2 ^ e = 0 := by
    rw [h64, ← Nat.mul_assoc]
    exact Nat.mul_mod_left _ _
  have h65 : 2 * (roundSig 24 count * 2 ^ (64 - e)) = roundSig 24 count * 2 ^ (65 - e) := by
    have : 65 - e = (64 - e) + 1 := by omega
    rw [this, pow_succ]
    ring
  unfold loadFactor
  simp only [Int.natCast_nonneg, if_true, Int.toNat_ofNat]
  unfold floatDiv
  rw [hy, hq, hr]
  simp only [if_true, Nat.add_zero]
  rw [h65, hx, Nat.mul_assoc, ← pow_add]
  rw [roundSig_exact 24 a _ ha]

theorem max_lt_loadFactor_iff_round (count e : Nat) (he : e ≤ 63) :
    MAX_LOAD_FACTOR < loadFactor (count : Int) (2 ^ e) ↔ 3 * 2 ^ e < 4 * roundSig 24 count := by
  rw [loadFactor_eq count e (by omega)]
  unfold MAX_LOAD_FACTOR
  have h1 : (2 : Nat) ^ 63 = 2 ^ (63 - e) * 2 ^ e := by
    rw [← pow_add]
    congr 1
    omega
  have h2 : (2 : Nat) ^ (65 - e) = 4 * 2 ^ (63 - e) := by
    have : 65 - e = (63 - e) + 2 := by omega
    rw [this, pow_add]
    ring
  have hp : 0 < 2 ^ (63 - e) := by positivity
  have key : (3 * 2 ^ 63 : Nat) < roundSig 24 count * 2 ^ (65 - e)
      ↔ 3 * 2 ^ e < 4 * roundSig 24 count := by
    rw [h1, h2]
    constructor
    · intro h
      by_contra hcon
      have : 4 * roundSig 24 count ≤ 3 * 2 ^ e := by omega
      have := Nat.mul_le_mul_left (2 ^ (63 - e)) this
      nlinarith
    · intro h
      have := Nat.mul_lt_mul_of_pos_left h hp
      nlinarith
  rw [← key]
  constructor
  · intro h
    exact_mod_cast h
  · intro h
    exact_mod_cast h

theorem loadFactor_lt_min_iff_round (count e : Nat) (he : e ≤ 63) :
    loadFactor (count : Int) (2 ^ e) < MIN_LOAD_FACTOR ↔ 4 * roundSig 24 count < 2 ^ e := by
  rw [loadFactor_eq count e (by omega)]
  unfold MIN_LOAD_FACTOR
  have h1 : (2 : Nat) ^ 63 = 2 ^ (63 - e) * 2 ^ e := by
    rw [← pow_add]
    congr 1
    omega
  have h2 : (2 : Nat) ^ (65 - e) = 4 * 2 ^ (63 - e) := by
    have : 65 - e = (63 - e) + 2 := by omega
    rw [this, pow_add]
    ring
  have hp : 0 < 2 ^ (63 - e) := by positivity
  have key : roundSig 24 count * 2 ^ (65 - e) < (2 ^ 63 : Nat)
      ↔ 4 * roundSig 24 count < 2 ^ e := by
    rw [h1, h2]
    constructor
    · intro h
      by_contra hcon
      have : 2 ^ e ≤ 4 * roundSig 24 count := by omega
      have := Nat.mul_le_mul_left (2 ^ (63 - e)) this
      nlinarith
    · intro h
      have := Nat.mul_lt_mul_of_pos_left h hp
      nlinarith
  rw [← key]
  constructor
  · intro h
    exact_mod_cast h
  · intro h
    exact_mod_cast h

/-- A table that is at most three quarters full passes the test of line 155. -/
theorem not_max_lt_loadFactor (count e : Nat) (he2 : 2 ≤ e) (he : e ≤ 63)
    (h : 4 * count ≤ 3 * 2 ^ e) : ¬ MAX_LOAD_FACTOR < loadFactor (count : Int) (2 ^ e) := by
  rw [max_lt_loadFactor_iff_round count e he]
  have e4 : (2 : Nat) ^ e = 4 * 2 ^ (e - 2) := by
    have : e = (e - 2) + 2 := by omega
    rw [this, pow_add]
    simp
    ring
  have hle : count ≤ 3 * 2 ^ (e - 2) := by
    rw [e4] at h
    omega
  have := roundSig_le 24 count 3 (e - 2) (by decide) (by decide) hle
  rw [e4]
  omega

/-- A table that passes the test of line 155 is at most three quarters full, up to the
rounding of the count to binary32. -/
theorem le_of_not_max_lt_loadFactor (count e : Nat) (he : e ≤ 63)
    (h : ¬ MAX_LOAD_FACTOR < loadFactor (count : Int) (2 ^ e)) :
    2 ^ 26 * count ≤ 3 * (2 ^ 24 + 1) * 2 ^ e := by
  rw [max_lt_loadFactor_iff_round count e he] at h
  have h1 := le_roundSig 24 count (by decide)
  have h2 : 4 * roundSig 24 count ≤ 3 * 2 ^ e := by omega
  have h3 := Nat.mul_le_mul_right (2 ^ 24 + 1) h2
  calc 2 ^ 26 * count = 4 * (count * 2 ^ 24) := by ring
    _ ≤ 4 * (roundSig 24 count * (2 ^ 24 + 1)) := Nat.mul_le_mul_left _ h1
    _ = 4 * roundSig 24 count * (2 ^ 24 + 1) := by ring
    _ ≤ 3 * 2 ^ e * (2 ^ 24 + 1) := h3
    _ = 3 * (2 ^ 24 + 1) * 2 ^ e := by ring

/-! ## The search loop ends within `capacity` steps -/

theorem getNextIndex_eq (index increaseIndex capacity : Nat)
    (h : index + increaseIndex < 2 ^ 32) :
    getNextIndex index increaseIndex capacity = (index + increaseIndex) % capacity := by
  unfold getNextIndex
  rw [Nat.mod_eq_of_lt h]

theorem secondMultiplicativeHash_le (key : Key) (capacity : Nat) (h : 2 ≤ capacity)
    (hr : capacity ≤ 2 ^ 32) :
    1 ≤ secondMultiplicativeHash key capacity
      ∧ secondMultiplicativeHash key capacity ≤ capacity - 1 := by
  unfold secondMultiplicativeHash
  have h1 : secondRollingHash key % (capacity - 1) < capacity - 1 := Nat.mod_lt _ (by omega)
  rw [Nat.mod_eq_of_lt (by omega)]
  omega

theorem probeLoop_total (key : Key) (increaseIndex start : Nat) (t : HashTable)
    (hs : start < t.capacity) (hi : increaseIndex + t.capacity ≤ 2 ^ 32)
    (budget j : Nat) (hb : budget + j = t.capacity) (hpos : 0 < budget) :
    ∃ r, probeLoop key increaseIndex start t budget
      ((start + j * increaseIndex) % t.capacity) = some r := by
  induction budget generalizing j with
  | zero => exact absurd hpos (by decide)
  | succ budget ih =>
    unfold probeLoop
    cases hsl : slot t ((start + j * increaseIndex) % t.capacity) with
    | none => exact ⟨_, rfl⟩
    | some entry =>
      by_cases hk : entry.key = key
      · simp [hk]
      · simp only [hk, if_false]
        have hlt : (start + j * increaseIndex) % t.capacity < t.capacity :=
          Nat.mod_lt _ (by omega)
        have hnext : getNextIndex ((start + j * increaseIndex) % t.capacity) increaseIndex
            t.capacity = (start + (j + 1) * increaseIndex) % t.capacity := by
          rw [getNextIndex_eq _ _ _ (by omega)]
          rw [Nat.mod_add_mod]
          congr 1
          ring
        rw [hnext]
        by_cases he : (start + (j + 1) * increaseIndex) % t.capacity = start
        · simp [he]
        · simp only [he, if_false]
          apply ih (j + 1) (by omega)
          by_contra hz
          have hz0 : budget = 0 := by omega
          have hj : j + 1 = t.capacity := by omega
          apply he
          rw [hj, Nat.add_mul_mod_self_left]
          exact Nat.mod_eq_of_lt hs

theorem probe_total (t : HashTable) (key : Key) (hw : WellFormed t) :
    ∃ r, probe t key = some r := by
  have hc : 1024 ≤ t.capacity := by
    obtain ⟨k, hk⟩ := hw.shape
    have : 0 < 2 ^ k := by positivity
    rw [hk, INITIAL_TABLE_CAPACITY]
    omega
  have hr := hw.range
  have hs := secondMultiplicativeHash_le key t.capacity (by omega) (by omega)
  have hm := multiplicativeHash_lt key t.capacity (by omega)
  have := probeLoop_total key (secondMultiplicativeHash key t.capacity)
    (multiplicativeHash key t.capacity) t hm (by omega) t.capacity 0 (by omega) (by omega)
  simpa [probe, Nat.mod_eq_of_lt hm] using this

/-- The loop of `get` ends: `get` returns on every well-formed table. -/
theorem get_total (t : HashTable) (key : Key) (hw : WellFormed t) :
    ∃ r, get t key = some r := by
  obtain ⟨r, hr⟩ := probe_total t key hw
  unfold get
  rw [getLoop_eq_probeLoop]
  unfold probe at hr
  rw [hr]
  exact ⟨_, rfl⟩

/-- The part of `insert` after the load-factor test (lines 160-186). -/
theorem insertDepth_eq_of_not_resize (depth : Nat) (m : Mem) (key : Key) (value : Value)
    (h : ¬ MAX_LOAD_FACTOR < loadFactor m.hashTable.count m.hashTable.capacity) :
    insertDepth (depth + 1) m key value
      = (probe m.hashTable key).map (fun r =>
          { m with hashTable := place m.hashTable key value r }) := by
  simp only [insertDepth, h, if_false]
  rw [insertLoop_eq_probeLoop]
  unfold probe
  cases probeLoop key (secondMultiplicativeHash key m.hashTable.capacity)
      (multiplicativeHash key m.hashTable.capacity) m.hashTable m.hashTable.capacity
      (multiplicativeHash key m.hashTable.capacity) with
  | none => rfl
  | some r => rfl

theorem place_count_le (t : HashTable) (key : Key) (value : Value) (r : Probe) :
    (place t key value r).count ≤ t.count + 1 ∧ t.count ≤ (place t key value r).count
      ∧ (place t key value r).capacity = t.capacity := by
  cases r <;> simp [place]

/-! ## Counting through `insert` and `resizeTable` -/

theorem wellFormed_count_le (t : HashTable) (hw : WellFormed t) :
    0 ≤ t.count ∧ t.count ≤ (t.capacity : Int) := by
  have h1 := hw.exact
  have h2 := countP_le_length t.entries
  rw [hw.size] at h2
  simp only [occupied] at h1
  rw [h1]
  constructor
  · exact Int.natCast_nonneg _
  · exact_mod_cast h2

theorem wellFormed_two_pow (t : HashTable) (hw : WellFormed t) :
    ∃ e, t.capacity = 2 ^ e ∧ 10 ≤ e ∧ e ≤ 30 := by
  obtain ⟨k, hk⟩ := hw.shape
  have hr := hw.range
  refine ⟨10 + k, ?_, by omega, ?_⟩
  · rw [hk, INITIAL_TABLE_CAPACITY, pow_add]
    norm_num
  · by_contra hc
    have : 2 ^ 31 ≤ 2 ^ (10 + k) := Nat.pow_le_pow_right (by decide) (by omega)
    rw [hk, INITIAL_TABLE_CAPACITY] at hr
    rw [pow_add] at this
    omega

theorem rehash_count (ins : Mem → Key → Value → Option Mem)
    (hins : ∀ m key value m', Mem.OK m → ins m key value = some m' →
      m'.hashTable.count ≤ m.hashTable.count + 1
        ∧ m.hashTable.capacity ≤ m'.hashTable.capacity ∧ Mem.OK m')
    (oldEntries : List (Option Entry)) (m m' : Mem) (hm : Mem.OK m)
    (h : rehash ins oldEntries m = some m') :
    m'.hashTable.count ≤ m.hashTable.count + (oldEntries.countP Option.isSome : Nat)
      ∧ m.hashTable.capacity ≤ m'.hashTable.capacity := by
  induction oldEntries generalizing m with
  | nil =>
    simp [rehash] at h
    subst h
    simp
  | cons x xs ih =>
    cases x with
    | none =>
      simp only [rehash] at h
      simpa using ih m hm h
    | some entry =>
      simp only [rehash] at h
      cases hi : ins m entry.key entry.value with
      | none => simp [hi] at h
      | some m1 =>
        simp only [hi] at h
        obtain ⟨h1, h2, h3⟩ := hins _ _ _ _ hm hi
        obtain ⟨h4, h5⟩ := ih m1 h3 h
        constructor
        · simp only [List.countP_cons_of_pos, Option.isSome_some]
          push_cast
          omega
        · omega

theorem insertDepth_count_aux (depth : Nat) (m : Mem) (key : Key) (value : Value) (m' : Mem)
    (hm : Mem.OK m) (h : insertDepth depth m key value = some m') :
    m'.hashTable.count ≤ m.hashTable.count + 1
      ∧ m.hashTable.capacity ≤ m'.hashTable.capacity := by
  induction depth generalizing m key value m' with
  | zero => simp [insertDepth] at h
  | succ depth ih =>
    by_cases hl : MAX_LOAD_FACTOR < loadFactor m.hashTable.count m.hashTable.capacity
    · simp only [insertDepth, hl, if_true] at h
      split at h
      · exact absurd h (by simp)
      · rename_i m1 hres
        split at hres
        · rename_i hrange
          have hc := rehash_count (fun m key value => insertDepth depth m key value)
            (fun a b c d e f =>
              ⟨(ih a b c d e f).1, (ih a b c d e f).2, insertDepth_ok depth a b c d e f⟩)
            _ _ _ ⟨wellFormed_fresh _
              (capacityOK_double _ ⟨hm.table.shape, hm.table.range⟩ hrange),
              capacityOK_double _ ⟨hm.table.shape, hm.table.range⟩ hrange⟩ hres
          split at h
          · exact absurd h (by simp)
          · rename_i t hloop
            simp only [Option.some.injEq] at h
            subst h
            rw [insertLoop_eq_probeLoop] at hloop
            cases hp : probeLoop key (secondMultiplicativeHash key m1.hashTable.capacity)
                (multiplicativeHash key m1.hashTable.capacity) m1.hashTable
                m1.hashTable.capacity (multiplicativeHash key m1.hashTable.capacity) with
            | none => simp [hp] at hloop
            | some r =>
              simp only [hp, Option.map_some', Option.some.injEq] at hloop
              subst hloop
              have hp3 := place_count_le m1.hashTable key value r
              have hex := hm.table.exact
              simp only [occupied] at hex
              simp only [GROWTH_FACTOR] at hc
              simp only
              rw [hp3.2.2]
              omega
        · exact absurd hres (by simp)
    · rw [insertDepth_eq_of_not_resize depth m key value hl] at h
      cases hp : probe m.hashTable key with
      | none => simp [hp] at h
      | some r =>
        simp only [hp, Option.map_some', Option.some.injEq] at h
        subst h
        have hp3 := place_count_le m.hashTable key value r
        simp only
        rw [hp3.2.2]
        omega

theorem insertDepth_count (depth : Nat) (m : Mem) (key : Key) (value : Value) (m' : Mem)
    (hm : Mem.OK m) (h : insertDepth depth m key value = some m') :
    m'.hashTable.count ≤ m.hashTable.count + 1
      ∧ m.hashTable.capacity ≤ m'.hashTable.capacity ∧ Mem.OK m' :=
  ⟨(insertDepth_count_aux depth m key value m' hm h).1,
    (insertDepth_count_aux depth m key value m' hm h).2,
    insertDepth_ok depth m key value m' hm h⟩

/-! ## The load bound -/

theorem loadBounded_of_count_le (t t' : HashTable) (h : LoadBounded t)
    (hc : t'.count ≤ t.count) (hcap : t'.capacity = t.capacity) : LoadBounded t' := by
  unfold LoadBounded at h ⊢
  rw [hcap]
  omega

theorem insertDepth_loadBounded (depth : Nat) (m : Mem) (key : Key) (value : Value)
    (m' : Mem) (hm : Mem.OK m) (h : insertDepth depth m key value = some m') :
    LoadBounded m'.hashTable := by
  cases depth with
  | zero => simp [insertDepth] at h
  | succ depth =>
    by_cases hl : MAX_LOAD_FACTOR < loadFactor m.hashTable.count m.hashTable.capacity
    · simp only [insertDepth, hl, if_true] at h
      split at h
      · exact absurd h (by simp)
      · rename_i m1 hres
        split at hres
        · rename_i hrange
          have hc := rehash_count (fun m key value => insertDepth depth m key value)
            (fun a b c d e f => insertDepth_count depth a b c d e f)
            _ _ _ ⟨wellFormed_fresh _
              (capacityOK_double _ ⟨hm.table.shape, hm.table.range⟩ hrange),
              capacityOK_double _ ⟨hm.table.shape, hm.table.range⟩ hrange⟩ hres
          split at h
          · exact absurd h (by simp)
          · rename_i t hloop
            simp only [Option.some.injEq] at h
            subst h
            rw [insertLoop_eq_probeLoop] at hloop
            cases hp : probeLoop key (secondMultiplicativeHash key m1.hashTable.capacity)
                (multiplicativeHash key m1.hashTable.capacity) m1.hashTable
                m1.hashTable.capacity (multiplicativeHash key m1.hashTable.capacity) with
            | none => simp [hp] at hloop
            | some r =>
              simp only [hp, Option.map_some', Option.some.injEq] at hloop
              subst hloop
              have hp3 := place_count_le m1.hashTable key value r
              have hle := countP_le_length m.hashTable.entries
              rw [hm.table.size] at hle
              simp only [GROWTH_FACTOR] at hc
              unfold LoadBounded
              simp only
              rw [hp3.2.2]
              omega
        · exact absurd hres (by simp)
    · rw [insertDepth_eq_of_not_resize depth m key value hl] at h
      cases hp : probe m.hashTable key with
      | none => simp [hp] at h
      | some r =>
        simp only [hp, Option.map_some', Option.some.injEq] at h
        subst h
        have hp3 := place_count_le m.hashTable key value r
        unfold LoadBounded
        simp only
        rw [hp3.2.2]
        obtain ⟨e, he, _, he30⟩ := wellFormed_two_pow _ hm.table
        have hex := hm.table.exact
        simp only [occupied] at hex
        rw [hex, he] at hl
        have hb := le_of_not_max_lt_loadFactor _ e (by omega) hl
        rw [← he] at hb
        rw [hex] at hp3
        have h1 := hp3.1
        omega

theorem insert_loadBounded (m : Mem) (key : Key) (value : Value) (m' : Mem) (hm : Mem.OK m)
    (h : insert m key value = some m') : LoadBounded m'.hashTable :=
  insertDepth_loadBounded _ m key value m' hm h

theorem rehash_loadBounded (oldEntries : List (Option Entry)) (m m' : Mem) (hm : Mem.OK m)
    (hb : LoadBounded m.hashTable) (h : rehash insert oldEntries m = some m') :
    LoadBounded m'.hashTable := by
  induction oldEntries generalizing m with
  | nil =>
    simp [rehash] at h
    subst h
    exact hb
  | cons x xs ih =>
    cases x with
    | none =>
      simp only [rehash] at h
      exact ih m hm hb h
    | some entry =>
      simp only [rehash] at h
      cases hi : insert m entry.key entry.value with
      | none => simp [hi] at h
      | some m1 =>
        simp only [hi] at h
        exact ih m1 (insert_ok _ _ _ _ hm hi) (insert_loadBounded _ _ _ _ hm hi) h

theorem resizeTable_loadBounded (m m' : Mem) (newCapacity : Nat)
    (hc : CapacityOK newCapacity) (h : resizeTable m newCapacity = some m') :
    LoadBounded m'.hashTable := by
  unfold resizeTable resizeTableWith at h
  refine rehash_loadBounded _ _ _ ⟨wellFormed_fresh _ hc, hc⟩ ?_ h
  unfold LoadBounded
  simp only
  omega

theorem cleared_loadBounded (m : Mem) (index : Nat) (hb : LoadBounded m.hashTable) :
    LoadBounded ({ m with
      hashTable :=
        { m.hashTable with
          entries := m.hashTable.entries.set index none
          count := m.hashTable.count - 1 } } : Mem).hashTable :=
  loadBounded_of_count_le m.hashTable _ hb (by simp) rfl

theorem deleteWalk_loadBounded (increaseIndex budget : Nat) (m : Mem) (nextIndex : Nat)
    (m' : Mem) (hm : Mem.OK m) (hb : LoadBounded m.hashTable)
    (h : deleteWalk increaseIndex budget m nextIndex = some m') :
    LoadBounded m'.hashTable := by
  induction budget generalizing m nextIndex with
  | zero => simp [deleteWalk] at h
  | succ budget ih =>
    simp only [deleteWalk] at h
    split at h
    · simp only [Option.some.injEq] at h
      subst h
      exact hb
    · rename_i temp hs
      split at h
      · exact absurd h (by simp)
      · rename_i m1 hins
        exact ih m1 _ (insert_ok _ _ _ _ (cleared_ok m nextIndex temp hm hs) hins)
          (insert_loadBounded _ _ _ _ (cleared_ok m nextIndex temp hm hs) hins) h

theorem deleteLoop_loadBounded (key : Key) (increaseIndex start budget : Nat) (m : Mem)
    (index : Nat) (flag : Bool) (m' : Mem) (hm : Mem.OK m) (hb : LoadBounded m.hashTable)
    (h : deleteLoop key increaseIndex start budget m index = some (flag, m')) :
    LoadBounded m'.hashTable := by
  induction budget generalizing index with
  | zero => simp [deleteLoop] at h
  | succ budget ih =>
    simp only [deleteLoop] at h
    split at h
    · simp only [Option.some.injEq, Prod.mk.injEq] at h
      rw [← h.2]
      exact hb
    · rename_i entry hs
      split at h
      · split at h
        · exact absurd h (by simp)
        · rename_i m1 hw
          simp only [Option.some.injEq, Prod.mk.injEq] at h
          rw [← h.2]
          exact deleteWalk_loadBounded _ _ _ _ _ (cleared_ok m index entry hm hs)
            (cleared_loadBounded m index hb) hw
      · split at h
        · simp only [Option.some.injEq, Prod.mk.injEq] at h
          rw [← h.2]
          exact hb
        · exact ih _ h

theorem delete_loadBounded (m : Mem) (key : Key) (m' : Mem) (hm : Mem.OK m)
    (hb : LoadBounded m.hashTable) (h : delete m key = some m') :
    LoadBounded m'.hashTable := by
  simp only [delete] at h
  split at h
  · exact absurd h (by simp)
  · rename_i m1 hl
    simp only [Option.some.injEq] at h
    subst h
    exact deleteLoop_loadBounded _ _ _ _ _ _ _ _ hm hb hl
  · rename_i m1 hl
    have hm1 := deleteLoop_ok _ _ _ _ _ _ _ _ hm hl
    split at h
    · rename_i hcond
      exact resizeTable_loadBounded _ _ _
        (capacityOK_half _ ⟨hm1.table.shape, hm1.table.range⟩ hcond.2) h
    · simp only [Option.some.injEq] at h
      subst h
      exact deleteLoop_loadBounded _ _ _ _ _ _ _ _ hm hb hl

/-! ## Induction over the calls of a program -/

/-- A property of tables that holds for every new table and that `insert` and `delete`
keep holds for every table of every state a program reaches. -/
theorem State.run_induction (Q : HashTable → Prop)
    (hnew : ∀ capacity, CapacityOK capacity → Q (newHashTable capacity))
    (hins : ∀ m key value m', Mem.OK m → Q m.hashTable → insert m key value = some m' →
      Q m'.hashTable)
    (hdel : ∀ m key m', Mem.OK m → Q m.hashTable → delete m key = some m' → Q m'.hashTable)
    (calls : List Call) (s s' : State) (hs : State.OK s) (hq : ∀ t, t ∈ s.tables → Q t)
    (h : s.run calls = some s') : ∀ t, t ∈ s'.tables → Q t := by
  induction calls generalizing s with
  | nil =>
    simp only [State.run, Option.some.injEq] at h
    subst h
    exact hq
  | cons call calls ih =>
    simp only [State.run] at h
    split at h
    · exact absurd h (by simp)
    · rename_i s1 h1
      refine ih s1 (State.step_ok s s1 call hs h1) ?_ h
      cases call with
      | newHashTable =>
        simp only [State.step, Option.some.injEq] at h1
        subst h1
        intro t ht
        simp only [List.mem_append, List.mem_singleton] at ht
        rcases ht with ht | ht
        · exact hq t ht
        · rw [ht]
          exact hnew _ hs.global
      | insert pointer key value =>
        simp only [State.step] at h1
        split at h1
        · exact absurd h1 (by simp)
        · rename_i t0 ht0
          cases hi : HashTable.insert ⟨s.CURR_TABLE_CAPACITY, t0⟩ key value with
          | none => simp [hi] at h1
          | some m =>
            simp only [hi, Option.map_some', Option.some.injEq] at h1
            subst h1
            intro t ht
            simp only [State.store] at ht
            rcases List.mem_or_eq_of_mem_set ht with h2 | h2
            · exact hq t h2
            · rw [h2]
              exact hins _ _ _ _ (State.mem_ok s pointer t0 hs ht0)
                (hq t0 (List.get?_mem ht0)) hi
      | delete pointer key =>
        simp only [State.step] at h1
        split at h1
        · exact absurd h1 (by simp)
        · rename_i t0 ht0
          cases hi : HashTable.delete ⟨s.CURR_TABLE_CAPACITY, t0⟩ key with
          | none => simp [hi] at h1
          | some m =>
            simp only [hi, Option.map_some', Option.some.injEq] at h1
            subst h1
            intro t ht
            simp only [State.store] at ht
            rcases List.mem_or_eq_of_mem_set ht with h2 | h2
            · exact hq t h2
            · rw [h2]
              exact hdel _ _ _ (State.mem_ok s pointer t0 hs ht0)
                (hq t0 (List.get?_mem ht0)) hi

theorem State.run_loadBounded (calls : List Call) (s : State)
    (h : State.initial.run calls = some s) : ∀ t, t ∈ s.tables → LoadBounded t :=
  State.run_induction LoadBounded
    (fun capacity _ => by
      unfold LoadBounded
      simp only [newHashTable]
      omega)
    (fun m key value m' hm _ hi => insert_loadBounded m key value m' hm hi)
    (fun m key m' hm hb hd => delete_loadBounded m key m' hm hb hd)
    calls State.initial s State.initial_ok (fun t ht => by simp [State.initial] at ht) h

/-! ## Entries stay findable while nothing is deleted -/

theorem findable_unique (t : HashTable) (h : Findable t) : UniqueKeys t := by
  intro i j entry entry' hi hj hk
  have h1 := h i entry hi
  have h2 := h j entry' hj
  rw [hk, h2] at h1
  simpa using h1.symm

/-- The search does not see a change of the table in cells it does not visit: here a
change of one cell that was empty, for a search that ends at an entry. -/
theorem probeLoop_found_frame (key : Key) (increaseIndex start : Nat) (t t' : HashTable)
    (j : Nat) (hcap : t'.capacity = t.capacity) (hj : slot t j = none)
    (hsame : ∀ x, x ≠ j → slot t' x = slot t x)
    (budget index i : Nat)
    (h : probeLoop key increaseIndex start t budget index = some (.found i)) :
    probeLoop key increaseIndex start t' budget index = some (.found i) := by
  induction budget generalizing index with
  | zero => simp [probeLoop] at h
  | succ budget ih =>
    unfold probeLoop at h ⊢
    cases hs : slot t index with
    | none => simp [hs] at h
    | some entry =>
      have hne : index ≠ j := by
        intro e
        rw [e, hj] at hs
        cases hs
      rw [hsame index hne, hs]
      rw [hs] at h
      by_cases hk : entry.key = key
      · simpa [hk] using h
      · simp only [hk, if_false] at h ⊢
        rw [hcap]
        by_cases hn : getNextIndex index increaseIndex t.capacity = start
        · simp [hn] at h
        · simp only [hn, if_false] at h ⊢
          exact ih _ h

/-- The search for `key` that ended at an empty cell ends at that cell once the key is
stored there. -/
theorem probeLoop_empty_filled (key : Key) (value : Value) (increaseIndex start : Nat)
    (t t' : HashTable) (j : Nat) (hcap : t'.capacity = t.capacity)
    (hj : slot t' j = some (createEntry key value))
    (hsame : ∀ x, x ≠ j → slot t' x = slot t x)
    (budget index : Nat)
    (h : probeLoop key increaseIndex start t budget index = some (.empty j)) :
    probeLoop key increaseIndex start t' budget index = some (.found j) := by
  induction budget generalizing index with
  | zero => simp [probeLoop] at h
  | succ budget ih =>
    unfold probeLoop at h ⊢
    cases hs : slot t index with
    | none =>
      simp only [hs, Option.some.injEq, Probe.empty.injEq] at h
      subst h
      rw [hj]
      simp [createEntry]
    | some entry =>
      have hne : index ≠ j := by
        intro e
        have hnone := probeLoop_empty key increaseIndex start t (budget + 1) index j
          (by unfold probeLoop; exact h)
        rw [e, hnone] at hs
        cases hs
      rw [hsame index hne, hs]
      rw [hs] at h
      by_cases hk : entry.key = key
      · simp [hk] at h
      · simp only [hk, if_false] at h ⊢
        rw [hcap]
        by_cases hn : getNextIndex index increaseIndex t.capacity = start
        · simp [hn] at h
        · simp only [hn, if_false] at h ⊢
          exact ih _ h

/-- The search only looks at the keys of the cells. -/
theorem probeLoop_same_keys (key : Key) (increaseIndex start : Nat) (t t' : HashTable)
    (hcap : t'.capacity = t.capacity)
    (hsame : ∀ x, (slot t' x).map Entry.key = (slot t x).map Entry.key)
    (budget index : Nat) :
    probeLoop key increaseIndex start t' budget index
      = probeLoop key increaseIndex start t budget index := by
  induction budget generalizing index with
  | zero => rfl
  | succ budget ih =>
    unfold probeLoop
    have hx := hsame index
    cases hs : slot t index with
    | none =>
      rw [hs] at hx
      cases hs' : slot t' index with
      | none => rfl
      | some e => rw [hs'] at hx; simp at hx
    | some entry =>
      rw [hs] at hx
      cases hs' : slot t' index with
      | none => rw [hs'] at hx; simp at hx
      | some entry' =>
        rw [hs'] at hx
        have hkk : entry'.key = entry.key := by simpa using hx
        simp only [hkk, hcap]
        by_cases hk : entry.key = key
        · simp [hk]
        · simp only [hk, if_false]
          by_cases hn : getNextIndex index increaseIndex t.capacity = start
          · simp [hn]
          · simp only [hn, if_false]
            exact ih _

theorem slot_set_self (t : HashTable) (j : Nat) (a : Option Entry) (count : Int)
    (h : j < t.entries.length) :
    slot { t with entries := t.entries.set j a, count := count } j = a :=
  getD_set_self _ _ _ h

theorem slot_set_ne (t : HashTable) (j x : Nat) (a : Option Entry) (count : Int)
    (h : x ≠ j) :
    slot { t with entries := t.entries.set j a, count := count } x = slot t x :=
  getD_set_ne _ _ _ _ (fun e => h e.symm)

theorem place_findable (t : HashTable) (key : Key) (value : Value) (r : Probe)
    (hw : WellFormed t) (hf : Findable t) (hp : probe t key = some r) :
    Findable (place t key value r) := by
  have hc := capacity_pos hw
  cases r with
  | cycled => exact hf
  | found j =>
    obtain ⟨e0, hs0, hk0⟩ := probeLoop_found _ _ _ _ _ _ _ hp
    have hjlt : j < t.entries.length := getD_some_lt _ _ _ hs0
    have hkeys : ∀ x, (slot (place t key value (.found j)) x).map Entry.key
        = (slot t x).map Entry.key := by
      intro x
      by_cases hx : x = j
      · subst hx
        simp only [place]
        rw [slot_set_self t x _ t.count hjlt, hs0]
        simp [createEntry, hk0]
      · simp only [place]
        rw [slot_set_ne t j x _ t.count hx]
    intro i entry hi
    have hi2 := hkeys i
    rw [hi] at hi2
    cases hti : slot t i with
    | none => rw [hti] at hi2; simp at hi2
    | some e1 =>
      rw [hti] at hi2
      have hk1 : entry.key = e1.key := by simpa using hi2
      have := hf i e1 hti
      unfold probe at this
      rw [hk1]
      show probeLoop e1.key (secondMultiplicativeHash e1.key t.capacity)
        (multiplicativeHash e1.key t.capacity) (place t key value (.found j)) t.capacity
        (multiplicativeHash e1.key t.capacity) = some (.found i)
      rw [probeLoop_same_keys e1.key _ _ t (place t key value (.found j)) rfl hkeys]
      exact this
  | empty j =>
    have hs0 : slot t j = none := probeLoop_empty _ _ _ _ _ _ _ hp
    have hjc : j < t.capacity :=
      probeLoop_empty_lt _ _ _ _ _ _ _ hc (multiplicativeHash_lt _ _ hc) hp
    have hjlt : j < t.entries.length := by rw [hw.size]; exact hjc
    have hself : slot (place t key value (.empty j)) j = some (createEntry key value) := by
      simp only [place]
      exact slot_set_self t j _ _ hjlt
    have hsame : ∀ x, x ≠ j → slot (place t key value (.empty j)) x = slot t x := by
      intro x hx
      simp only [place]
      exact slot_set_ne t j x _ _ hx
    intro i entry hi
    by_cases hij : i = j
    · subst hij
      rw [hself] at hi
      simp only [Option.some.injEq] at hi
      subst hi
      unfold probe at hp
      exact probeLoop_empty_filled key value _ _ t (place t key value (.empty i)) i rfl hself
        hsame _ _ hp
    · rw [hsame i hij] at hi
      have := hf i entry hi
      unfold probe at this
      exact probeLoop_found_frame _ _ _ t (place t key value (.empty j)) j rfl hs0 hsame _ _ _
        this

theorem findable_fresh (capacity : Nat) :
    Findable { count := 0, capacity := capacity, entries := List.replicate capacity none } := by
  intro i entry hi
  simp only [slot] at hi
  rw [getD_replicate_none] at hi
  cases hi

theorem rehash_findable (ins : Mem → Key → Value → Option Mem)
    (hins : ∀ m key value m', Mem.OK m → Findable m.hashTable → ins m key value = some m' →
      Mem.OK m' ∧ Findable m'.hashTable)
    (oldEntries : List (Option Entry)) (m m' : Mem) (hm : Mem.OK m)
    (hf : Findable m.hashTable) (h : rehash ins oldEntries m = some m') :
    Findable m'.hashTable := by
  induction oldEntries generalizing m with
  | nil =>
    simp [rehash] at h
    subst h
    exact hf
  | cons x xs ih =>
    cases x with
    | none =>
      simp only [rehash] at h
      exact ih m hm hf h
    | some entry =>
      simp only [rehash] at h
      cases hi : ins m entry.key entry.value with
      | none => simp [hi] at h
      | some m1 =>
        simp only [hi] at h
        obtain ⟨h1, h2⟩ := hins _ _ _ _ hm hf hi
        exact ih m1 h1 h2 h

theorem insertDepth_findable (depth : Nat) (m : Mem) (key : Key) (value : Value) (m' : Mem)
    (hm : Mem.OK m) (hf : Findable m.hashTable)
    (h : insertDepth depth m key value = some m') : Findable m'.hashTable := by
  induction depth generalizing m key value m' with
  | zero => simp [insertDepth] at h
  | succ depth ih =>
    have final : ∀ m1 : Mem, Mem.OK m1 → Findable m1.hashTable →
        (probe m1.hashTable key).map (fun r =>
          ({ m1 with hashTable := place m1.hashTable key value r } : Mem)) = some m' →
        Findable m'.hashTable := by
      intro m1 hm1 hf1 h1
      cases hp : probe m1.hashTable key with
      | none => simp [hp] at h1
      | some r =>
        simp only [hp, Option.map_some', Option.some.injEq] at h1
        subst h1
        exact place_findable _ _ _ _ hm1.table hf1 hp
    by_cases hl : MAX_LOAD_FACTOR < loadFactor m.hashTable.count m.hashTable.capacity
    · simp only [insertDepth, hl, if_true] at h
      split at h
      · exact absurd h (by simp)
      · rename_i m1 hres
        split at hres
        · rename_i hrange
          have hcap := capacityOK_double _ ⟨hm.table.shape, hm.table.range⟩ hrange
          have hm1 : Mem.OK m1 := resizeTableWith_ok _
            (fun a b c d e f => insertDepth_ok depth a b c d e f) _ _ _ hcap hres
          have hf1 : Findable m1.hashTable := by
            unfold resizeTableWith at hres
            exact rehash_findable _
              (fun a b c d e f g => ⟨insertDepth_ok depth a b c d e g, ih a b c d e f g⟩)
              _ _ _ ⟨wellFormed_fresh _ hcap, hcap⟩ (findable_fresh _) hres
          apply final m1 hm1 hf1
          rw [insertLoop_eq_probeLoop] at h
          unfold probe
          cases hp : probeLoop key (secondMultiplicativeHash key m1.hashTable.capacity)
              (multiplicativeHash key m1.hashTable.capacity) m1.hashTable
              m1.hashTable.capacity (multiplicativeHash key m1.hashTable.capacity) with
          | none => simp [hp] at h
          | some r => simpa [hp] using h
        · exact absurd hres (by simp)
    · rw [insertDepth_eq_of_not_resize depth m key value hl] at h
      exact final m hm hf h

theorem insert_findable (m : Mem) (key : Key) (value : Value) (m' : Mem)
    (hm : Mem.OK m) (hf : Findable m.hashTable) (h : insert m key value = some m') :
    Findable m'.hashTable :=
  insertDepth_findable _ m key value m' hm hf h

/-! ## Tables no `delete` was called on -/

theorem get?_store (s : State) (pointer p : Nat) (m : Mem) (t : HashTable)
    (h : (s.store pointer m).tables.get? p = some t) :
    (p = pointer ∧ t = m.hashTable ∧ pointer < s.tables.length)
      ∨ (p ≠ pointer ∧ s.tables.get? p = some t) := by
  simp only [State.store, List.get?_eq_getElem?] at h ⊢
  rw [List.getElem?_set] at h
  by_cases hp : pointer = p
  · subst hp
    simp only [if_true] at h
    by_cases hl : pointer < s.tables.length
    · simp only [hl, if_true, Option.some.injEq] at h
      exact Or.inl ⟨rfl, h.symm, hl⟩
    · simp [hl] at h
  · simp only [hp, if_false] at h
    exact Or.inr ⟨fun e => hp e.symm, h⟩

theorem State.run_findable (p : Nat) (calls : List Call) (s s' : State) (hs : State.OK s)
    (hq : ∀ t, s.tables.get? p = some t → Findable t)
    (hnd : ∀ key, Call.delete p key ∉ calls) (h : s.run calls = some s') :
    ∀ t, s'.tables.get? p = some t → Findable t := by
  induction calls generalizing s with
  | nil =>
    simp only [State.run, Option.some.injEq] at h
    subst h
    exact hq
  | cons call calls ih =>
    simp only [State.run] at h
    split at h
    · exact absurd h (by simp)
    · rename_i s1 h1
      refine ih s1 (State.step_ok s s1 call hs h1) ?_
        (fun key hk => hnd key (List.mem_cons_of_mem _ hk)) h
      cases call with
      | newHashTable =>
        simp only [State.step, Option.some.injEq] at h1
        subst h1
        intro t ht
        simp only [List.get?_eq_getElem?] at ht hq
        rw [List.getElem?_append] at ht
        split at ht
        · exact hq t ht
        · have hmem : t ∈ [newHashTable s.CURR_TABLE_CAPACITY] := List.getElem?_mem ht
          simp only [List.mem_singleton] at hmem
          rw [hmem]
          exact findable_fresh _
      | insert pointer key value =>
        simp only [State.step] at h1
        split at h1
        · exact absurd h1 (by simp)
        · rename_i t0 ht0
          cases hi : HashTable.insert ⟨s.CURR_TABLE_CAPACITY, t0⟩ key value with
          | none => simp [hi] at h1
          | some m =>
            simp only [hi, Option.map_some', Option.some.injEq] at h1
            subst h1
            intro t ht
            rcases get?_store s pointer p m t ht with ⟨hp, htm, _⟩ | ⟨_, hold⟩
            · subst hp
              rw [htm]
              exact insert_findable _ _ _ _ (State.mem_ok s p t0 hs ht0) (hq t0 ht0) hi
            · exact hq t hold
      | delete pointer key =>
        have hpp : pointer ≠ p := by
          intro e
          subst e
          exact hnd key (List.mem_cons_self _ _)
        simp only [State.step] at h1
        split at h1
        · exact absurd h1 (by simp)
        · rename_i t0 ht0
          cases hi : HashTable.delete ⟨s.CURR_TABLE_CAPACITY, t0⟩ key with
          | none => simp [hi] at h1
          | some m =>
            simp only [hi, Option.map_some', Option.some.injEq] at h1
            subst h1
            intro t ht
            rcases get?_store s pointer p m t ht with ⟨hp, _, _⟩ | ⟨_, hold⟩
            · exact absurd hp.symm hpp
            · exact hq t hold

theorem growKeys_length : growKeys.length = 769 := by decide!
theorem growKeys_increasing :
    increasingFrom 0 (growKeys.map (fun key => multiplicativeHash key 1024)) = true := by decide!

/-- The constant `A` is the binary64 value nearest to `0.6180339887`. -/
theorem A_nearest :
    2 ^ 52 ≤ A ∧ A < 2 ^ 53
      ∧ 2 * ((A : Int) * 10 ^ 10 - 6180339887 * 2 ^ 53).natAbs ≤ 10 ^ 10 := by
  decide

/-- The keys `"a"`, `"b"`, `"3s"`, `"L1"` and `"zz"` stay in the range in which the casts
of `multiplicativeHash` are defined. -/
theorem castsDefined_keys :
    [[97], [98], [51, 115], [76, 49], [122, 122]].all castsDefined = true := by
  decide!

/-- The keys of `growKeys` stay in the range in which the casts of `multiplicativeHash`
are defined. -/
theorem castsDefined_growKeys : growKeys.all castsDefined = true := by
  decide!

/-- Above `2 ^ 24` entries the test of line 155 is not exact: with `2 ^ 25` cells and one
entry more than three quarters of them, the count rounds to three quarters of the
capacity and the table is not resized. -/
theorem loadFactor_rounding_gap :
    3 * 2 ^ 25 < 4 * 25165825 ∧ ¬ MAX_LOAD_FACTOR < loadFactor 25165825 (2 ^ 25) := by
  decide!

/-! ## The program `growCalls` -/

theorem State.run_append (s : State) (a b : List Call) :
    s.run (a ++ b) = (s.run a).bind (fun s' => s'.run b) := by
  induction a generalizing s with
  | nil => simp [State.run]
  | cons call calls ih =>
    simp only [List.cons_append, State.run]
    cases s.step call with
    | none => simp
    | some s1 => simpa using ih s1

theorem probe_of_start_empty (t : HashTable) (key : Key) (hc : 0 < t.capacity)
    (h : slot t (multiplicativeHash key t.capacity) = none) :
    probe t key = some (.empty (multiplicativeHash key t.capacity)) := by
  unfold probe
  obtain ⟨n, hn⟩ : ∃ n, t.capacity = n + 1 := ⟨t.capacity - 1, by omega⟩
  rw [hn]
  unfold probeLoop
  rw [← hn, h]

/-- An `insert` that does not resize and finds its start index empty. -/
theorem insert_of_start_empty (m : Mem) (key : Key) (value : Value)
    (hm : Mem.OK m)
    (hl : ¬ MAX_LOAD_FACTOR < loadFactor m.hashTable.count m.hashTable.capacity)
    (h : slot m.hashTable (multiplicativeHash key m.hashTable.capacity) = none) :
    insert m key value = some { m with
      hashTable := place m.hashTable key value
        (.empty (multiplicativeHash key m.hashTable.capacity)) } := by
  unfold insert
  rw [insertDepth_eq_of_not_resize 3 m key value hl,
    probe_of_start_empty _ _ (capacity_pos hm.table) h]
  rfl

theorem step_insert_single (g : Nat) (t : HashTable) (key : Key) (value : Value) :
    State.step ⟨g, [t]⟩ (.insert 0 key value)
      = (insert ⟨g, t⟩ key value).map (fun m => ⟨m.CURR_TABLE_CAPACITY, [m.hashTable]⟩) := by
  simp only [State.step, List.get?_cons_zero]
  cases insert ⟨g, t⟩ key value with
  | none => rfl
  | some m => simp [State.store]

theorem not_resize_of_le (t : HashTable) (hw : WellFormed t)
    (h : 4 * t.count ≤ 3 * (t.capacity : Int)) :
    ¬ MAX_LOAD_FACTOR < loadFactor t.count t.capacity := by
  obtain ⟨e, he, he10, he30⟩ := wellFormed_two_pow t hw
  have hex := hw.exact
  simp only [occupied] at hex
  rw [hex, he]
  apply not_max_lt_loadFactor _ e (by omega) (by omega)
  rw [← he]
  omega

theorem resize_of_gt (t : HashTable) (hw : WellFormed t) (h23 : t.capacity ≤ 2 ^ 23)
    (h : 3 * (t.capacity : Int) < 4 * t.count) :
    MAX_LOAD_FACTOR < loadFactor t.count t.capacity := by
  obtain ⟨e, he, _, he30⟩ := wellFormed_two_pow t hw
  have hex := hw.exact
  have hle := countP_le_length t.entries
  rw [hw.size] at hle
  simp only [occupied] at hex
  rw [hex, he, max_lt_loadFactor_iff _ e (by omega) (by omega), ← he]
  omega

theorem capacityOK_1024 : CapacityOK 1024 :=
  ⟨⟨0, by simp [INITIAL_TABLE_CAPACITY]⟩, by decide⟩

theorem capacityOK_2048 : CapacityOK 2048 :=
  ⟨⟨1, by simp [INITIAL_TABLE_CAPACITY]⟩, by decide⟩

/-- The function `insert` when the load-factor test calls `resizeTable`. -/
theorem insertDepth_eq_of_resize (depth : Nat) (m : Mem) (key : Key) (value : Value)
    (h : MAX_LOAD_FACTOR < loadFactor m.hashTable.count m.hashTable.capacity)
    (hr : m.hashTable.capacity * GROWTH_FACTOR < 2 ^ 31) :
    insertDepth (depth + 1) m key value
      = (resizeTableWith (fun m key value => insertDepth depth m key value) m
          (m.hashTable.capacity * GROWTH_FACTOR)).bind (fun m1 =>
            (probe m1.hashTable key).map (fun r =>
              { m1 with hashTable := place m1.hashTable key value r })) := by
  rw [insertDepth]
  simp only [h, hr, if_true]
  cases resizeTableWith (fun m key value => insertDepth depth m key value) m
      (m.hashTable.capacity * GROWTH_FACTOR) with
  | none => rfl
  | some m1 =>
    simp only [Option.some_bind]
    rw [insertLoop_eq_probeLoop]
    unfold probe
    cases probeLoop key (secondMultiplicativeHash key m1.hashTable.capacity)
        (multiplicativeHash key m1.hashTable.capacity) m1.hashTable m1.hashTable.capacity
        (multiplicativeHash key m1.hashTable.capacity) with
    | none => rfl
    | some r => rfl

/-- Inserting keys whose start indices increase puts each of them at its start index. -/
theorem run_increasing (keys : List Key) (bound : Nat) (t : HashTable)
    (hw : WellFormed t) (hcap : t.capacity = 1024)
    (hfree : ∀ i, bound ≤ i → slot t i = none)
    (hinc : increasingFrom bound (keys.map (fun key => multiplicativeHash key 1024)) = true)
    (hcount : t.count + keys.length ≤ 769) :
    ∃ t', State.run ⟨1024, [t]⟩ (keys.map (fun key => Call.insert 0 key []))
        = some ⟨1024, [t']⟩
      ∧ WellFormed t' ∧ t'.capacity = 1024 ∧ t'.count = t.count + keys.length := by
  induction keys generalizing bound t with
  | nil => exact ⟨t, rfl, hw, hcap, by simp⟩
  | cons key keys ih =>
    simp only [List.map_cons, increasingFrom, Bool.and_eq_true, decide_eq_true_eq] at hinc
    simp only [List.length_cons, Nat.cast_add, Nat.cast_one] at hcount
    have hlen : (0 : Int) ≤ keys.length := Int.natCast_nonneg _
    have hok : Mem.OK ⟨1024, t⟩ := ⟨hw, capacityOK_1024⟩
    have hl : ¬ MAX_LOAD_FACTOR < loadFactor t.count t.capacity :=
      not_resize_of_le t hw (by rw [hcap]; push_cast; omega)
    have hstart : slot t (multiplicativeHash key t.capacity) = none := by
      rw [hcap]
      exact hfree _ hinc.1
    have hins := insert_of_start_empty ⟨1024, t⟩ key [] hok hl hstart
    have hw1 : WellFormed (place t key [] (.empty (multiplicativeHash key t.capacity))) := by
      apply place_wellFormed _ _ _ _ hw
      · intro i hi
        cases hi
      · intro i hi
        simp only [Probe.empty.injEq] at hi
        subst hi
        exact ⟨hstart, multiplicativeHash_lt _ _ (capacity_pos hw)⟩
    have hfree1 : ∀ i, multiplicativeHash key 1024 + 1 ≤ i →
        slot (place t key [] (.empty (multiplicativeHash key t.capacity))) i = none := by
      intro i hi
      simp only [place]
      rw [slot_set_ne t _ i _ _ (by rw [hcap]; omega)]
      exact hfree i (by omega)
    obtain ⟨t', hrun, hw', hcap', hcount'⟩ := ih (multiplicativeHash key 1024 + 1)
      (place t key [] (.empty (multiplicativeHash key t.capacity))) hw1 hcap hfree1 hinc.2
      (by simp only [place]; omega)
    refine ⟨t', ?_, hw', hcap', ?_⟩
    · simp only [List.map_cons, State.run]
      rw [step_insert_single, hins]
      exact hrun
    · rw [hcount']
      simp only [place, List.length_cons, Nat.cast_add, Nat.cast_one]
      ring

/-- The rehash loop of a `resizeTable` call whose new table has room for all old cells:
no `insert` of the loop resizes, and the loop ends. -/
theorem rehash_no_resize (depth : Nat) (oldEntries : List (Option Entry)) (m : Mem)
    (hm : Mem.OK m)
    (hroom : 4 * (m.hashTable.count + oldEntries.length) ≤ 3 * (m.hashTable.capacity : Int)) :
    ∃ m', rehash (fun m key value => insertDepth (depth + 1) m key value) oldEntries m = some m'
      ∧ Mem.OK m' ∧ m'.CURR_TABLE_CAPACITY = m.CURR_TABLE_CAPACITY
      ∧ m'.hashTable.capacity = m.hashTable.capacity
      ∧ m'.hashTable.count ≤ m.hashTable.count + oldEntries.length := by
  induction oldEntries generalizing m with
  | nil => exact ⟨m, rfl, hm, rfl, rfl, by simp⟩
  | cons x xs ih =>
    simp only [List.length_cons, Nat.cast_add, Nat.cast_one] at hroom
    have hlen : (0 : Int) ≤ xs.length := Int.natCast_nonneg _
    cases x with
    | none =>
      obtain ⟨m', h1, h2, h3, h4, h5⟩ := ih m hm (by omega)
      refine ⟨m', ?_, h2, h3, h4, ?_⟩
      · simp only [rehash]
        exact h1
      · simp only [List.length_cons, Nat.cast_add, Nat.cast_one]
        omega
    | some entry =>
      have hl : ¬ MAX_LOAD_FACTOR < loadFactor m.hashTable.count m.hashTable.capacity :=
        not_resize_of_le _ hm.table (by omega)
      obtain ⟨r, hr⟩ := probe_total m.hashTable entry.key hm.table
      have hins : insertDepth (depth + 1) m entry.key entry.value
          = some { m with hashTable := place m.hashTable entry.key entry.value r } := by
        rw [insertDepth_eq_of_not_resize depth m _ _ hl, hr]
        rfl
      have hm1 := insertDepth_ok _ _ _ _ _ hm hins
      have hp := place_count_le m.hashTable entry.key entry.value r
      obtain ⟨m', h1, h2, h3, h4, h5⟩ := ih
        { m with hashTable := place m.hashTable entry.key entry.value r } hm1
        (by simp only; rw [hp.2.2]; omega)
      refine ⟨m', ?_, h2, h3, ?_, ?_⟩
      · simp only [rehash, hins]
        exact h1
      · rw [h4]
        exact hp.2.2
      · simp only [List.length_cons, Nat.cast_add, Nat.cast_one]
        simp only at h5
        omega

/-- The program `growCalls` ends with the table at capacity 2048, and with 2048 in the
global variable. -/
theorem growCalls_run :
    ∃ t, State.initial.run growCalls = some ⟨2048, [t]⟩ ∧ WellFormed t
      ∧ t.capacity = 2048 := by
  have hnew : WellFormed (newHashTable 1024) := newHashTable_wellFormed 1024 capacityOK_1024
  obtain ⟨t1, hrun1, hw1, hcap1, hcount1⟩ := run_increasing growKeys 0 (newHashTable 1024)
    hnew rfl (fun i _ => getD_replicate_none 1024 i) growKeys_increasing
    (by rw [growKeys_length]; show (0 : Int) + ((769 : Nat) : Int) ≤ 769; decide)
  rw [growKeys_length] at hcount1
  have hcount1 : t1.count = 769 := by
    rw [hcount1]
    show (0 : Int) + ((769 : Nat) : Int) = 769
    decide
  have hok1 : Mem.OK ⟨1024, t1⟩ := ⟨hw1, capacityOK_1024⟩
  have hl : MAX_LOAD_FACTOR < loadFactor t1.count t1.capacity :=
    resize_of_gt t1 hw1 (by rw [hcap1]; decide) (by rw [hcap1, hcount1]; decide)
  have hcap2 : CapacityOK 2048 := capacityOK_2048
  have hlen1 : t1.entries.length = 1024 := by rw [hw1.size, hcap1]
  obtain ⟨m2, hre, hok2, hcurr2, hcapm2, hcount2⟩ := rehash_no_resize 2 t1.entries
    ⟨2048, { count := 0, capacity := 2048, entries := List.replicate 2048 none }⟩
    ⟨wellFormed_fresh 2048 hcap2, hcap2⟩
    (by simp only [hlen1]; decide)
  obtain ⟨r, hr⟩ := probe_total m2.hashTable [122, 122] hok2.table
  have hins : insert ⟨1024, t1⟩ [122, 122] []
      = some { m2 with hashTable := place m2.hashTable [122, 122] [] r } := by
    unfold insert
    rw [insertDepth_eq_of_resize 3 _ _ _ hl (by rw [hcap1]; decide)]
    unfold resizeTableWith
    simp only [hcap1, GROWTH_FACTOR]
    rw [hre]
    simp only [Option.some_bind, hr, Option.map_some']
  refine ⟨place m2.hashTable [122, 122] [] r, ?_, ?_, ?_⟩
  · have hstep : State.initial.step Call.newHashTable
        = some ⟨1024, [newHashTable 1024]⟩ := rfl
    unfold growCalls
    rw [State.run, hstep]
    simp only
    rw [State.run_append, hrun1]
    simp only [Option.some_bind, State.run]
    rw [step_insert_single, hins]
    simp only [Option.map_some', hcurr2]
  · exact (insert_ok _ _ _ _ hok1 hins).table
  · rw [(place_count_le m2.hashTable [122, 122] [] r).2.2, hcapm2]

/-! ## `insert` returns -/

/-- The function `insert` returns on every well-formed table whose doubled capacity fits
an `int`: its loops end and a `resizeTable` it calls does not call `resizeTable` again. -/
theorem insert_total (m : Mem) (key : Key) (value : Value) (hm : Mem.OK m)
    (hr : m.hashTable.capacity * GROWTH_FACTOR < 2 ^ 31) :
    ∃ m', insert m key value = some m' := by
  unfold insert
  by_cases hl : MAX_LOAD_FACTOR < loadFactor m.hashTable.count m.hashTable.capacity
  · have hcap := capacityOK_double _ ⟨hm.table.shape, hm.table.range⟩ hr
    obtain ⟨m2, hre, hok2, _, _, _⟩ := rehash_no_resize 2 m.hashTable.entries
      ⟨m.hashTable.capacity * GROWTH_FACTOR,
        { count := 0, capacity := m.hashTable.capacity * GROWTH_FACTOR,
          entries := List.replicate (m.hashTable.capacity * GROWTH_FACTOR) none }⟩
      ⟨wellFormed_fresh _ hcap, hcap⟩
      (by simp only [hm.table.size, GROWTH_FACTOR]; push_cast; omega)
    obtain ⟨r, hr2⟩ := probe_total m2.hashTable key hok2.table
    rw [insertDepth_eq_of_resize 3 _ _ _ hl hr]
    unfold resizeTableWith
    rw [hre]
    simp only [Option.some_bind, hr2, Option.map_some']
    exact ⟨_, rfl⟩
  · obtain ⟨r, hr⟩ := probe_total m.hashTable key hm.table
    rw [insertDepth_eq_of_not_resize 3 m key value hl, hr]
    exact ⟨_, rfl⟩

/-! ## Programs on the second of two tables -/

theorem State.run_second (g : Nat) (t0 t1 : HashTable) (calls : List Call)
    (h : calls.all (Call.on 1) = true) :
    State.run ⟨g, [t0, t1]⟩ calls
      = (Mem.run ⟨g, t1⟩ calls).map (fun m => ⟨m.CURR_TABLE_CAPACITY, [t0, m.hashTable]⟩) := by
  induction calls generalizing g t1 with
  | nil => rfl
  | cons call calls ih =>
    simp only [List.all_cons, Bool.and_eq_true] at h
    cases call with
    | newHashTable => simp [Call.on] at h
    | insert p key value =>
      have hp : p = 1 := by simpa [Call.on] using h.1
      subst hp
      simp only [State.run, State.step, Mem.run, Mem.step, List.get?_cons_succ,
        List.get?_cons_zero]
      cases insert ⟨g, t1⟩ key value with
      | none => rfl
      | some m =>
        simp only [Option.map_some', State.store, List.set_cons_succ, List.set_cons_zero]
        exact ih _ _ h.2
    | delete p key =>
      have hp : p = 1 := by simpa [Call.on] using h.1
      subst hp
      simp only [State.run, State.step, Mem.run, Mem.step, List.get?_cons_succ,
        List.get?_cons_zero]
      cases delete ⟨g, t1⟩ key with
      | none => rfl
      | some m =>
        simp only [Option.map_some', State.store, List.set_cons_succ, List.set_cons_zero]
        exact ih _ _ h.2

/-- After `growCalls` and a `newHashTable`, a program that works on the new table reaches
the states that its calls reach from the new table of capacity 2048. -/
theorem grow_then_run (calls : List Call) (h : calls.all (Call.on 1) = true) (m : Mem)
    (hrun : Mem.run ⟨2048, newHashTable 2048⟩ calls = some m) :
    ∃ t0, State.initial.run (growCalls ++ Call.newHashTable :: calls)
      = some ⟨m.CURR_TABLE_CAPACITY, [t0, m.hashTable]⟩ := by
  obtain ⟨t0, h0, _, _⟩ := growCalls_run
  refine ⟨t0, ?_⟩
  rw [State.run_append, h0]
  simp only [Option.some_bind]
  rw [State.run]
  have hstep : State.step ⟨2048, [t0]⟩ Call.newHashTable
      = some ⟨2048, [t0, newHashTable 2048]⟩ := rfl
  rw [hstep]
  simp only
  rw [State.run_second 2048 t0 _ calls h, hrun]
  rfl

/-! ## Programs on one table of capacity 1024

The keys are `"b"` (`[98]`, start index 580, stride 99), `"3s"` (`[51, 115]`, start index
68) and `"L1"` (`[76, 49]`, start index 580, stride 512, so that its probe sequence is
580, 68, 580). None of them leaves the range in which the casts of `multiplicativeHash`
are defined. -/

theorem run_b :
    State.initial.run [.newHashTable, .insert 0 [98] [49]]
      = some ⟨1024, [tableOf 1024 [(580, ⟨[98], [49]⟩)]]⟩ := by
  decide!

theorem run_b_3s :
    State.initial.run [.newHashTable, .insert 0 [98] [49], .insert 0 [51, 115] [50]]
      = some ⟨1024, [tableOf 1024 [(580, ⟨[98], [49]⟩), (68, ⟨[51, 115], [50]⟩)]]⟩ := by
  decide!

theorem run_b_L1 :
    State.initial.run [.newHashTable, .insert 0 [98] [49], .insert 0 [76, 49] [50]]
      = some ⟨1024, [tableOf 1024 [(580, ⟨[98], [49]⟩), (68, ⟨[76, 49], [50]⟩)]]⟩ := by
  decide!

/-- C1, at a failing input. After `insert("b", "1")` and `insert("3s", "2")` the two cells
of the probe sequence of `"L1"` are taken; `insert("L1", "3")` returns at line 180
without storing anything, and `get("L1")` returns `NULL` instead of `"3"`. -/
theorem insert_lost_on_short_cycle :
    State.initial.run [.newHashTable, .insert 0 [98] [49], .insert 0 [51, 115] [50],
        .insert 0 [76, 49] [51]]
      = some ⟨1024, [tableOf 1024 [(580, ⟨[98], [49]⟩), (68, ⟨[51, 115], [50]⟩)]]⟩
    ∧ get (tableOf 1024 [(580, ⟨[98], [49]⟩), (68, ⟨[51, 115], [50]⟩)]) [76, 49]
      = some none := by
  decide!

/-- C2, at a failing input. With `"b"` in cell 580 and `"L1"` in cell 68, `get("L1")`
returns `"2"`. `delete("b")` empties cell 580 and walks on with the stride of `"b"`, to
the empty cell 679; `"L1"` stays in cell 68, behind the now empty start of its probe
sequence, and `get("L1")` returns `NULL`. -/
theorem delete_orphans_other_key :
    State.initial.run [.newHashTable, .insert 0 [98] [49], .insert 0 [76, 49] [50]]
      = some ⟨1024, [tableOf 1024 [(580, ⟨[98], [49]⟩), (68, ⟨[76, 49], [50]⟩)]]⟩
    ∧ get (tableOf 1024 [(580, ⟨[98], [49]⟩), (68, ⟨[76, 49], [50]⟩)]) [76, 49]
      = some (some [50])
    ∧ delete ⟨1024, tableOf 1024 [(580, ⟨[98], [49]⟩), (68, ⟨[76, 49], [50]⟩)]⟩ [98]
      = some ⟨1024, tableOf 1024 [(68, ⟨[76, 49], [50]⟩)]⟩
    ∧ get (tableOf 1024 [(68, ⟨[76, 49], [50]⟩)]) [76, 49] = some none := by
  decide!

/-- C3, at a failing input. After `insert("b", "1")`, `insert("L1", "2")`, `delete("b")`
and `insert("L1", "3")` the key `"L1"` is in the cells 68 and 580. `delete("L1")` empties
cell 580 and its walk moves the entry of cell 68 to cell 580; `get("L1")` then returns
`"2"`, not `NULL`. -/
theorem delete_leaves_key :
    State.initial.run [.newHashTable, .insert 0 [98] [49], .insert 0 [76, 49] [50],
        .delete 0 [98], .insert 0 [76, 49] [51]]
      = some ⟨1024, [tableOf 1024 [(68, ⟨[76, 49], [50]⟩), (580, ⟨[76, 49], [51]⟩)]]⟩
    ∧ delete ⟨1024, tableOf 1024 [(68, ⟨[76, 49], [50]⟩), (580, ⟨[76, 49], [51]⟩)]⟩ [76, 49]
      = some ⟨1024, tableOf 1024 [(580, ⟨[76, 49], [50]⟩)]⟩
    ∧ get (tableOf 1024 [(580, ⟨[76, 49], [50]⟩)]) [76, 49] = some (some [50]) := by
  decide!

/-- C4, at a failing input. With `"b"` and `"3s"` in the cells 580 and 68, both
`insert("L1", "3")` and `insert("L1", "4")` return at line 180 and leave the table as it
is; `get("L1")` returns `NULL` instead of `"4"`. -/
theorem update_lost_on_short_cycle :
    State.initial.run [.newHashTable, .insert 0 [98] [49], .insert 0 [51, 115] [50]]
      = some ⟨1024, [tableOf 1024 [(580, ⟨[98], [49]⟩), (68, ⟨[51, 115], [50]⟩)]]⟩
    ∧ insert ⟨1024, tableOf 1024 [(580, ⟨[98], [49]⟩), (68, ⟨[51, 115], [50]⟩)]⟩ [76, 49] [51]
      = some ⟨1024, tableOf 1024 [(580, ⟨[98], [49]⟩), (68, ⟨[51, 115], [50]⟩)]⟩
    ∧ insert ⟨1024, tableOf 1024 [(580, ⟨[98], [49]⟩), (68, ⟨[51, 115], [50]⟩)]⟩ [76, 49] [52]
      = some ⟨1024, tableOf 1024 [(580, ⟨[98], [49]⟩), (68, ⟨[51, 115], [50]⟩)]⟩
    ∧ get (tableOf 1024 [(580, ⟨[98], [49]⟩), (68, ⟨[51, 115], [50]⟩)]) [76, 49]
      = some none := by
  decide!

/-! ## Programs on a second table, created at capacity 2048

After `growCalls` the global variable holds 2048, and the table of the next `newHashTable`
has 2048 cells. There `"b"` has start index 1161, `"3s"` 136, `"a"` (`[97]`) 1944, and
`"L1"` start index 1161 and stride 511. -/

theorem run_second_inserts :
    Mem.run ⟨2048, newHashTable 2048⟩ [.insert 1 [98] [49], .insert 1 [51, 115] [50],
        .insert 1 [76, 49] [51], .insert 1 [97] [52]]
      = some ⟨2048, tableOf 2048 [(1161, ⟨[98], [49]⟩), (136, ⟨[51, 115], [50]⟩),
          (1672, ⟨[76, 49], [51]⟩), (1944, ⟨[97], [52]⟩)]⟩ := by
  decide!

/-- C5, at a failing input. The second table of the program is new, with 2048 cells, all
empty: `get("a")` returns `NULL`. `delete("a")` leaves its loop at the empty cell 1944,
finds the load factor `0 / 2048` below `0.25` and the capacity above 1024, and calls
`resizeTable`: the capacity of the table changes to 1024. -/
theorem delete_absent_shrinks :
    (∃ t0, State.initial.run (growCalls ++ [Call.newHashTable])
      = some ⟨2048, [t0, newHashTable 2048]⟩)
    ∧ get (newHashTable 2048) [97] = some none
    ∧ delete ⟨2048, newHashTable 2048⟩ [97] = some ⟨1024, newHashTable 1024⟩ := by
  refine ⟨?_, by decide!, by decide!⟩
  obtain ⟨t0, h⟩ := grow_then_run [] rfl ⟨2048, newHashTable 2048⟩ rfl
  exact ⟨t0, h⟩

/-- C6, at a failing input. The second table holds `"b"`, `"3s"`, `"L1"` and `"a"` in
2048 cells. `delete("a")` removes `"a"`; the search loop hands over a table with
`count = 3` on which `get("L1")` returns `"3"`, the load factor `3 / 2048` is below
`0.25`, and `delete` calls `resizeTable` with 1024. In the new array `"3s"` and `"b"`
take the cells 68 and 580, the `insert` of `"L1"` returns at line 180, and the table ends
with `count = 2` and `get("L1")` returning `NULL`. -/
theorem resize_loses_entry :
    (∃ t0, State.initial.run (growCalls ++ [.newHashTable, .insert 1 [98] [49],
        .insert 1 [51, 115] [50], .insert 1 [76, 49] [51], .insert 1 [97] [52]])
      = some ⟨2048, [t0, tableOf 2048 [(1161, ⟨[98], [49]⟩), (136, ⟨[51, 115], [50]⟩),
          (1672, ⟨[76, 49], [51]⟩), (1944, ⟨[97], [52]⟩)]]⟩)
    ∧ deleteLoop [97] (secondMultiplicativeHash [97] 2048) (multiplicativeHash [97] 2048) 2048
        ⟨2048, tableOf 2048 [(1161, ⟨[98], [49]⟩), (136, ⟨[51, 115], [50]⟩),
          (1672, ⟨[76, 49], [51]⟩), (1944, ⟨[97], [52]⟩)]⟩ (multiplicativeHash [97] 2048)
      = some (false, ⟨2048, tableOf 2048 [(1161, ⟨[98], [49]⟩), (136, ⟨[51, 115], [50]⟩),
          (1672, ⟨[76, 49], [51]⟩)]⟩)
    ∧ loadFactor 3 2048 < MIN_LOAD_FACTOR
    ∧ get (tableOf 2048 [(1161, ⟨[98], [49]⟩), (136, ⟨[51, 115], [50]⟩),
        (1672, ⟨[76, 49], [51]⟩)]) [76, 49] = some (some [51])
    ∧ resizeTable ⟨2048, tableOf 2048 [(1161, ⟨[98], [49]⟩), (136, ⟨[51, 115], [50]⟩),
        (1672, ⟨[76, 49], [51]⟩)]⟩ (2048 / 2)
      = some ⟨1024, tableOf 1024 [(68, ⟨[51, 115], [50]⟩), (580, ⟨[98], [49]⟩)]⟩
    ∧ delete ⟨2048, tableOf 2048 [(1161, ⟨[98], [49]⟩), (136, ⟨[51, 115], [50]⟩),
        (1672, ⟨[76, 49], [51]⟩), (1944, ⟨[97], [52]⟩)]⟩ [97]
      = some ⟨1024, tableOf 1024 [(68, ⟨[51, 115], [50]⟩), (580, ⟨[98], [49]⟩)]⟩
    ∧ get (tableOf 1024 [(68, ⟨[51, 115], [50]⟩), (580, ⟨[98], [49]⟩)]) [76, 49]
      = some none := by
  refine ⟨?_, by decide!, by decide!, by decide!, by decide!, by decide!, by decide!⟩
  obtain ⟨t0, h⟩ := grow_then_run [.insert 1 [98] [49], .insert 1 [51, 115] [50],
    .insert 1 [76, 49] [51], .insert 1 [97] [52]] rfl _ run_second_inserts
  exact ⟨t0, h⟩

/-! ## Invariants of the tables of a program -/

/-- C7 as stated fails on both sides. After one `insert` into a new table the load factor
is `1 / 1024`, below `0.25`: `delete` shrinks no table of 1024 cells, and `insert` never
shrinks. After the 769 inserts of `growKeys` it is `769 / 1024`, above `0.75`: `insert`
tests the load factor before it adds its entry. -/
theorem load_factor_bounds_fail :
    (State.initial.run [.newHashTable, .insert 0 [98] [49]]
        = some ⟨1024, [tableOf 1024 [(580, ⟨[98], [49]⟩)]]⟩
      ∧ 4 * (tableOf 1024 [(580, ⟨[98], [49]⟩)]).count
        < ((tableOf 1024 [(580, ⟨[98], [49]⟩)]).capacity : Int))
    ∧ ∃ t, State.initial.run
          (.newHashTable :: growKeys.map (fun key => Call.insert 0 key []))
        = some ⟨1024, [t]⟩
      ∧ 3 * (t.capacity : Int) < 4 * t.count := by
  refine ⟨⟨run_b, by decide⟩, ?_⟩
  obtain ⟨t, hrun, _, hcap, hcount⟩ := run_increasing growKeys 0 (newHashTable 1024)
    (newHashTable_wellFormed 1024 capacityOK_1024) rfl
    (fun i _ => getD_replicate_none 1024 i) growKeys_increasing
    (by rw [growKeys_length]; show (0 : Int) + ((769 : Nat) : Int) ≤ 769; decide)
  refine ⟨t, ?_, ?_⟩
  · have hstep : State.initial.step Call.newHashTable
        = some ⟨1024, [newHashTable 1024]⟩ := rfl
    rw [State.run, hstep]
    exact hrun
  · rw [hcap, hcount, growKeys_length]
    show 3 * ((1024 : Nat) : Int) < 4 * ((0 : Int) + ((769 : Nat) : Int))
    decide

/-- C7, amended. In every table of every state a program reaches, `count` is at least 0
and at most `capacity`; without its last entry the table is at most three quarters full
up to the binary32 rounding of the count, `(count - 1) / capacity ≤ 0.75 * (1 + 2 ^ -24)`;
and when the capacity is at most `2 ^ 22` the rounding plays no part: `count` is at most
three quarters of the capacity plus one. -/
theorem load_factor_upper_bound (calls : List Call) (s : State) (t : HashTable)
    (hrun : State.initial.run calls = some s) (ht : t ∈ s.tables) :
    0 ≤ t.count ∧ t.count ≤ (t.capacity : Int)
      ∧ 2 ^ 26 * (t.count - 1) ≤ 3 * (2 ^ 24 + 1) * (t.capacity : Int)
      ∧ (t.capacity ≤ 2 ^ 22 → 4 * t.count ≤ 3 * (t.capacity : Int) + 4) := by
  have hw := (State.run_ok calls State.initial s State.initial_ok hrun).tables t ht
  have hb : 2 ^ 26 * (t.count - 1) ≤ 3 * (2 ^ 24 + 1) * (t.capacity : Int) :=
    State.run_loadBounded calls s hrun t ht
  refine ⟨(wellFormed_count_le t hw).1, (wellFormed_count_le t hw).2, hb, ?_⟩
  intro h22
  omega

theorem load_factor_upper_bound_witness :
    State.initial.run [.newHashTable, .insert 0 [98] [49]]
        = some ⟨1024, [tableOf 1024 [(580, ⟨[98], [49]⟩)]]⟩
      ∧ 0 ≤ (tableOf 1024 [(580, ⟨[98], [49]⟩)]).count
      ∧ (tableOf 1024 [(580, ⟨[98], [49]⟩)]).count
        ≤ ((tableOf 1024 [(580, ⟨[98], [49]⟩)]).capacity : Int)
      ∧ 2 ^ 26 * ((tableOf 1024 [(580, ⟨[98], [49]⟩)]).count - 1)
        ≤ 3 * (2 ^ 24 + 1) * ((tableOf 1024 [(580, ⟨[98], [49]⟩)]).capacity : Int)
      ∧ ((tableOf 1024 [(580, ⟨[98], [49]⟩)]).capacity ≤ 2 ^ 22 →
        4 * (tableOf 1024 [(580, ⟨[98], [49]⟩)]).count
          ≤ 3 * ((tableOf 1024 [(580, ⟨[98], [49]⟩)]).capacity : Int) + 4) :=
  ⟨run_b, load_factor_upper_bound _ _ _ run_b (List.mem_singleton.2 rfl)⟩

/-- C8. In every state a program reaches, the capacity of every table is 1024 times a
power of two; so it is a power of two and at least 1024. -/
theorem capacity_floor_and_shape (calls : List Call) (s : State) (t : HashTable)
    (hrun : State.initial.run calls = some s) (ht : t ∈ s.tables) :
    (∃ k, t.capacity = 1024 * 2 ^ k) ∧ (∃ e, t.capacity = 2 ^ e) ∧ 1024 ≤ t.capacity := by
  have hw := (State.run_ok calls State.initial s State.initial_ok hrun).tables t ht
  obtain ⟨k, hk⟩ := hw.shape
  obtain ⟨e, he, _, _⟩ := wellFormed_two_pow t hw
  refine ⟨⟨k, hk⟩, ⟨e, he⟩, ?_⟩
  have : 0 < 2 ^ k := by positivity
  rw [hk, INITIAL_TABLE_CAPACITY]
  omega

theorem capacity_floor_and_shape_witness :
    State.initial.run [.newHashTable, .insert 0 [98] [49], .insert 0 [51, 115] [50]]
        = some ⟨1024, [tableOf 1024 [(580, ⟨[98], [49]⟩), (68, ⟨[51, 115], [50]⟩)]]⟩
      ∧ (∃ k, (tableOf 1024 [(580, ⟨[98], [49]⟩), (68, ⟨[51, 115], [50]⟩)]).capacity
          = 1024 * 2 ^ k)
      ∧ (∃ e, (tableOf 1024 [(580, ⟨[98], [49]⟩), (68, ⟨[51, 115], [50]⟩)]).capacity
          = 2 ^ e)
      ∧ 1024 ≤ (tableOf 1024 [(580, ⟨[98], [49]⟩), (68, ⟨[51, 115], [50]⟩)]).capacity :=
  ⟨run_b_3s, capacity_floor_and_shape _ _ _ run_b_3s (List.mem_singleton.2 rfl)⟩

/-- C9. In every table of every state a program reaches, that is after each completed
`insert` and `delete`, `count` is the number of non-empty cells; and so it is after a
`resizeTable` call on such a table that returns, for every new capacity that is 1024
times a power of two. -/
theorem count_is_exact (calls : List Call) (s : State) (t : HashTable)
    (hrun : State.initial.run calls = some s) (ht : t ∈ s.tables) :
    t.count = (occupied t : Int)
      ∧ ∀ newCapacity m', CapacityOK newCapacity →
          resizeTable ⟨s.CURR_TABLE_CAPACITY, t⟩ newCapacity = some m' →
          m'.hashTable.count = (occupied m'.hashTable : Int) := by
  have hs := State.run_ok calls State.initial s State.initial_ok hrun
  refine ⟨(hs.tables t ht).exact, ?_⟩
  intro newCapacity m' hc hr
  exact (resizeTable_ok _ _ _ hc hr).table.exact

theorem count_is_exact_witness :
    State.initial.run [.newHashTable, .insert 0 [98] [49], .insert 0 [76, 49] [50]]
        = some ⟨1024, [tableOf 1024 [(580, ⟨[98], [49]⟩), (68, ⟨[76, 49], [50]⟩)]]⟩
      ∧ (tableOf 1024 [(580, ⟨[98], [49]⟩), (68, ⟨[76, 49], [50]⟩)]).count
        = (occupied (tableOf 1024 [(580, ⟨[98], [49]⟩), (68, ⟨[76, 49], [50]⟩)]) : Int)
      ∧ ∀ newCapacity m', CapacityOK newCapacity →
          resizeTable ⟨1024, tableOf 1024 [(580, ⟨[98], [49]⟩), (68, ⟨[76, 49], [50]⟩)]⟩
            newCapacity = some m' →
          m'.hashTable.count = (occupied m'.hashTable : Int) :=
  ⟨run_b_L1, count_is_exact _ _ _ run_b_L1 (List.mem_singleton.2 rfl)⟩

/-- C10. In every state a program reaches, a table on which the program has called no
`delete`, so only `newHashTable` and then `insert`, holds no key in two cells. -/
theorem unique_keys_under_inserts (calls : List Call) (s : State) (pointer : Nat)
    (t : HashTable) (hrun : State.initial.run calls = some s)
    (ht : s.tables.get? pointer = some t)
    (hins : ∀ key, Call.delete pointer key ∉ calls) :
    ∀ i j entry entry', slot t i = some entry → slot t j = some entry' →
      entry.key = entry'.key → i = j :=
  findable_unique t
    (State.run_findable pointer calls State.initial s State.initial_ok
      (fun t ht => by simp [State.initial] at ht) hins hrun t ht)

theorem unique_keys_under_inserts_witness :
    State.initial.run [.newHashTable, .insert 0 [98] [49], .insert 0 [76, 49] [50]]
        = some ⟨1024, [tableOf 1024 [(580, ⟨[98], [49]⟩), (68, ⟨[76, 49], [50]⟩)]]⟩
      ∧ ∀ i j entry entry',
          slot (tableOf 1024 [(580, ⟨[98], [49]⟩), (68, ⟨[76, 49], [50]⟩)]) i = some entry →
          slot (tableOf 1024 [(580, ⟨[98], [49]⟩), (68, ⟨[76, 49], [50]⟩)]) j = some entry' →
          entry.key = entry'.key → i = j :=
  ⟨run_b_L1, unique_keys_under_inserts _ _ 0 _ run_b_L1 rfl
    (fun key h => by simp at h)⟩

/-! ## The hash functions -/

theorem secondRollingHash_lt (key : Key) : secondRollingHash key < 2 ^ 64 := by
  unfold secondRollingHash
  have h : ∀ (l : List Nat) (init : Nat), init < 2 ^ 64 →
      l.foldl (fun hash currChar =>
        (currChar % 2 ^ 64 + hash * 2 ^ 5 % 2 ^ 64 + hash) % 2 ^ 64) init < 2 ^ 64 := by
    intro l
    induction l with
    | nil => intro init h; simpa using h
    | cons c cs ih =>
      intro init _
      simp only [List.foldl_cons]
      exact ih _ (Nat.mod_lt _ (by decide))
  exact h key 0 (by decide)

/-- C13. For every key, the empty one included, and every capacity from 2 on that an
`int` holds, `secondMultiplicativeHash` is the rolling hash, computed modulo `2 ^ 64`,
reduced modulo `capacity - 1` plus one: it lies in `[1, capacity - 1]`, is not 0 and is
not a multiple of the capacity. -/
theorem stride_range (key : Key) (capacity : Nat) (h2 : 2 ≤ capacity)
    (hint : capacity < 2 ^ 31) :
    secondRollingHash key < 2 ^ 64
      ∧ secondMultiplicativeHash key capacity = secondRollingHash key % (capacity - 1) + 1
      ∧ 1 ≤ secondMultiplicativeHash key capacity
      ∧ secondMultiplicativeHash key capacity ≤ capacity - 1
      ∧ secondMultiplicativeHash key capacity ≠ 0
      ∧ secondMultiplicativeHash key capacity % capacity ≠ 0 := by
  have hle := secondMultiplicativeHash_le key capacity h2 (by omega)
  have hmod : secondRollingHash key % (capacity - 1) < capacity - 1 :=
    Nat.mod_lt _ (by omega)
  refine ⟨secondRollingHash_lt key, ?_, hle.1, hle.2, by omega, ?_⟩
  · unfold secondMultiplicativeHash
    exact Nat.mod_eq_of_lt (by omega)
  · rw [Nat.mod_eq_of_lt (by omega)]
    omega

theorem stride_range_witness :
    2 ≤ 1024 ∧ 1024 < 2 ^ 31
      ∧ secondRollingHash [] < 2 ^ 64
      ∧ secondMultiplicativeHash [] 1024 = secondRollingHash [] % (1024 - 1) + 1
      ∧ 1 ≤ secondMultiplicativeHash [] 1024
      ∧ secondMultiplicativeHash [] 1024 ≤ 1024 - 1
      ∧ secondMultiplicativeHash [] 1024 ≠ 0
      ∧ secondMultiplicativeHash [] 1024 % 1024 ≠ 0 :=
  ⟨by decide, by decide, stride_range [] 1024 (by decide) (by decide)⟩

/-- C14. For every key and every capacity from 1 on, `multiplicativeHash` is the value of
the golden-ratio step reduced modulo the capacity; whatever that value is, the result is
below the capacity, and so inside an array `entries` of `capacity` cells. -/
theorem start_index_range (key : Key) (capacity : Nat) (h1 : 1 ≤ capacity) :
    multiplicativeHash key capacity = goldenStep (rollingHash key) capacity % capacity
      ∧ (∀ step : Nat, step % capacity < capacity)
      ∧ multiplicativeHash key capacity < capacity
      ∧ ∀ t : HashTable, t.entries.length = capacity →
          multiplicativeHash key capacity < t.entries.length := by
  refine ⟨rfl, fun step => Nat.mod_lt _ (by omega), multiplicativeHash_lt key capacity (by omega),
    ?_⟩
  intro t ht
  rw [ht]
  exact multiplicativeHash_lt key capacity (by omega)

theorem start_index_range_witness :
    1 ≤ 1
      ∧ multiplicativeHash [76, 49] 1 = goldenStep (rollingHash [76, 49]) 1 % 1
      ∧ (∀ step : Nat, step % 1 < 1)
      ∧ multiplicativeHash [76, 49] 1 < 1
      ∧ ∀ t : HashTable, t.entries.length = 1 →
          multiplicativeHash [76, 49] 1 < t.entries.length :=
  ⟨by decide, start_index_range [76, 49] 1 (by decide)⟩

/-! ## More programs on one table of capacity 1024 -/

/-- C11, at a failing input. After `insert("b", "1")`, `insert("L1", "2")`, `delete("b")`
and `insert("L1", "3")` the cells 68 and 580 both hold the key `"L1"`: `delete("b")` left
the entry of cell 68 behind the emptied cell 580, where the second `insert` does not find
it. -/
theorem duplicate_key_after_delete :
    State.initial.run [.newHashTable, .insert 0 [98] [49], .insert 0 [76, 49] [50],
        .delete 0 [98], .insert 0 [76, 49] [51]]
      = some ⟨1024, [tableOf 1024 [(68, ⟨[76, 49], [50]⟩), (580, ⟨[76, 49], [51]⟩)]]⟩
    ∧ slot (tableOf 1024 [(68, ⟨[76, 49], [50]⟩), (580, ⟨[76, 49], [51]⟩)]) 68
      = some ⟨[76, 49], [50]⟩
    ∧ slot (tableOf 1024 [(68, ⟨[76, 49], [50]⟩), (580, ⟨[76, 49], [51]⟩)]) 580
      = some ⟨[76, 49], [51]⟩ := by
  decide!

/-- C12, at a failing input. The program `growCalls` leaves 2048 in the global variable
`CURR_TABLE_CAPACITY`; the next `newHashTable` returns a table with `count = 0`, all
cells empty and capacity 2048, not 1024. -/
theorem newHashTable_after_grow :
    ∃ t0, State.initial.run growCalls = some ⟨2048, [t0]⟩
      ∧ State.step ⟨2048, [t0]⟩ Call.newHashTable = some ⟨2048, [t0, newHashTable 2048]⟩
      ∧ (newHashTable 2048).count = 0
      ∧ (newHashTable 2048).entries = List.replicate 2048 none
      ∧ (newHashTable 2048).capacity = 2048 := by
  obtain ⟨t0, h0, _, _⟩ := growCalls_run
  exact ⟨t0, h0, rfl, rfl, rfl, rfl⟩

/-- C15, at a failing input. With `"b"` in cell 580 and `"3s"` in cell 68 the load factor
is `2 / 1024` and `insert("L1", "3")` does not resize; its probe goes from cell 580 to
cell 68 and is back at its start index 580: `insert` takes the return of line 180 and
the table stays as it is, with neither an update nor a new entry. -/
theorem insert_takes_full_return :
    State.initial.run [.newHashTable, .insert 0 [98] [49], .insert 0 [51, 115] [50]]
      = some ⟨1024, [tableOf 1024 [(580, ⟨[98], [49]⟩), (68, ⟨[51, 115], [50]⟩)]]⟩
    ∧ ¬ MAX_LOAD_FACTOR < loadFactor 2 1024
    ∧ multiplicativeHash [76, 49] 1024 = 580
    ∧ getNextIndex 580 (secondMultiplicativeHash [76, 49] 1024) 1024 = 68
    ∧ getNextIndex 68 (secondMultiplicativeHash [76, 49] 1024) 1024 = 580
    ∧ probe (tableOf 1024 [(580, ⟨[98], [49]⟩), (68, ⟨[51, 115], [50]⟩)]) [76, 49]
      = some Probe.cycled
    ∧ insertLoop [76, 49] [51] (secondMultiplicativeHash [76, 49] 1024) 580 1024
        (tableOf 1024 [(580, ⟨[98], [49]⟩), (68, ⟨[51, 115], [50]⟩)]) 580
      = some (tableOf 1024 [(580, ⟨[98], [49]⟩), (68, ⟨[51, 115], [50]⟩)]) := by
  decide!

/-! ## The period of the probe sequence -/

theorem probeWalk_eq_probeIndex (start increaseIndex capacity : Nat)
    (hc : capacity ≤ 2 ^ 31) (hs : increaseIndex < capacity) (hstart : start < capacity)
    (j : Nat) :
    probeWalk start increaseIndex capacity j = probeIndex start increaseIndex capacity j := by
  induction j with
  | zero =>
    simp only [probeWalk, probeIndex, Nat.zero_mul, Nat.add_zero]
    exact (Nat.mod_eq_of_lt hstart).symm
  | succ j ih =>
    simp only [probeWalk]
    rw [ih]
    unfold probeIndex
    have hlt : (start + j * increaseIndex) % capacity < capacity := Nat.mod_lt _ (by omega)
    rw [getNextIndex_eq _ _ _ (by omega), Nat.mod_add_mod]
    congr 1
    ring

theorem probeIndex_eq_start_iff (start increaseIndex capacity : Nat)
    (hstart : start < capacity) (j : Nat) :
    probeIndex start increaseIndex capacity j = start ↔ capacity ∣ j * increaseIndex := by
  unfold probeIndex
  constructor
  · intro h
    have h1 : (start + j * increaseIndex) % capacity = (start + 0) % capacity := by
      rw [h, Nat.add_zero, Nat.mod_eq_of_lt hstart]
    have h2 : j * increaseIndex ≡ 0 [MOD capacity] := Nat.ModEq.add_left_cancel' start h1
    exact (Nat.modEq_zero_iff_dvd).1 h2
  · intro h
    obtain ⟨k, hk⟩ := h
    rw [hk, Nat.add_mul_mod_self_left]
    exact Nat.mod_eq_of_lt hstart

theorem dvd_mul_iff_div_gcd_dvd (increaseIndex capacity : Nat) (hc : 0 < capacity) (j : Nat) :
    capacity ∣ j * increaseIndex ↔ capacity / Nat.gcd increaseIndex capacity ∣ j := by
  have hg : 0 < Nat.gcd increaseIndex capacity := Nat.gcd_pos_of_pos_right _ hc
  obtain ⟨c', hc'⟩ : Nat.gcd increaseIndex capacity ∣ capacity := Nat.gcd_dvd_right _ _
  obtain ⟨s', hs'⟩ : Nat.gcd increaseIndex capacity ∣ increaseIndex := Nat.gcd_dvd_left _ _
  have hdiv : capacity / Nat.gcd increaseIndex capacity = c' :=
    Nat.div_eq_of_eq_mul_right hg hc'
  have hcop : Nat.Coprime c' s' := by
    have h := Nat.coprime_div_gcd_div_gcd hg
    have e1 : increaseIndex / Nat.gcd increaseIndex capacity = s' :=
      Nat.div_eq_of_eq_mul_right hg hs'
    rw [e1, hdiv] at h
    exact h.symm
  rw [hdiv]
  constructor
  · intro h
    have h1 : Nat.gcd increaseIndex capacity * c' ∣
        Nat.gcd increaseIndex capacity * (j * s') := by
      have e : j * increaseIndex = Nat.gcd increaseIndex capacity * (j * s') := by
        conv_lhs => rw [hs']
        ring
      rw [← e, ← hc']
      exact h
    have h2 : c' ∣ j * s' := Nat.dvd_of_mul_dvd_mul_left hg h1
    exact hcop.dvd_of_dvd_mul_right h2
  · intro h
    obtain ⟨k, hk⟩ := h
    refine ⟨k * s', ?_⟩
    conv_lhs => rw [hs', hk]
    conv_rhs => rw [hc']
    ring

theorem probeIndex_injective (start increaseIndex capacity : Nat) (hc : 0 < capacity)
    (j j' : Nat) (hjj : j ≤ j')
    (hj' : j' < capacity / Nat.gcd increaseIndex capacity)
    (h : probeIndex start increaseIndex capacity j = probeIndex start increaseIndex capacity j') :
    j = j' := by
  unfold probeIndex at h
  obtain ⟨d, hd⟩ : ∃ d, j' = j + d := ⟨j' - j, by omega⟩
  have h1 : (start + j * increaseIndex + 0) % capacity
      = (start + j * increaseIndex + d * increaseIndex) % capacity := by
    rw [Nat.add_zero, h, hd]
    congr 1
    ring
  have h2 : 0 ≡ d * increaseIndex [MOD capacity] := Nat.ModEq.add_left_cancel' _ h1
  have h3 : capacity ∣ d * increaseIndex := (Nat.modEq_zero_iff_dvd).1 h2.symm
  have h4 := (dvd_mul_iff_div_gcd_dvd increaseIndex capacity hc d).1 h3
  have h5 : d = 0 := by
    by_contra hne
    have := Nat.le_of_dvd (by omega) h4
    omega
  omega

theorem probeIndex_mod_gcd (start increaseIndex capacity j : Nat) :
    probeIndex start increaseIndex capacity j % Nat.gcd increaseIndex capacity
      = start % Nat.gcd increaseIndex capacity := by
  unfold probeIndex
  rw [Nat.mod_mod_of_dvd _ (Nat.gcd_dvd_right _ _)]
  obtain ⟨s', hs'⟩ : Nat.gcd increaseIndex capacity ∣ increaseIndex := Nat.gcd_dvd_left _ _
  have e : start + j * increaseIndex = start + Nat.gcd increaseIndex capacity * (j * s') := by
    conv_lhs => rw [hs']
    ring
  rw [e, Nat.add_mul_mod_self_left]

theorem probeIndex_surjective_iff (start increaseIndex capacity : Nat) (hc : 2 ≤ capacity)
    (hstart : start < capacity) :
    (∀ i, i < capacity → ∃ j, probeIndex start increaseIndex capacity j = i)
      ↔ Nat.gcd increaseIndex capacity = 1 := by
  constructor
  · intro h
    obtain ⟨j, hj⟩ := h ((start + 1) % capacity) (Nat.mod_lt _ (by omega))
    have h1 := probeIndex_mod_gcd start increaseIndex capacity j
    rw [hj, Nat.mod_mod_of_dvd _ (Nat.gcd_dvd_right _ _)] at h1
    have h2 : (start + 1) % Nat.gcd increaseIndex capacity
        = (start + 0) % Nat.gcd increaseIndex capacity := by
      rw [h1, Nat.add_zero]
    have h3 : 1 ≡ 0 [MOD Nat.gcd increaseIndex capacity] := Nat.ModEq.add_left_cancel' start h2
    have h4 : Nat.gcd increaseIndex capacity ∣ 1 := (Nat.modEq_zero_iff_dvd).1 h3
    exact Nat.dvd_one.1 h4
  · intro hg i hi
    obtain ⟨m, hm⟩ := Nat.exists_mul_emod_eq_one_of_coprime hg (by omega)
    refine ⟨(i + capacity - start) * m, ?_⟩
    unfold probeIndex
    have e : (i + capacity - start) * m * increaseIndex
        = (i + capacity - start) * (increaseIndex * m) := by ring
    rw [e]
    have h1 : (start + (i + capacity - start) * (increaseIndex * m)) % capacity
        = (start + (i + capacity - start) * 1) % capacity := by
      apply Nat.ModEq.add_left
      apply Nat.ModEq.mul_left
      show increaseIndex * m % capacity = 1 % capacity
      rw [hm, Nat.mod_eq_of_lt (by omega)]
    rw [h1, Nat.mul_one]
    have e2 : start + (i + capacity - start) = i + capacity := by omega
    rw [e2, Nat.add_mod_right]
    exact Nat.mod_eq_of_lt hi

/-- C18 as stated fails for a capacity above `2 ^ 31`, which `getNextIndex` takes as an
`unsigned int` but no table has. With capacity `3 * 2 ^ 30`, start index `2 ^ 31` and
stride `2 ^ 31` the sum `index + increaseIndex` wraps around `2 ^ 32`: the walk is back at
its start after 2 steps, while `capacity / gcd` is 3. -/
theorem probe_period_fails_on_wrap :
    2 ≤ 3221225472 ∧ 2147483648 < 3221225472 ∧ 1 ≤ 2147483648 ∧ 2147483648 ≤ 3221225472 - 1
      ∧ 3221225472 / Nat.gcd 2147483648 3221225472 = 3
      ∧ probeWalk 2147483648 2147483648 3221225472 1 = 0
      ∧ probeWalk 2147483648 2147483648 3221225472 2 = 2147483648 := by
  decide

/-- C18, amended. For every capacity `c` from 2 to `2 ^ 31`, as every capacity of a table
is, every start index below `c` and every stride in `[1, c - 1]`, the walk of
`getNextIndex` from the start index is `(start + j * stride) % c`; it is back at the start
after `c / gcd` steps and not before, and the `c / gcd` indices before that are pairwise
different. So it visits every cell exactly when `gcd = 1`, and for a capacity that is a
power of two and an even stride some cell is never visited. -/
theorem probe_period (capacity start increaseIndex : Nat) (h2 : 2 ≤ capacity)
    (hint : capacity ≤ 2 ^ 31) (hstart : start < capacity) (_h1 : 1 ≤ increaseIndex)
    (hs : increaseIndex ≤ capacity - 1) :
    (∀ j, probeWalk start increaseIndex capacity j = (start + j * increaseIndex) % capacity)
      ∧ probeWalk start increaseIndex capacity (capacity / Nat.gcd increaseIndex capacity)
        = start
      ∧ (∀ j, 0 < j → j < capacity / Nat.gcd increaseIndex capacity →
          probeWalk start increaseIndex capacity j ≠ start)
      ∧ (∀ j j', j < capacity / Nat.gcd increaseIndex capacity →
          j' < capacity / Nat.gcd increaseIndex capacity →
          probeWalk start increaseIndex capacity j = probeWalk start increaseIndex capacity j' →
          j = j')
      ∧ ((∀ i, i < capacity → ∃ j, probeWalk start increaseIndex capacity j = i)
          ↔ Nat.gcd increaseIndex capacity = 1)
      ∧ ((∃ e, capacity = 2 ^ e) → increaseIndex % 2 = 0 →
          ∃ i, i < capacity ∧ ∀ j, probeWalk start increaseIndex capacity j ≠ i) := by
  have hw := probeWalk_eq_probeIndex start increaseIndex capacity hint (by omega) hstart
  have hsurj := probeIndex_surjective_iff start increaseIndex capacity h2 hstart
  refine ⟨hw, ?_, ?_, ?_, ?_, ?_⟩
  · rw [hw, probeIndex_eq_start_iff _ _ _ hstart,
      dvd_mul_iff_div_gcd_dvd _ _ (by omega)]
  · intro j hj0 hj
    rw [hw, Ne, probeIndex_eq_start_iff _ _ _ hstart, dvd_mul_iff_div_gcd_dvd _ _ (by omega)]
    exact Nat.not_dvd_of_pos_of_lt hj0 hj
  · intro j j' hj hj' h
    rw [hw, hw] at h
    rcases Nat.le_total j j' with hle | hle
    · exact probeIndex_injective start increaseIndex capacity (by omega) j j' hle hj' h
    · exact (probeIndex_injective start increaseIndex capacity (by omega) j' j hle hj
        h.symm).symm
  · simp only [hw]
    exact hsurj
  · intro hpow heven
    obtain ⟨e, he⟩ := hpow
    have hg : Nat.gcd increaseIndex capacity ≠ 1 := by
      intro hg1
      have he1 : 1 ≤ e := by
        by_contra hc
        have : e = 0 := by omega
        rw [this] at he
        omega
      have h2c : 2 ∣ capacity := by
        rw [he]
        exact dvd_pow_self 2 (by omega)
      have h2s : 2 ∣ increaseIndex := Nat.dvd_of_mod_eq_zero heven
      have := Nat.dvd_gcd h2s h2c
      rw [hg1] at this
      omega
    by_contra hcon
    apply hg
    rw [← hsurj]
    intro i hi
    by_contra hne
    apply hcon
    refine ⟨i, hi, ?_⟩
    intro j hj
    apply hne
    exact ⟨j, by rw [← hw]; exact hj⟩

theorem probe_period_witness :
    2 ≤ 1024 ∧ 1024 ≤ 2 ^ 31 ∧ 580 < 1024 ∧ 1 ≤ 512 ∧ 512 ≤ 1024 - 1
      ∧ (∀ j, probeWalk 580 512 1024 j = (580 + j * 512) % 1024)
      ∧ probeWalk 580 512 1024 (1024 / Nat.gcd 512 1024) = 580
      ∧ (∀ j, 0 < j → j < 1024 / Nat.gcd 512 1024 → probeWalk 580 512 1024 j ≠ 580)
      ∧ (∀ j j', j < 1024 / Nat.gcd 512 1024 → j' < 1024 / Nat.gcd 512 1024 →
          probeWalk 580 512 1024 j = probeWalk 580 512 1024 j' → j = j')
      ∧ ((∀ i, i < 1024 → ∃ j, probeWalk 580 512 1024 j = i) ↔ Nat.gcd 512 1024 = 1)
      ∧ ((∃ e, 1024 = 2 ^ e) → 512 % 2 = 0 →
          ∃ i, i < 1024 ∧ ∀ j, probeWalk 580 512 1024 j ≠ i) :=
  ⟨by decide, by decide, by decide, by decide, by decide,
    probe_period 1024 580 512 (by decide) (by decide) (by decide) (by decide) (by decide)⟩

/-! ## Properties that `place` and the clearing of a cell keep -/

theorem rehash_invariant (Q : HashTable → Prop) (ins : Mem → Key → Value → Option Mem)
    (hins : ∀ m key value m', Mem.OK m → Q m.hashTable → ins m key value = some m' →
      Mem.OK m' ∧ Q m'.hashTable)
    (oldEntries : List (Option Entry)) (m m' : Mem) (hm : Mem.OK m) (hq : Q m.hashTable)
    (h : rehash ins oldEntries m = some m') : Q m'.hashTable := by
  induction oldEntries generalizing m with
  | nil =>
    simp [rehash] at h
    subst h
    exact hq
  | cons x xs ih =>
    cases x with
    | none =>
      simp only [rehash] at h
      exact ih m hm hq h
    | some entry =>
      simp only [rehash] at h
      cases hi : ins m entry.key entry.value with
      | none => simp [hi] at h
      | some m1 =>
        simp only [hi] at h
        obtain ⟨h1, h2⟩ := hins _ _ _ _ hm hq hi
        exact ih m1 h1 h2 h

/-- After the `resizeTable` call of `insert` the new table is at most half full. -/
theorem resized_not_resize (depth : Nat) (m m1 : Mem) (hm : Mem.OK m)
    (hr : m.hashTable.capacity * GROWTH_FACTOR < 2 ^ 31)
    (h : resizeTableWith (fun m key value => insertDepth depth m key value) m
      (m.hashTable.capacity * GROWTH_FACTOR) = some m1) :
    Mem.OK m1 ∧ ¬ MAX_LOAD_FACTOR < loadFactor m1.hashTable.count m1.hashTable.capacity := by
  have hcap := capacityOK_double _ ⟨hm.table.shape, hm.table.range⟩ hr
  have hm1 : Mem.OK m1 := resizeTableWith_ok _
    (fun a b c d e f => insertDepth_ok depth a b c d e f) _ _ _ hcap h
  refine ⟨hm1, ?_⟩
  unfold resizeTableWith at h
  have hc := rehash_count (fun m key value => insertDepth depth m key value)
    (fun a b c d e f => insertDepth_count depth a b c d e f)
    _ _ _ ⟨wellFormed_fresh _ hcap, hcap⟩ h
  have hle := countP_le_length m.hashTable.entries
  rw [hm.table.size] at hle
  simp only [GROWTH_FACTOR] at hc
  apply not_resize_of_le _ hm1.table
  omega

theorem insertDepth_invariant (Q : HashTable → Prop)
    (hfresh : ∀ capacity, CapacityOK capacity →
      Q { count := 0, capacity := capacity, entries := List.replicate capacity none })
    (hplace : ∀ t key value r, WellFormed t → Q t →
      ¬ MAX_LOAD_FACTOR < loadFactor t.count t.capacity → probe t key = some r →
      Q (place t key value r))
    (depth : Nat) (m : Mem) (key : Key) (value : Value) (m' : Mem)
    (hm : Mem.OK m) (hq : Q m.hashTable) (h : insertDepth depth m key value = some m') :
    Q m'.hashTable := by
  induction depth generalizing m key value m' with
  | zero => simp [insertDepth] at h
  | succ depth ih =>
    by_cases hl : MAX_LOAD_FACTOR < loadFactor m.hashTable.count m.hashTable.capacity
    · by_cases hr : m.hashTable.capacity * GROWTH_FACTOR < 2 ^ 31
      · rw [insertDepth_eq_of_resize depth m key value hl hr] at h
        cases hres : resizeTableWith (fun m key value => insertDepth depth m key value) m
            (m.hashTable.capacity * GROWTH_FACTOR) with
        | none => simp [hres] at h
        | some m1 =>
          simp only [hres, Option.some_bind] at h
          obtain ⟨hm1, hl1⟩ := resized_not_resize depth m m1 hm hr hres
          have hcap := capacityOK_double _ ⟨hm.table.shape, hm.table.range⟩ hr
          have hq1 : Q m1.hashTable := by
            unfold resizeTableWith at hres
            exact rehash_invariant Q _
              (fun a b c d e f g => ⟨insertDepth_ok depth a b c d e g, ih a b c d e f g⟩)
              _ _ _ ⟨wellFormed_fresh _ hcap, hcap⟩ (hfresh _ hcap) hres
          cases hp : probe m1.hashTable key with
          | none => simp [hp] at h
          | some r =>
            simp only [hp, Option.map_some', Option.some.injEq] at h
            subst h
            exact hplace _ _ _ _ hm1.table hq1 hl1 hp
      · simp only [insertDepth, hl, hr, if_true, if_false] at h
        exact absurd h (by simp)
    · rw [insertDepth_eq_of_not_resize depth m key value hl] at h
      cases hp : probe m.hashTable key with
      | none => simp [hp] at h
      | some r =>
        simp only [hp, Option.map_some', Option.some.injEq] at h
        subst h
        exact hplace _ _ _ _ hm.table hq hl hp

theorem deleteWalk_invariant (Q : HashTable → Prop)
    (hins : ∀ m key value m', Mem.OK m → Q m.hashTable → insert m key value = some m' →
      Q m'.hashTable)
    (hclear : ∀ t index entry, WellFormed t → Q t → slot t index = some entry →
      Q { t with entries := t.entries.set index none, count := t.count - 1 })
    (increaseIndex budget : Nat) (m : Mem) (nextIndex : Nat) (m' : Mem) (hm : Mem.OK m)
    (hq : Q m.hashTable) (h : deleteWalk increaseIndex budget m nextIndex = some m') :
    Q m'.hashTable := by
  induction budget generalizing m nextIndex with
  | zero => simp [deleteWalk] at h
  | succ budget ih =>
    simp only [deleteWalk] at h
    split at h
    · simp only [Option.some.injEq] at h
      subst h
      exact hq
    · rename_i temp hs
      split at h
      · exact absurd h (by simp)
      · rename_i m1 hi
        have hc := cleared_ok m nextIndex temp hm hs
        exact ih m1 _ (insert_ok _ _ _ _ hc hi)
          (hins _ _ _ _ hc (hclear _ _ _ hm.table hq hs) hi) h

theorem deleteLoop_invariant (Q : HashTable → Prop)
    (hins : ∀ m key value m', Mem.OK m → Q m.hashTable → insert m key value = some m' →
      Q m'.hashTable)
    (hclear : ∀ t index entry, WellFormed t → Q t → slot t index = some entry →
      Q { t with entries := t.entries.set index none, count := t.count - 1 })
    (key : Key) (increaseIndex start budget : Nat) (m : Mem) (index : Nat) (flag : Bool)
    (m' : Mem) (hm : Mem.OK m) (hq : Q m.hashTable)
    (h : deleteLoop key increaseIndex start budget m index = some (flag, m')) :
    Q m'.hashTable := by
  induction budget generalizing index with
  | zero => simp [deleteLoop] at h
  | succ budget ih =>
    simp only [deleteLoop] at h
    split at h
    · simp only [Option.some.injEq, Prod.mk.injEq] at h
      rw [← h.2]
      exact hq
    · rename_i entry hs
      split at h
      · split at h
        · exact absurd h (by simp)
        · rename_i m1 hw
          simp only [Option.some.injEq, Prod.mk.injEq] at h
          rw [← h.2]
          exact deleteWalk_invariant Q hins hclear _ _ _ _ _ (cleared_ok m index entry hm hs)
            (hclear _ _ _ hm.table hq hs) hw
      · split at h
        · simp only [Option.some.injEq, Prod.mk.injEq] at h
          rw [← h.2]
          exact hq
        · exact ih _ h

/-- A property of tables that holds for every empty table, that `place` keeps on a table
that passes the load-factor test, and that the clearing of a cell keeps, holds for every
table of every state a program reaches. -/
theorem State.run_invariant (Q : HashTable → Prop)
    (hfresh : ∀ capacity, CapacityOK capacity →
      Q { count := 0, capacity := capacity, entries := List.replicate capacity none })
    (hplace : ∀ t key value r, WellFormed t → Q t →
      ¬ MAX_LOAD_FACTOR < loadFactor t.count t.capacity → probe t key = some r →
      Q (place t key value r))
    (hclear : ∀ t index entry, WellFormed t → Q t → slot t index = some entry →
      Q { t with entries := t.entries.set index none, count := t.count - 1 })
    (calls : List Call) (s : State) (h : State.initial.run calls = some s) :
    ∀ t, t ∈ s.tables → Q t := by
  have hins : ∀ m key value m', Mem.OK m → Q m.hashTable → insert m key value = some m' →
      Q m'.hashTable :=
    fun m key value m' hm hq hi => insertDepth_invariant Q hfresh hplace _ m key value m' hm hq hi
  refine State.run_induction Q (fun capacity hc => hfresh capacity hc) hins ?_
    calls State.initial s State.initial_ok (fun t ht => by simp [State.initial] at ht) h
  intro m key m' hm hq hd
  simp only [delete] at hd
  split at hd
  · exact absurd hd (by simp)
  · rename_i m1 hl
    simp only [Option.some.injEq] at hd
    subst hd
    exact deleteLoop_invariant Q hins hclear _ _ _ _ _ _ _ _ hm hq hl
  · rename_i m1 hl
    have hm1 := deleteLoop_ok _ _ _ _ _ _ _ _ hm hl
    split at hd
    · rename_i hcond
      have hcap := capacityOK_half _ ⟨hm1.table.shape, hm1.table.range⟩ hcond.2
      unfold resizeTable resizeTableWith at hd
      exact rehash_invariant Q insert
        (fun a b c d e f g => ⟨insert_ok a b c d e g, hins a b c d e f g⟩)
        _ _ _ ⟨wellFormed_fresh _ hcap, hcap⟩ (hfresh _ hcap) hd
    · simp only [Option.some.injEq] at hd
      subst hd
      exact deleteLoop_invariant Q hins hclear _ _ _ _ _ _ _ _ hm hq hl

/-! ## The cells a search visits -/

theorem getNextIndex_probeIndex (start increaseIndex capacity : Nat)
    (hc : capacity ≤ 2 ^ 31) (hs : increaseIndex < capacity) (hpos : 0 < capacity) (j : Nat) :
    getNextIndex (probeIndex start increaseIndex capacity j) increaseIndex capacity
      = probeIndex start increaseIndex capacity (j + 1) := by
  have hlt : probeIndex start increaseIndex capacity j < capacity := Nat.mod_lt _ hpos
  rw [getNextIndex_eq _ _ _ (by omega)]
  unfold probeIndex
  rw [Nat.mod_add_mod]
  congr 1
  ring

theorem probeIndex_zero (start increaseIndex capacity : Nat) (hstart : start < capacity) :
    probeIndex start increaseIndex capacity 0 = start := by
  simp [probeIndex, Nat.mod_eq_of_lt hstart]

theorem probeIndex_mod_period (start increaseIndex capacity j : Nat) (hpos : 0 < capacity) :
    probeIndex start increaseIndex capacity (j % (capacity / Nat.gcd increaseIndex capacity))
      = probeIndex start increaseIndex capacity j := by
  have hdvd : capacity ∣ capacity / Nat.gcd increaseIndex capacity * increaseIndex :=
    (dvd_mul_iff_div_gcd_dvd increaseIndex capacity hpos _).2 (dvd_refl _)
  obtain ⟨c, hc⟩ := hdvd
  unfold probeIndex
  conv_rhs => rw [← Nat.mod_add_div j (capacity / Nat.gcd increaseIndex capacity)]
  have : start + (j % (capacity / Nat.gcd increaseIndex capacity)
        + capacity / Nat.gcd increaseIndex capacity
          * (j / (capacity / Nat.gcd increaseIndex capacity))) * increaseIndex
      = start + j % (capacity / Nat.gcd increaseIndex capacity) * increaseIndex
        + capacity * (c * (j / (capacity / Nat.gcd increaseIndex capacity))) := by
    have e : capacity / Nat.gcd increaseIndex capacity
          * (j / (capacity / Nat.gcd increaseIndex capacity)) * increaseIndex
        = capacity / Nat.gcd increaseIndex capacity * increaseIndex
          * (j / (capacity / Nat.gcd increaseIndex capacity)) := by ring
    rw [Nat.add_mul, e, hc]
    ring
  rw [this, Nat.add_mul_mod_self_left]

theorem period_pos (increaseIndex capacity : Nat) (hpos : 0 < capacity) :
    0 < capacity / Nat.gcd increaseIndex capacity :=
  Nat.div_pos (Nat.le_of_dvd hpos (Nat.gcd_dvd_right _ _)) (Nat.gcd_pos_of_pos_right _ hpos)

/-- The search from position `j` of a probe sequence ends at a position `J` from `j` on,
and every cell from `j` to before `J` holds another key. -/
theorem probeLoop_trace (key : Key) (increaseIndex start : Nat) (t : HashTable)
    (hc : t.capacity ≤ 2 ^ 31) (hs : increaseIndex < t.capacity)
    (budget j : Nat) (r : Probe)
    (h : probeLoop key increaseIndex start t budget
      (probeIndex start increaseIndex t.capacity j) = some r) :
    ∃ J, j ≤ J
      ∧ (∀ j', j ≤ j' → j' < J →
          ∃ entry, slot t (probeIndex start increaseIndex t.capacity j') = some entry
            ∧ entry.key ≠ key)
      ∧ (r = .found (probeIndex start increaseIndex t.capacity J)
          ∨ r = .empty (probeIndex start increaseIndex t.capacity J)
          ∨ (r = .cycled
              ∧ ∃ entry, slot t (probeIndex start increaseIndex t.capacity J) = some entry
                ∧ entry.key ≠ key)) := by
  have hpos : 0 < t.capacity := by omega
  induction budget generalizing j with
  | zero => simp [probeLoop] at h
  | succ budget ih =>
    simp only [probeLoop] at h
    split at h
    · simp only [Option.some.injEq] at h
      exact ⟨j, le_refl _, fun j' h1 h2 => by omega, Or.inr (Or.inl h.symm)⟩
    · rename_i entry hsl
      split at h
      · simp only [Option.some.injEq] at h
        exact ⟨j, le_refl _, fun j' h1 h2 => by omega, Or.inl h.symm⟩
      · rename_i hk
        rw [getNextIndex_probeIndex _ _ _ hc hs hpos] at h
        split at h
        · simp only [Option.some.injEq] at h
          exact ⟨j, le_refl _, fun j' h1 h2 => by omega, Or.inr (Or.inr ⟨h.symm, entry, hsl, hk⟩)⟩
        · obtain ⟨J, hJ, hocc, hr⟩ := ih (j + 1) h
          refine ⟨J, by omega, ?_, hr⟩
          intro j' h1 h2
          by_cases hj : j' = j
          · subst hj
            exact ⟨entry, hsl, hk⟩
          · exact hocc j' (by omega) h2

/-- Where the search for a key ends, as a position on the probe sequence of the key. -/
theorem probe_trace (t : HashTable) (key : Key) (hw : WellFormed t) (r : Probe)
    (h : probe t key = some r) :
    ∃ J, (∀ j', j' < J →
          ∃ entry, slot t (probeIndex (multiplicativeHash key t.capacity)
              (secondMultiplicativeHash key t.capacity) t.capacity j') = some entry
            ∧ entry.key ≠ key)
      ∧ (r = .found (probeIndex (multiplicativeHash key t.capacity)
              (secondMultiplicativeHash key t.capacity) t.capacity J)
          ∨ r = .empty (probeIndex (multiplicativeHash key t.capacity)
              (secondMultiplicativeHash key t.capacity) t.capacity J)
          ∨ (r = .cycled
              ∧ ∃ entry, slot t (probeIndex (multiplicativeHash key t.capacity)
                  (secondMultiplicativeHash key t.capacity) t.capacity J) = some entry
                ∧ entry.key ≠ key)) := by
  obtain ⟨e, he, h10, h30⟩ := wellFormed_two_pow t hw
  have hc2 : 2 ≤ t.capacity := by
    rw [he]
    calc 2 = 2 ^ 1 := rfl
      _ ≤ 2 ^ e := Nat.pow_le_pow_right (by norm_num) (by omega)
  have hc31 : t.capacity ≤ 2 ^ 31 := Nat.le_of_lt hw.range
  have hsm := secondMultiplicativeHash_le key t.capacity hc2 (by omega)
  have hstart := multiplicativeHash_lt key t.capacity (by omega)
  unfold probe at h
  have h0 := probeIndex_zero (multiplicativeHash key t.capacity)
    (secondMultiplicativeHash key t.capacity) t.capacity hstart
  rw [← h0] at h
  rw [h0] at h
  have h' : probeLoop key (secondMultiplicativeHash key t.capacity)
      (multiplicativeHash key t.capacity) t t.capacity
      (probeIndex (multiplicativeHash key t.capacity)
        (secondMultiplicativeHash key t.capacity) t.capacity 0) = some r := by
    rw [h0]
    exact h
  obtain ⟨J, _, hocc, hr⟩ := probeLoop_trace key _ _ t hc31 (by omega) _ 0 r h'
  exact ⟨J, fun j' hj => hocc j' (Nat.zero_le _) hj, hr⟩

/-! ## What `place` does to the cells -/

theorem place_capacity (t : HashTable) (key : Key) (value : Value) (r : Probe) :
    (place t key value r).capacity = t.capacity := by
  cases r <;> rfl

theorem place_found_slot (t : HashTable) (key : Key) (value : Value) (i : Nat)
    (hp : probe t key = some (.found i)) :
    (∃ entry, slot t i = some entry ∧ entry.key = key)
      ∧ i < t.entries.length
      ∧ slot (place t key value (.found i)) i = some (createEntry key value)
      ∧ (∀ x, x ≠ i → slot (place t key value (.found i)) x = slot t x)
      ∧ (place t key value (.found i)).count = t.count := by
  obtain ⟨e0, hs0, hk0⟩ := probeLoop_found _ _ _ _ _ _ _ hp
  have hjlt : i < t.entries.length := getD_some_lt _ _ _ hs0
  refine ⟨⟨e0, hs0, hk0⟩, hjlt, ?_, ?_, rfl⟩
  · simp only [place]
    exact slot_set_self t i _ t.count hjlt
  · intro x hx
    simp only [place]
    exact slot_set_ne t i x _ t.count hx

theorem place_empty_slot (t : HashTable) (key : Key) (value : Value) (i : Nat)
    (hw : WellFormed t) (hp : probe t key = some (.empty i)) :
    slot t i = none
      ∧ i < t.capacity
      ∧ slot (place t key value (.empty i)) i = some (createEntry key value)
      ∧ (∀ x, x ≠ i → slot (place t key value (.empty i)) x = slot t x)
      ∧ (place t key value (.empty i)).count = t.count + 1 := by
  have hc := capacity_pos hw
  have hs0 : slot t i = none := probeLoop_empty _ _ _ _ _ _ _ hp
  have hjc : i < t.capacity :=
    probeLoop_empty_lt _ _ _ _ _ _ _ hc (multiplicativeHash_lt _ _ hc) hp
  have hjlt : i < t.entries.length := by rw [hw.size]; exact hjc
  refine ⟨hs0, hjc, ?_, ?_, rfl⟩
  · simp only [place]
    exact slot_set_self t i _ _ hjlt
  · intro x hx
    simp only [place]
    exact slot_set_ne t i x _ _ hx

theorem cleared_slot (t : HashTable) (index : Nat) (entry : Entry)
    (hs : slot t index = some entry) :
    slot { t with entries := t.entries.set index none, count := t.count - 1 } index = none
      ∧ ∀ x, x ≠ index →
          slot { t with entries := t.entries.set index none, count := t.count - 1 } x
            = slot t x :=
  ⟨slot_set_self t index none _ (getD_some_lt _ _ _ hs),
    fun x hx => slot_set_ne t index x none _ hx⟩

/-! ## The probe-cycle invariant -/

theorem onCycle_fresh (capacity : Nat) :
    OnCycle { count := 0, capacity := capacity, entries := List.replicate capacity none } := by
  intro index entry hs
  simp only [slot] at hs
  rw [getD_replicate_none] at hs
  exact absurd hs (by simp)

theorem onCycle_place (t : HashTable) (key : Key) (value : Value) (r : Probe)
    (hw : WellFormed t) (hq : OnCycle t) (hp : probe t key = some r) :
    OnCycle (place t key value r) := by
  have hc := capacity_pos hw
  cases r with
  | cycled => exact hq
  | found i =>
    obtain ⟨⟨e0, hs0, hk0⟩, _, hself, hsame, _⟩ := place_found_slot t key value i hp
    intro x entry hx
    rw [place_capacity]
    by_cases hxi : x = i
    · subst hxi
      rw [hself] at hx
      simp only [Option.some.injEq] at hx
      subst hx
      have := hq x e0 hs0
      rw [hk0] at this
      exact this
    · rw [hsame x hxi] at hx
      exact hq x entry hx
  | empty i =>
    obtain ⟨_, _, hself, hsame, _⟩ := place_empty_slot t key value i hw hp
    intro x entry hx
    rw [place_capacity]
    by_cases hxi : x = i
    · subst hxi
      rw [hself] at hx
      simp only [Option.some.injEq] at hx
      subst hx
      obtain ⟨J, _, hr⟩ := probe_trace t key hw _ hp
      rcases hr with hr | hr | hr
      · exact absurd hr (by simp)
      · simp only [Probe.empty.injEq] at hr
        refine ⟨J % (t.capacity / Nat.gcd (secondMultiplicativeHash key t.capacity) t.capacity),
          Nat.mod_lt _ (period_pos _ _ hc), ?_⟩
        show x = probeIndex (multiplicativeHash key t.capacity)
          (secondMultiplicativeHash key t.capacity) t.capacity _
        rw [probeIndex_mod_period _ _ _ _ hc]
        exact hr
      · exact absurd hr.1 (by simp)
    · rw [hsame x hxi] at hx
      exact hq x entry hx

theorem onCycle_cleared (t : HashTable) (index : Nat) (entry : Entry) (hq : OnCycle t)
    (hs : slot t index = some entry) :
    OnCycle { t with entries := t.entries.set index none, count := t.count - 1 } := by
  obtain ⟨hself, hsame⟩ := cleared_slot t index entry hs
  intro x e hx
  by_cases hxi : x = index
  · subst hxi
    rw [hself] at hx
    exact absurd hx (by simp)
  · rw [hsame x hxi] at hx
    exact hq x e hx

theorem State.run_onCycle (calls : List Call) (s : State)
    (h : State.initial.run calls = some s) : ∀ t, t ∈ s.tables → OnCycle t :=
  State.run_invariant OnCycle (fun capacity _ => onCycle_fresh capacity)
    (fun t key value r hw hq _ hp => onCycle_place t key value r hw hq hp)
    (fun t index entry _ hq hs => onCycle_cleared t index entry hq hs) calls s h

theorem wellFormed_bounds (t : HashTable) (hw : WellFormed t) (key : Key) :
    2 ≤ t.capacity ∧ t.capacity ≤ 2 ^ 31
      ∧ multiplicativeHash key t.capacity < t.capacity
      ∧ 1 ≤ secondMultiplicativeHash key t.capacity
      ∧ secondMultiplicativeHash key t.capacity < t.capacity := by
  obtain ⟨e, he, h10, h30⟩ := wellFormed_two_pow t hw
  have hc2 : 2 ≤ t.capacity := by
    rw [he]
    calc 2 = 2 ^ 1 := rfl
      _ ≤ 2 ^ e := Nat.pow_le_pow_right (by norm_num) (by omega)
  have hc31 : t.capacity ≤ 2 ^ 31 := Nat.le_of_lt hw.range
  have hsm := secondMultiplicativeHash_le key t.capacity hc2 (by omega)
  exact ⟨hc2, hc31, multiplicativeHash_lt key t.capacity (by omega), hsm.1, by omega⟩

theorem State.run_wellFormed (calls : List Call) (s : State)
    (h : State.initial.run calls = some s) : ∀ t, t ∈ s.tables → WellFormed t :=
  fun t ht => (State.run_ok calls State.initial s State.initial_ok h).tables t ht

/-- C17. In every table that a program reaches by `newHashTable`, `insert` and `delete`
calls, a cell `index` that holds an entry is on the probe sequence of the entry's key at
the capacity of the table: `index` is what `j` calls of `getNextIndex` from
`multiplicativeHash` in steps of `secondMultiplicativeHash` give, which is
`(start + j * stride) % capacity`, for a `j` below `capacity / gcd stride capacity`, and
that quotient is the number of steps after which the sequence first returns to its
start. -/
theorem probe_cycle_invariant (calls : List Call) (s : State)
    (h : State.initial.run calls = some s) (t : HashTable) (ht : t ∈ s.tables)
    (index : Nat) (entry : Entry) (hs : slot t index = some entry) :
    (∃ j, j < t.capacity / Nat.gcd (secondMultiplicativeHash entry.key t.capacity) t.capacity
        ∧ index = probeWalk (multiplicativeHash entry.key t.capacity)
            (secondMultiplicativeHash entry.key t.capacity) t.capacity j
        ∧ index = (multiplicativeHash entry.key t.capacity
            + j * secondMultiplicativeHash entry.key t.capacity) % t.capacity)
      ∧ probeWalk (multiplicativeHash entry.key t.capacity)
          (secondMultiplicativeHash entry.key t.capacity) t.capacity
          (t.capacity / Nat.gcd (secondMultiplicativeHash entry.key t.capacity) t.capacity)
        = multiplicativeHash entry.key t.capacity
      ∧ ∀ j, 0 < j →
          j < t.capacity / Nat.gcd (secondMultiplicativeHash entry.key t.capacity) t.capacity →
          probeWalk (multiplicativeHash entry.key t.capacity)
            (secondMultiplicativeHash entry.key t.capacity) t.capacity j
          ≠ multiplicativeHash entry.key t.capacity := by
  have hw := State.run_wellFormed calls s h t ht
  obtain ⟨hc2, hc31, hstart, hs1, hslt⟩ := wellFormed_bounds t hw entry.key
  have hpos : 0 < t.capacity := by omega
  obtain ⟨j, hj, hidx⟩ := State.run_onCycle calls s h t ht index entry hs
  refine ⟨⟨j, hj, ?_, hidx⟩, ?_, ?_⟩
  · rw [probeWalk_eq_probeIndex _ _ _ hc31 hslt hstart]
    exact hidx
  · rw [probeWalk_eq_probeIndex _ _ _ hc31 hslt hstart, probeIndex_eq_start_iff _ _ _ hstart,
      dvd_mul_iff_div_gcd_dvd _ _ hpos]
  · intro j' h0 hlt
    rw [probeWalk_eq_probeIndex _ _ _ hc31 hslt hstart, Ne, probeIndex_eq_start_iff _ _ _ hstart,
      dvd_mul_iff_div_gcd_dvd _ _ hpos]
    intro hd
    exact absurd (Nat.le_of_dvd h0 hd) (by omega)

theorem probe_cycle_invariant_witness :
    State.initial.run [.newHashTable, .insert 0 [98] [49], .insert 0 [76, 49] [50]]
        = some ⟨1024, [tableOf 1024 [(580, ⟨[98], [49]⟩), (68, ⟨[76, 49], [50]⟩)]]⟩
      ∧ slot (tableOf 1024 [(580, ⟨[98], [49]⟩), (68, ⟨[76, 49], [50]⟩)]) 68
        = some ⟨[76, 49], [50]⟩
      ∧ ∃ j, j < 1024 / Nat.gcd (secondMultiplicativeHash [76, 49] 1024) 1024
        ∧ 68 = probeWalk (multiplicativeHash [76, 49] 1024)
            (secondMultiplicativeHash [76, 49] 1024) 1024 j
        ∧ 68 = (multiplicativeHash [76, 49] 1024
            + j * secondMultiplicativeHash [76, 49] 1024) % 1024 :=
  ⟨run_b_L1, by decide!,
    (probe_cycle_invariant _ _ run_b_L1
      (tableOf 1024 [(580, ⟨[98], [49]⟩), (68, ⟨[76, 49], [50]⟩)]) (by simp)
      68 ⟨[76, 49], [50]⟩ (by decide!)).1⟩

/-! ## The frame of an `insert` that does not resize -/

theorem insert_eq_place (m : Mem) (key : Key) (value : Value) (hm : Mem.OK m)
    (h : ¬ MAX_LOAD_FACTOR < loadFactor m.hashTable.count m.hashTable.capacity) :
    ∃ r, probe m.hashTable key = some r
      ∧ insert m key value = some { m with hashTable := place m.hashTable key value r } := by
  obtain ⟨r, hr⟩ := probe_total m.hashTable key hm.table
  refine ⟨r, hr, ?_⟩
  unfold insert
  rw [insertDepth_eq_of_not_resize 3 m key value h, hr]
  rfl

theorem get_eq_probe (t : HashTable) (key : Key) :
    get t key = (probe t key).map (fun r =>
      match r with
      | .found i => (slot t i).map Entry.value
      | _ => none) := by
  unfold get probe
  exact getLoop_eq_probeLoop _ _ _ _ _ _

theorem get_some_iff (t : HashTable) (key : Key) (v : Value) :
    get t key = some (some v)
      ↔ ∃ i entry, probe t key = some (.found i) ∧ slot t i = some entry ∧ entry.value = v := by
  rw [get_eq_probe]
  constructor
  · intro h
    cases hp : probe t key with
    | none => simp [hp] at h
    | some r =>
      cases r with
      | found i =>
        simp only [hp, Option.map_some', Option.some.injEq] at h
        cases hs : slot t i with
        | none => simp [hs] at h
        | some entry =>
          simp only [hs, Option.map_some', Option.some.injEq] at h
          exact ⟨i, entry, rfl, hs, h⟩
      | empty i => simp [hp] at h
      | cycled => simp [hp] at h
  · rintro ⟨i, entry, hp, hs, hv⟩
    simp [hp, hs, hv]

/-- A key that `get` finds is still found, with the same value, after `place` has put
another key. -/
theorem place_get_frame (t : HashTable) (key : Key) (value : Value) (r : Probe)
    (hw : WellFormed t) (hp : probe t key = some r) (key' : Key) (v : Value)
    (hne : key' ≠ key) (hg : get t key' = some (some v)) :
    get (place t key value r) key' = some (some v) := by
  rw [get_some_iff] at hg ⊢
  obtain ⟨i, entry, hp', hs', hv⟩ := hg
  obtain ⟨e1, hs1, hk1⟩ := probeLoop_found _ _ _ _ _ _ _ hp'
  have hek : entry.key = key' := by
    rw [hs'] at hs1
    simp only [Option.some.injEq] at hs1
    rw [hs1]
    exact hk1
  cases r with
  | cycled => exact ⟨i, entry, hp', hs', hv⟩
  | found j =>
    obtain ⟨⟨e0, hs0, hk0⟩, _, hself, hsame, _⟩ := place_found_slot t key value j hp
    have hij : i ≠ j := by
      intro hij
      subst hij
      rw [hs'] at hs0
      simp only [Option.some.injEq] at hs0
      rw [hs0] at hek
      exact hne (hek.symm.trans hk0)
    have hkeys : ∀ x, (slot (place t key value (.found j)) x).map Entry.key
        = (slot t x).map Entry.key := by
      intro x
      by_cases hx : x = j
      · subst hx
        rw [hself, hs0]
        simp [createEntry, hk0]
      · rw [hsame x hx]
    refine ⟨i, entry, ?_, by rw [hsame i hij]; exact hs', hv⟩
    unfold probe at hp' ⊢
    rw [place_capacity, probeLoop_same_keys key' _ _ t (place t key value (.found j)) rfl hkeys]
    exact hp'
  | empty j =>
    obtain ⟨hs0, _, hself, hsame, _⟩ := place_empty_slot t key value j hw hp
    have hij : i ≠ j := by
      intro hij
      subst hij
      rw [hs'] at hs0
      exact absurd hs0 (by simp)
    refine ⟨i, entry, ?_, by rw [hsame i hij]; exact hs', hv⟩
    unfold probe at hp' ⊢
    rw [place_capacity]
    exact probeLoop_found_frame _ _ _ t (place t key value (.empty j)) j rfl hs0 hsame _ _ _ hp'

/-- C20. On a table in the shape every table of a program has, with
`count / capacity` at most `0.75`, the test of line 153 fails and `insert key value`
returns. It leaves the capacity and the global variable as they are. There is a cell
`index` such that every other cell is unchanged, and if the cell `index` has changed it
holds `key` with `value` afterwards. The count grows by one if a `NULL` cell has become
non-`NULL` and stays as it is otherwise. Every other key for which `get` returned a value
before has the same value afterwards. -/
theorem insert_frame (m : Mem) (key : Key) (value : Value) (hm : Mem.OK m)
    (hload : 4 * m.hashTable.count ≤ 3 * (m.hashTable.capacity : Int)) :
    ¬ MAX_LOAD_FACTOR < loadFactor m.hashTable.count m.hashTable.capacity
      ∧ ∃ m', insert m key value = some m'
        ∧ m'.hashTable.capacity = m.hashTable.capacity
        ∧ m'.CURR_TABLE_CAPACITY = m.CURR_TABLE_CAPACITY
        ∧ m'.hashTable.entries.length = m.hashTable.entries.length
        ∧ (∃ index,
            (∀ x, x ≠ index → slot m'.hashTable x = slot m.hashTable x)
            ∧ (slot m'.hashTable index ≠ slot m.hashTable index →
                slot m'.hashTable index = some ⟨key, value⟩))
        ∧ ((∃ index, slot m.hashTable index = none ∧ slot m'.hashTable index ≠ none) →
            m'.hashTable.count = m.hashTable.count + 1)
        ∧ ((¬ ∃ index, slot m.hashTable index = none ∧ slot m'.hashTable index ≠ none) →
            m'.hashTable.count = m.hashTable.count)
        ∧ ∀ key' v, key' ≠ key → get m.hashTable key' = some (some v) →
            get m'.hashTable key' = some (some v) := by
  have hl := not_resize_of_le m.hashTable hm.table hload
  refine ⟨hl, ?_⟩
  obtain ⟨r, hp, hi⟩ := insert_eq_place m key value hm hl
  refine ⟨_, hi, place_capacity _ _ _ _, rfl, ?_, ?_, ?_, ?_,
    fun key' v hne hg => place_get_frame _ key value r hm.table hp key' v hne hg⟩
  · cases r <;> simp [place]
  · cases r with
    | cycled => exact ⟨0, fun x _ => rfl, fun h => absurd rfl h⟩
    | found j =>
      obtain ⟨_, _, hself, hsame, _⟩ := place_found_slot m.hashTable key value j hp
      exact ⟨j, hsame, fun _ => hself⟩
    | empty j =>
      obtain ⟨_, _, hself, hsame, _⟩ := place_empty_slot m.hashTable key value j hm.table hp
      exact ⟨j, hsame, fun _ => hself⟩
  · rintro ⟨index, h0, h1⟩
    cases r with
    | cycled => exact absurd h0 h1
    | found j =>
      obtain ⟨⟨e0, hs0, _⟩, _, hself, hsame, _⟩ := place_found_slot m.hashTable key value j hp
      exfalso
      by_cases hx : index = j
      · subst hx
        rw [h0] at hs0
        exact absurd hs0 (by simp)
      · exact h1 (by rw [← h0]; exact hsame index hx)
    | empty j =>
      exact (place_empty_slot m.hashTable key value j hm.table hp).2.2.2.2
  · intro hno
    cases r with
    | cycled => rfl
    | found j => rfl
    | empty j =>
      obtain ⟨hs0, _, hself, _, _⟩ := place_empty_slot m.hashTable key value j hm.table hp
      have hne : slot (place m.hashTable key value (.empty j)) j ≠ none := by
        rw [hself]
        simp
      exact absurd ⟨j, hs0, hne⟩ hno

theorem insert_frame_witness :
    Mem.OK ⟨1024, tableOf 1024 [(580, ⟨[98], [49]⟩)]⟩
      ∧ 4 * (tableOf 1024 [(580, ⟨[98], [49]⟩)]).count
          ≤ 3 * ((tableOf 1024 [(580, ⟨[98], [49]⟩)]).capacity : Int)
      ∧ ∃ m', insert ⟨1024, tableOf 1024 [(580, ⟨[98], [49]⟩)]⟩ [51, 115] [50] = some m'
        ∧ ∀ key' v, key' ≠ [51, 115] →
            get (tableOf 1024 [(580, ⟨[98], [49]⟩)]) key' = some (some v) →
            get m'.hashTable key' = some (some v) :=
  have hm : Mem.OK ⟨1024, tableOf 1024 [(580, ⟨[98], [49]⟩)]⟩ :=
    State.mem_ok ⟨1024, [tableOf 1024 [(580, ⟨[98], [49]⟩)]]⟩ 0 _
      (State.run_ok _ State.initial _ State.initial_ok run_b) rfl
  have hload : 4 * (tableOf 1024 [(580, ⟨[98], [49]⟩)]).count
      ≤ 3 * ((tableOf 1024 [(580, ⟨[98], [49]⟩)]).capacity : Int) := by decide
  ⟨hm, hload,
    let ⟨m', h1, _, _, _, _, _, _, h8⟩ := (insert_frame _ [51, 115] [50] hm hload).2
    ⟨m', h1, h8⟩⟩

/-! ## `insert` without `resizeTable` -/

theorem insertNoResize_eq (m : Mem) (key : Key) (value : Value)
    (h : ¬ MAX_LOAD_FACTOR < loadFactor m.hashTable.count m.hashTable.capacity) :
    insertNoResize m key value
      = (probe m.hashTable key).map (fun r =>
          { m with hashTable := place m.hashTable key value r }) := by
  simp only [insertNoResize, h, if_false]
  rw [insertLoop_eq_probeLoop]
  unfold probe
  cases probeLoop key (secondMultiplicativeHash key m.hashTable.capacity)
      (multiplicativeHash key m.hashTable.capacity) m.hashTable m.hashTable.capacity
      (multiplicativeHash key m.hashTable.capacity) with
  | none => rfl
  | some r => rfl

/-- Where `insertNoResize` has a result, the test of line 153 fails and `insert` has the
same result, whatever the nesting budget. -/
theorem insertNoResize_le (depth : Nat) (m : Mem) (key : Key) (value : Value) (m' : Mem)
    (h : insertNoResize m key value = some m') :
    ¬ MAX_LOAD_FACTOR < loadFactor m.hashTable.count m.hashTable.capacity
      ∧ insertDepth (depth + 1) m key value = some m' := by
  by_cases hl : MAX_LOAD_FACTOR < loadFactor m.hashTable.count m.hashTable.capacity
  · simp [insertNoResize, hl] at h
  · refine ⟨hl, ?_⟩
    rw [insertDepth_eq_of_not_resize depth m key value hl, ← insertNoResize_eq m key value hl]
    exact h

theorem rehash_mono (ins ins' : Mem → Key → Value → Option Mem)
    (hle : ∀ m key value m', ins m key value = some m' → ins' m key value = some m')
    (oldEntries : List (Option Entry)) (m m' : Mem)
    (h : rehash ins oldEntries m = some m') : rehash ins' oldEntries m = some m' := by
  induction oldEntries generalizing m with
  | nil => exact h
  | cons x xs ih =>
    cases x with
    | none =>
      simp only [rehash] at h ⊢
      exact ih m h
    | some entry =>
      simp only [rehash] at h ⊢
      cases hi : ins m entry.key entry.value with
      | none => simp [hi] at h
      | some m1 =>
        simp only [hi] at h
        rw [hle _ _ _ _ hi]
        exact ih m1 h

/-- With room for every old entry below three quarters of the capacity, the rehash loop
runs through without any `insert` entering `resizeTable`. -/
theorem rehash_insertNoResize (oldEntries : List (Option Entry)) (m : Mem) (hm : Mem.OK m)
    (hroom : 4 * (m.hashTable.count + (oldEntries.countP Option.isSome : Nat))
      ≤ 3 * (m.hashTable.capacity : Int)) :
    ∃ m', rehash insertNoResize oldEntries m = some m'
      ∧ Mem.OK m' ∧ m'.CURR_TABLE_CAPACITY = m.CURR_TABLE_CAPACITY
      ∧ m'.hashTable.capacity = m.hashTable.capacity
      ∧ m'.hashTable.count ≤ m.hashTable.count + (oldEntries.countP Option.isSome : Nat) := by
  induction oldEntries generalizing m with
  | nil => exact ⟨m, rfl, hm, rfl, rfl, by simp⟩
  | cons x xs ih =>
    cases x with
    | none =>
      simp only [rehash]
      have e : (none :: xs).countP Option.isSome = xs.countP Option.isSome := by simp
      rw [e] at hroom ⊢
      exact ih m hm hroom
    | some entry =>
      have e : (some entry :: xs).countP Option.isSome = xs.countP Option.isSome + 1 := by
        simp
      rw [e] at hroom ⊢
      push_cast at hroom ⊢
      have hl := not_resize_of_le m.hashTable hm.table (by omega)
      obtain ⟨r, hr⟩ := probe_total m.hashTable entry.key hm.table
      have hi : insertNoResize m entry.key entry.value
          = some { m with hashTable := place m.hashTable entry.key entry.value r } := by
        rw [insertNoResize_eq m _ _ hl, hr]
        rfl
      have hok : Mem.OK { m with hashTable := place m.hashTable entry.key entry.value r } :=
        insert_ok _ _ _ _ hm (insertNoResize_le 3 _ _ _ _ hi).2
      have hc := place_count_le m.hashTable entry.key entry.value r
      simp only [rehash, hi]
      obtain ⟨m', h1, h2, h3, h4, h5⟩ := ih _ hok (by
        show 4 * ((place m.hashTable entry.key entry.value r).count
            + (xs.countP Option.isSome : Nat))
          ≤ 3 * ((place m.hashTable entry.key entry.value r).capacity : Int)
        rw [hc.2.2]
        omega)
      refine ⟨m', h1, h2, h3, by rw [h4]; exact hc.2.2, ?_⟩
      have h5' : m'.hashTable.count ≤ (place m.hashTable entry.key entry.value r).count
          + (xs.countP Option.isSome : Nat) := h5
      omega

/-- The shrink test of `delete` (line 263) leaves room in a table of half the size. -/
theorem room_of_shrink (t : HashTable) (hw : WellFormed t)
    (h : loadFactor t.count t.capacity < MIN_LOAD_FACTOR) :
    8 * t.count ≤ 3 * (t.capacity : Int) := by
  obtain ⟨e, he, h10, h30⟩ := wellFormed_two_pow t hw
  have hex := hw.exact
  rw [hex, he, loadFactor_lt_min_iff_round _ e (by omega)] at h
  have hr := le_roundSig 24 (occupied t) (by decide)
  rw [hex, he]
  have hp : (0 : Nat) < 2 ^ e := by positivity
  generalize (2 : Nat) ^ e = c at h hp ⊢
  generalize roundSig 24 (occupied t) = x at h hr
  generalize occupied t = n at hr ⊢
  norm_num at hr
  omega

/-- The `resizeTable` call of `delete` (line 265) returns, with no `insert` of its rehash
loop entering `resizeTable`. -/
theorem shrink_total (m1 : Mem) (hm1 : Mem.OK m1)
    (hl : loadFactor m1.hashTable.count m1.hashTable.capacity < MIN_LOAD_FACTOR)
    (hi : INITIAL_TABLE_CAPACITY < m1.hashTable.capacity) :
    ∃ m2, resizeTableWith insertNoResize m1 (m1.hashTable.capacity / 2) = some m2
      ∧ resizeTable m1 (m1.hashTable.capacity / 2) = some m2
      ∧ m2.hashTable.capacity = m1.hashTable.capacity / 2 := by
  have hcap := capacityOK_half _ ⟨hm1.table.shape, hm1.table.range⟩ hi
  have hroom := room_of_shrink m1.hashTable hm1.table hl
  have hex := hm1.table.exact
  simp only [occupied] at hex
  have hpow : m1.hashTable.capacity = m1.hashTable.capacity / 2 * 2 := by
    obtain ⟨k, hk⟩ := hm1.table.shape
    cases k with
    | zero => simp [hk] at hi
    | succ k =>
      rw [hk, pow_succ, ← Nat.mul_assoc, Nat.mul_div_cancel _ (by norm_num)]
  obtain ⟨m2, h1, _, _, h4, _⟩ := rehash_insertNoResize m1.hashTable.entries
    ⟨m1.hashTable.capacity / 2,
      { count := 0, capacity := m1.hashTable.capacity / 2,
        entries := List.replicate (m1.hashTable.capacity / 2) none }⟩
    ⟨wellFormed_fresh _ hcap, hcap⟩ (by
      show 4 * ((0 : Int) + (m1.hashTable.entries.countP Option.isSome : Nat))
        ≤ 3 * ((m1.hashTable.capacity / 2 : Nat) : Int)
      rw [← hex]
      omega)
  have h4 : m2.hashTable.capacity = m1.hashTable.capacity / 2 := h4
  exact ⟨m2, h1,
    rehash_mono _ _ (fun a b c d e => (insertNoResize_le 3 a b c d e).2) _ _ _ h1, h4⟩

/-- C16. In every state that a program reaches by `newHashTable`, `insert` and `delete`
calls, for every table of the state: when `insert` calls `resizeTable` with twice the
capacity, and when `delete` calls it with half the capacity, the rehash loop runs through
with `insertNoResize` for `insert`, that is with no `insert` call of the loop finding the
test of line 153 true, and it gives the same table as with `insert` itself; the capacity
of that table, and of the table `insert` or `delete` returns, is the one `resizeTable` was
called with. -/
theorem no_nested_resize (calls : List Call) (s : State)
    (h : State.initial.run calls = some s) (pointer : Nat) (t : HashTable)
    (ht : s.tables.get? pointer = some t) (key : Key) :
    (∀ value, MAX_LOAD_FACTOR < loadFactor t.count t.capacity →
        t.capacity * GROWTH_FACTOR < 2 ^ 31 →
        ∃ m1 m', resizeTableWith insertNoResize ⟨s.CURR_TABLE_CAPACITY, t⟩
              (t.capacity * GROWTH_FACTOR) = some m1
          ∧ resizeTable ⟨s.CURR_TABLE_CAPACITY, t⟩ (t.capacity * GROWTH_FACTOR) = some m1
          ∧ m1.hashTable.capacity = t.capacity * GROWTH_FACTOR
          ∧ insert ⟨s.CURR_TABLE_CAPACITY, t⟩ key value = some m'
          ∧ m'.hashTable.capacity = t.capacity * GROWTH_FACTOR)
      ∧ ∀ m1, deleteLoop key (secondMultiplicativeHash key t.capacity)
            (multiplicativeHash key t.capacity) t.capacity ⟨s.CURR_TABLE_CAPACITY, t⟩
            (multiplicativeHash key t.capacity) = some (false, m1) →
          loadFactor m1.hashTable.count m1.hashTable.capacity < MIN_LOAD_FACTOR →
          INITIAL_TABLE_CAPACITY < m1.hashTable.capacity →
          ∃ m2, resizeTableWith insertNoResize m1 (m1.hashTable.capacity / 2) = some m2
            ∧ resizeTable m1 (m1.hashTable.capacity / 2) = some m2
            ∧ m2.hashTable.capacity = m1.hashTable.capacity / 2
            ∧ delete ⟨s.CURR_TABLE_CAPACITY, t⟩ key = some m2 := by
  have hm : Mem.OK ⟨s.CURR_TABLE_CAPACITY, t⟩ :=
    State.mem_ok s pointer t (State.run_ok calls State.initial s State.initial_ok h) ht
  constructor
  · intro value hl hr
    have hcap := capacityOK_double _ ⟨hm.table.shape, hm.table.range⟩ hr
    have hle : t.entries.countP Option.isSome ≤ t.capacity := by
      have h0 := countP_le_length t.entries
      have h1 : t.entries.length = t.capacity := hm.table.size
      omega
    obtain ⟨m1, h1, h2, _, h4, _⟩ := rehash_insertNoResize t.entries
      ⟨t.capacity * GROWTH_FACTOR,
        { count := 0, capacity := t.capacity * GROWTH_FACTOR,
          entries := List.replicate (t.capacity * GROWTH_FACTOR) none }⟩
      ⟨wellFormed_fresh _ hcap, hcap⟩ (by
        show 4 * ((0 : Int) + (t.entries.countP Option.isSome : Nat))
          ≤ 3 * ((t.capacity * 2 : Nat) : Int)
        push_cast
        omega)
    have h4 : m1.hashTable.capacity = t.capacity * GROWTH_FACTOR := h4
    obtain ⟨r, hp⟩ := probe_total m1.hashTable key h2.table
    refine ⟨m1, { m1 with hashTable := place m1.hashTable key value r }, h1,
      rehash_mono _ _ (fun a b c d e => (insertNoResize_le 3 a b c d e).2) _ _ _ h1, h4, ?_,
      by rw [← h4]; exact place_capacity _ _ _ _⟩
    have h3 : resizeTableWith (fun m key value => insertDepth 3 m key value)
        ⟨s.CURR_TABLE_CAPACITY, t⟩ (t.capacity * GROWTH_FACTOR) = some m1 :=
      rehash_mono _ _ (fun a b c d e => (insertNoResize_le 2 a b c d e).2) _ _ _ h1
    unfold insert
    rw [insertDepth_eq_of_resize 3 _ key value hl hr, h3, Option.some_bind, hp]
    rfl
  · intro m1 hd hl hi
    have hm1 := deleteLoop_ok _ _ _ _ _ _ _ _ hm hd
    obtain ⟨m2, h1, h2, h4⟩ := shrink_total m1 hm1 hl hi
    refine ⟨m2, h1, h2, h4, ?_⟩
    simp only [delete, hd, hl, hi, and_self, if_true]
    exact h2

/-- The program that creates a table and inserts the 769 keys of `growKeys`: the table
has 769 entries in 1024 cells, so the next `insert` finds the test of line 153 true. -/
theorem growKeys_run :
    ∃ t, State.initial.run
          (Call.newHashTable :: growKeys.map (fun key => Call.insert 0 key []))
        = some ⟨1024, [t]⟩
      ∧ WellFormed t ∧ t.capacity = 1024 ∧ t.count = 769 := by
  have hnew : WellFormed (newHashTable 1024) := newHashTable_wellFormed 1024 capacityOK_1024
  obtain ⟨t1, hrun1, hw1, hcap1, hcount1⟩ := run_increasing growKeys 0 (newHashTable 1024)
    hnew rfl (fun i _ => getD_replicate_none 1024 i) growKeys_increasing
    (by rw [growKeys_length]; show (0 : Int) + ((769 : Nat) : Int) ≤ 769; decide)
  rw [growKeys_length] at hcount1
  have hcount1 : t1.count = 769 := by
    rw [hcount1]
    show (0 : Int) + ((769 : Nat) : Int) = 769
    decide
  refine ⟨t1, ?_, hw1, hcap1, hcount1⟩
  have hstep : State.initial.step Call.newHashTable
      = some ⟨1024, [newHashTable 1024]⟩ := rfl
  rw [State.run, hstep]
  exact hrun1

theorem no_nested_resize_witness :
    (∃ t, State.initial.run
            (Call.newHashTable :: growKeys.map (fun key => Call.insert 0 key []))
          = some ⟨1024, [t]⟩
        ∧ t.count = 769 ∧ t.capacity = 1024
        ∧ MAX_LOAD_FACTOR < loadFactor t.count t.capacity
        ∧ t.capacity * GROWTH_FACTOR < 2 ^ 31
        ∧ ∃ m1 m', resizeTableWith insertNoResize ⟨1024, t⟩ (t.capacity * GROWTH_FACTOR)
              = some m1
          ∧ resizeTable ⟨1024, t⟩ (t.capacity * GROWTH_FACTOR) = some m1
          ∧ m1.hashTable.capacity = t.capacity * GROWTH_FACTOR
          ∧ insert ⟨1024, t⟩ [122, 122] [] = some m'
          ∧ m'.hashTable.capacity = t.capacity * GROWTH_FACTOR)
      ∧ ∃ t0, State.initial.run (growCalls ++ [.newHashTable, .insert 1 [98] [49],
              .insert 1 [51, 115] [50], .insert 1 [76, 49] [51], .insert 1 [97] [52]])
          = some ⟨2048, [t0, tableOf 2048 [(1161, ⟨[98], [49]⟩), (136, ⟨[51, 115], [50]⟩),
            (1672, ⟨[76, 49], [51]⟩), (1944, ⟨[97], [52]⟩)]]⟩
        ∧ deleteLoop [97] (secondMultiplicativeHash [97] 2048) (multiplicativeHash [97] 2048)
            2048 ⟨2048, tableOf 2048 [(1161, ⟨[98], [49]⟩), (136, ⟨[51, 115], [50]⟩),
            (1672, ⟨[76, 49], [51]⟩), (1944, ⟨[97], [52]⟩)]⟩
            (multiplicativeHash [97] 2048)
          = some (false, ⟨2048, tableOf 2048 [(1161, ⟨[98], [49]⟩), (136, ⟨[51, 115], [50]⟩),
            (1672, ⟨[76, 49], [51]⟩)]⟩)
        ∧ loadFactor 3 2048 < MIN_LOAD_FACTOR
        ∧ INITIAL_TABLE_CAPACITY < 2048
        ∧ ∃ m2, resizeTableWith insertNoResize ⟨2048, tableOf 2048 [(1161, ⟨[98], [49]⟩), (136, ⟨[51, 115], [50]⟩),
            (1672, ⟨[76, 49], [51]⟩)]⟩ (2048 / 2) = some m2
          ∧ resizeTable ⟨2048, tableOf 2048 [(1161, ⟨[98], [49]⟩), (136, ⟨[51, 115], [50]⟩),
            (1672, ⟨[76, 49], [51]⟩)]⟩ (2048 / 2) = some m2
          ∧ m2.hashTable.capacity = 2048 / 2
          ∧ delete ⟨2048, tableOf 2048 [(1161, ⟨[98], [49]⟩), (136, ⟨[51, 115], [50]⟩),
            (1672, ⟨[76, 49], [51]⟩), (1944, ⟨[97], [52]⟩)]⟩ [97] = some m2 := by
  constructor
  · obtain ⟨t, hrun, hw, hcap, hcount⟩ := growKeys_run
    have hl : MAX_LOAD_FACTOR < loadFactor t.count t.capacity :=
      resize_of_gt t hw (by rw [hcap]; decide) (by rw [hcap, hcount]; decide)
    have hr : t.capacity * GROWTH_FACTOR < 2 ^ 31 := by
      rw [hcap]
      decide
    exact ⟨t, hrun, hcount, hcap, hl, hr,
      (no_nested_resize _ _ hrun 0 t rfl [122, 122]).1 [] hl hr⟩
  · obtain ⟨t0, hrun⟩ := grow_then_run [.insert 1 [98] [49], .insert 1 [51, 115] [50],
      .insert 1 [76, 49] [51], .insert 1 [97] [52]] rfl _ run_second_inserts
    have hd : deleteLoop [97] (secondMultiplicativeHash [97] 2048)
        (multiplicativeHash [97] 2048) 2048
        ⟨2048, tableOf 2048 [(1161, ⟨[98], [49]⟩), (136, ⟨[51, 115], [50]⟩),
            (1672, ⟨[76, 49], [51]⟩), (1944, ⟨[97], [52]⟩)]⟩
        (multiplicativeHash [97] 2048)
      = some (false, ⟨2048, tableOf 2048 [(1161, ⟨[98], [49]⟩), (136, ⟨[51, 115], [50]⟩),
            (1672, ⟨[76, 49], [51]⟩)]⟩) := by decide!
    have hlf : loadFactor 3 2048 < MIN_LOAD_FACTOR := by decide!
    have hi : INITIAL_TABLE_CAPACITY < 2048 := by decide
    exact ⟨t0, hrun, hd, hlf, hi,
      (no_nested_resize _ _ hrun 1
        (tableOf 2048 [(1161, ⟨[98], [49]⟩), (136, ⟨[51, 115], [50]⟩),
            (1672, ⟨[76, 49], [51]⟩), (1944, ⟨[97], [52]⟩)]) rfl [97]).2
        ⟨2048, tableOf 2048 [(1161, ⟨[98], [49]⟩), (136, ⟨[51, 115], [50]⟩),
            (1672, ⟨[76, 49], [51]⟩)]⟩ hd hlf hi⟩

/-! ## The load-factor test along the walk of `delete` -/

end HashTable
